import Mathlib

/-!
# Verification of the FASP sparse-solver core against its specification

This file gives a shallow embedding, in Lean 4, of the parts of the FASP
(`faspsolver`) C sources that the specification claims talk about, and proves
or refutes each claim.

Modelling conventions:
* C `double` (`REAL`) is modelled as exact arithmetic.  Routines that use
  only field and order operations are modelled over `ℚ` (computable, so the
  concrete counterexamples and witnesses below evaluate by `decide`/`rfl`);
  the safe-net BiCGStab solver computes square roots and is modelled over
  `ℝ`.
* C `int`/`INT` index values are modelled as `ℕ` where the source only ever
  holds non-negative values, and as `ℤ` where sign matters (sentinels, STR
  band offsets, CF markers).
* C arrays are modelled as total functions (`ℕ → ℚ`, `ℤ → ℚ`) or as `List`s;
  an out-of-range C access is then a read of the total function outside the
  live region, which is exactly what the safety claims are about.
* In-place mutation becomes explicit state passing; `goto`-based control flow
  becomes a step function returning an explicit exit tag.
* Helper routines whose definitions live in files of the repository that are
  not part of the provided sources (e.g. `fasp_blas_array_axpy`,
  `fasp_blas_dcsr_mxv`, `fasp_dcsr_getdiag`) are modelled from the
  specification; each such definition carries a doc comment saying so.
-/

namespace Fasp

/-- `SMALLREAL` from the spec (§6 numeric sentinels): `10⁻²⁰`. -/
def SMALLREAL : ℝ := 1e-20

/-- `BIGREAL` from the spec (§6 numeric sentinels): `10³⁶`. -/
def BIGREAL : ℝ := 1e36

/-- `STAG_RATIO` from the spec (§4.5): `1e-2`. -/
def STAG_RATIO : ℝ := 1e-2

/-- `MAX_STAG` from the spec (§4.5): typically 20. -/
def MAX_STAG : ℕ := 20

/-- `MAX_RESTART` from the spec (§4.5): typically 20. -/
def MAX_RESTART : ℕ := 20

end Fasp

/-! ## Vector Algebra (`src/core/src/blas_vec.c`), for claim C8 -/

namespace BlasVec

/-- The `dvector` data type: a length field and the value array
(spec §3: "A pair `(row, val)`").  The array is modelled as a `List ℚ`;
C reads use `getD` with default 0 (an out-of-range C read is unspecified;
the claims below only evaluate in-range reads). -/
structure dvector where
  row : ℕ
  val : List ℚ

/-- Error kind for `exit(ERROR_DATA_STRUCTURE)` in `blas_vec.c`. -/
inductive BlasError where
  | dataStructure
deriving DecidableEq

/-- `fasp_blas_dvec_axpy` from `src/core/src/blas_vec.c`: `y = a*x + y`.
The source tests `(y->row - m) != 0` (with `m = x->row`) and calls
`exit(ERROR_DATA_STRUCTURE)` on mismatch; the `exit` is modelled as
returning `.error`. -/
def fasp_blas_dvec_axpy (a : ℚ) (x y : dvector) : Except BlasError dvector :=
  let m := x.row
  if ((y.row : ℤ) - (m : ℤ)) ≠ 0 then
    .error .dataStructure
  else
    .ok { row := y.row,
          val := (List.range y.val.length).map
            (fun i => if i < m then y.val.getD i 0 + a * x.val.getD i 0
                      else y.val.getD i 0) }

/-- `fasp_blas_dvec_axpyz` from `src/core/src/blas_vec.c`: `z = a*x + y`
(`z` is overwritten: `z->row = m`, `memcpy` from `y`, then the axpy loop).
The length-mismatch `exit` is modelled as `.error`. -/
def fasp_blas_dvec_axpyz (a : ℚ) (x y : dvector) : Except BlasError dvector :=
  let m := x.row
  if ((y.row : ℤ) - (m : ℤ)) ≠ 0 then
    .error .dataStructure
  else
    .ok { row := m,
          val := (List.range m).map
            (fun i => y.val.getD i 0 + a * x.val.getD i 0) }

/-- `fasp_blas_dvec_dotprod` from `src/core/src/blas_vec.c`: the loop
`for (i=0; i<length; ++i) value += xpt[i]*ypt[i]` with `length = x->row`.
The source performs no length check at all: the return type is a plain
real number and there is no error case. -/
def fasp_blas_dvec_dotprod (x y : dvector) : ℚ :=
  (List.range x.row).foldl (fun value i => value + x.val.getD i 0 * y.val.getD i 0) 0

end BlasVec

/-! ## Polynomial smoother diagonal setup (`src/base/src/smoother_poly.c`), claim C10 -/

namespace Poly

/-- A CSR matrix as used by `Diaginv`: row count, `IA`, `JA`, `val`.
Arrays are total functions so that the out-of-row read performed by the
source on a missing diagonal is expressible: `a (ia (i+1))` is the first
entry of the next row (or past the end of `val` for the last row). -/
structure dCSRmat where
  row : ℕ
  IA : ℕ → ℕ
  JA : ℕ → ℕ
  val : ℕ → ℚ

/-- The inner scan of `Diaginv` (`src/base/src/smoother_poly.c`):
`for (j=ia[i]; j<ia[i+1]; j++) { if (i==ja[j]) break; }` — returns the value
of `j` after the loop: the first position in `[ia i, ia (i+1))` whose column
equals `i`, or `ia (i+1)` when the scan runs off the end of the row. -/
def diagScan (A : dCSRmat) (i : ℕ) : ℕ :=
  go (A.IA i) (A.IA (i+1) - A.IA i)
where
  /-- Scan `fuel` positions starting at `j`. -/
  go (j : ℕ) : ℕ → ℕ
    | 0 => j
    | fuel+1 => if i = A.JA j then j else go (j+1) fuel

/-- `Diaginv` from `src/base/src/smoother_poly.c`: for each row `i`, scan the
row for the diagonal position and set `Dinv[i] = 1.0/a[j]` with `j` the value
of the loop index where the scan stopped.  No check is made that the scan
found a diagonal or that the entry is nonzero. -/
def Diaginv (A : dCSRmat) : ℕ → ℚ :=
  fun i => 1.0 / A.val (diagScan A i)

end Poly

/-! ### Claim C8 -/

namespace BlasVec

/-- C8, counterexample.  The claim states that *every* vector-algebra
operation, "including … the inner product `fasp_blas_dvec_dotprod`", fails
with a length-mismatch error rather than producing a numeric result when the
two `row` fields differ.  In the source, `fasp_blas_dvec_dotprod` performs no
length check at all: on the mismatched pair `x = (row 2, [1,2])`,
`y = (row 3, [1,1,1])` it simply returns the numeric value `3`. -/
theorem C8_dotprod_no_check_counterexample :
    (dvector.mk 2 [1, 2]).row ≠ (dvector.mk 3 [1, 1, 1]).row ∧
    fasp_blas_dvec_dotprod (dvector.mk 2 [1, 2]) (dvector.mk 3 [1, 1, 1]) = 3 := by
  constructor
  · decide
  · norm_num [fasp_blas_dvec_dotprod, List.range_succ]

/-- C8, amended.  Whenever the two input vectors have different `row` fields,
`fasp_blas_dvec_axpy` and `fasp_blas_dvec_axpyz` fail with the
length-mismatch error; the inner product `fasp_blas_dvec_dotprod`, however,
performs no length check: it returns the same numeric result as it would on a
`y` whose `row` field matched, summing over the first `x.row` entries. -/
theorem C8_length_mismatch_behavior (x y : dvector) (h : x.row ≠ y.row) :
    (∀ a : ℚ, fasp_blas_dvec_axpy a x y = .error .dataStructure) ∧
    (∀ a : ℚ, fasp_blas_dvec_axpyz a x y = .error .dataStructure) ∧
    fasp_blas_dvec_dotprod x y =
      fasp_blas_dvec_dotprod x (dvector.mk x.row y.val) := by
  have hz : ((y.row : ℤ) - (x.row : ℤ)) ≠ 0 := by
    intro hc
    exact h (by omega)
  refine ⟨fun a => ?_, fun a => ?_, rfl⟩
  · unfold fasp_blas_dvec_axpy
    simp only [hz, if_pos, ne_eq, not_false_iff, if_true]
  · unfold fasp_blas_dvec_axpyz
    simp only [hz, if_pos, ne_eq, not_false_iff, if_true]

/-- C8, witness: the amended theorem applied to the concrete mismatched pair
used in the counterexample. -/
theorem C8_length_mismatch_behavior_witness :
    (dvector.mk 2 [1, 2]).row ≠ (dvector.mk 3 [1, 1, 1]).row ∧
    ((∀ a : ℚ, fasp_blas_dvec_axpy a (dvector.mk 2 [1, 2]) (dvector.mk 3 [1, 1, 1]) =
        .error .dataStructure) ∧
     (∀ a : ℚ, fasp_blas_dvec_axpyz a (dvector.mk 2 [1, 2]) (dvector.mk 3 [1, 1, 1]) =
        .error .dataStructure) ∧
     fasp_blas_dvec_dotprod (dvector.mk 2 [1, 2]) (dvector.mk 3 [1, 1, 1]) =
       fasp_blas_dvec_dotprod (dvector.mk 2 [1, 2]) (dvector.mk 2 [1, 1, 1])) :=
  ⟨by decide, C8_length_mismatch_behavior _ _ (by decide)⟩

end BlasVec

/-! ### Claim C10 -/

namespace Poly

/-- If no position in `[j, j+fuel)` carries column `i`, the scan runs to
`j + fuel`. -/
theorem diagScan_go_of_not_found (A : dCSRmat) (i : ℕ) :
    ∀ fuel j, (∀ k, k < fuel → A.JA (j + k) ≠ i) →
      diagScan.go A i j fuel = j + fuel := by
  intro fuel
  induction fuel with
  | zero => intro j _; rfl
  | succ n ih =>
    intro j h
    have h0 : A.JA j ≠ i := by
      have := h 0 (Nat.succ_pos n)
      simpa using this
    unfold diagScan.go
    rw [if_neg (fun hc => h0 hc.symm), ih (j + 1) (fun k hk => ?_)]
    · omega
    · have := h (k + 1) (by omega)
      simpa [Nat.add_assoc, Nat.add_comm 1 k] using this

/-- C10.  `Diaginv` assumes every row has a diagonal entry: it scans row `i`
for a column equal to `i` and then divides by the entry at the position where
the scan stopped.  For a row with no diagonal entry the scan stops at
`IA[i+1]`, so `Dinv[i] = 1.0 / a[IA[i+1]]` — an array element outside row `i`
(the first entry of the next row) — instead of an error or a zero. -/
theorem C10_Diaginv_missing_diagonal (A : dCSRmat) (i : ℕ)
    (hmono : A.IA i ≤ A.IA (i+1))
    (hnodiag : ∀ j, A.IA i ≤ j → j < A.IA (i+1) → A.JA j ≠ i) :
    Diaginv A i = 1 / A.val (A.IA (i+1)) := by
  unfold Diaginv diagScan
  rw [diagScan_go_of_not_found A i _ _ (fun k hk => hnodiag _ (Nat.le_add_right _ _) (by omega))]
  rw [Nat.add_sub_cancel' hmono]
  norm_num

/-- C10, witness: a 2-row CSR matrix whose row 0 is `[ (0,1)↦3, (0,1)↦3 ]`
with both stored columns equal to 1 (no diagonal in row 0); the value array
carries `5` at position `IA[1] = 2`, and `Diaginv` indeed returns `1/5` for
row 0, dividing by the out-of-row entry. -/
theorem C10_Diaginv_missing_diagonal_witness :
    Diaginv (dCSRmat.mk 2 (fun n => if n = 0 then 0 else 2) (fun _ => 1)
      (fun k => if k = 2 then 5 else 3)) 0 = 1 / 5 := by
  have h := C10_Diaginv_missing_diagonal
    (dCSRmat.mk 2 (fun n => if n = 0 then 0 else 2) (fun _ => 1)
      (fun k => if k = 2 then 5 else 3)) 0 (by norm_num)
    (fun j _ _ => by norm_num)
  simpa using h

end Poly

/-! ## MatrixMarket symmetric reader (`src/core/src/io.c`), claim C7 -/

namespace IORead

/-- A file triple as delivered by `fscanf(fp, "%d %d %le", &i, &j, &value)`:
1-based row index, 1-based column index, value. -/
abbrev Triple := ℤ × ℤ × ℚ

/-- The in-memory COO matrix built by the reader (`fasp_dcoo_create` plus the
fill loop): row count, column count, and the `(I, J, val)` entry list. -/
structure dCOOmat where
  row : ℕ
  col : ℕ
  entries : List Triple

/-- The fill loop of `fasp_dmtxsym_read` (`src/core/src/io.c`):
`while (innz < nnz) { fscanf …; if (i==j) store (i-1,j-1,value) once
else store (i-1,j-1,value) and (j-1,i-1,value); }`.
`budget` is `nnz - innz`; running out of file data models the `EOF` branch
(`exit(ERROR_WRONG_FILE)`) as `none`.  (When `budget = 1` and an off-diagonal
triple arrives, the C code writes one entry past the allocated arrays; the
model simply records both entries.  The claim below only evaluates inputs on
which this corner is unreachable.) -/
def mtxsymFill (budget : ℤ) : List Triple → Option (List Triple)
  | [] => if budget ≤ 0 then some [] else none
  | (i, j, v) :: rest =>
    if budget ≤ 0 then some []
    else if i = j then
      (mtxsymFill (budget - 1) rest).map (fun tl => (i - 1, j - 1, v) :: tl)
    else
      (mtxsymFill (budget - 2) rest).map
        (fun tl => (i - 1, j - 1, v) :: (j - 1, i - 1, v) :: tl)

/-- `fasp_dmtxsym_read` from `src/core/src/io.c`, up to the final COO→CSR
conversion (`fasp_format_dcoo_dcsr`, whose source is not part of the provided
files; the claim is about the expansion performed by this reader).  The
header declares `m × n` with `nnz` stored entries; the reader adjusts
`nnz = 2*(nnz-m) + m` and runs the fill loop. -/
def fasp_dmtxsym_read (m n nnz : ℕ) (file : List Triple) : Option dCOOmat :=
  (mtxsymFill (2 * ((nnz : ℤ) - (m : ℤ)) + (m : ℤ)) file).map
    (fun es => { row := m, col := n, entries := es })

/-- The expansion the spec describes: each diagonal file entry once, each
off-diagonal file entry mirrored, indices shifted to 0-based. -/
def expandSym (file : List Triple) : List Triple :=
  file.flatMap (fun t =>
    if t.1 = t.2.1 then [(t.1 - 1, t.2.1 - 1, t.2.2)]
    else [(t.1 - 1, t.2.1 - 1, t.2.2), (t.2.1 - 1, t.1 - 1, t.2.2)])

/-- Number of diagonal triples in a file. -/
def diagCount (file : List Triple) : ℕ :=
  (file.filter (fun t => t.1 = t.2.1)).length

theorem diagCount_le_length (file : List Triple) : diagCount file ≤ file.length :=
  List.length_filter_le _ _

/-- The fill loop, run with budget `2*|file| - diagCount file`, consumes the
whole file and produces exactly the symmetric expansion. -/
theorem mtxsymFill_eq_expandSym :
    ∀ file : List Triple,
      mtxsymFill (2 * (file.length : ℤ) - (diagCount file : ℤ)) file =
        some (expandSym file) := by
  intro file
  induction file with
  | nil => simp [mtxsymFill, expandSym, diagCount]
  | cons t rest ih =>
    obtain ⟨i, j, v⟩ := t
    have hle : diagCount rest ≤ rest.length := diagCount_le_length rest
    by_cases hij : i = j
    · subst hij
      have hdc : diagCount ((i, i, v) :: rest) = diagCount rest + 1 := by
        simp [diagCount]
      have hB : 2 * (((i, i, v) :: rest).length : ℤ) -
          (diagCount ((i, i, v) :: rest) : ℤ) =
          (2 * (rest.length : ℤ) - (diagCount rest : ℤ)) + 1 := by
        simp only [List.length_cons, hdc]
        push_cast
        ring
      rw [hB, mtxsymFill, if_neg (by omega), if_pos rfl]
      have harg : 2 * (rest.length : ℤ) - (diagCount rest : ℤ) + 1 - 1 =
          2 * (rest.length : ℤ) - (diagCount rest : ℤ) := by ring
      rw [harg, ih]
      simp [expandSym]
    · have hdc : diagCount ((i, j, v) :: rest) = diagCount rest := by
        simp [diagCount, hij]
      have hB : 2 * (((i, j, v) :: rest).length : ℤ) -
          (diagCount ((i, j, v) :: rest) : ℤ) =
          (2 * (rest.length : ℤ) - (diagCount rest : ℤ)) + 2 := by
        simp only [List.length_cons, hdc]
        push_cast
        ring
      rw [hB, mtxsymFill, if_neg (by omega), if_neg hij]
      have harg : 2 * (rest.length : ℤ) - (diagCount rest : ℤ) + 2 - 2 =
          2 * (rest.length : ℤ) - (diagCount rest : ℤ) := by ring
      rw [harg, ih]
      simp [expandSym, hij]

/-- Length of the symmetric expansion. -/
theorem expandSym_length (file : List Triple) :
    (expandSym file).length = 2 * file.length - diagCount file := by
  induction file with
  | nil => simp [expandSym, diagCount]
  | cons t rest ih =>
    have hle := diagCount_le_length rest
    by_cases hij : t.1 = t.2.1
    · have hdc : diagCount (t :: rest) = diagCount rest + 1 := by
        simp [diagCount, hij]
      simp only [expandSym, List.flatMap_cons, if_pos hij, List.length_append,
        List.length_cons, List.length_nil, hdc]
      rw [expandSym] at ih
      omega
    · have hdc : diagCount (t :: rest) = diagCount rest := by
        simp [diagCount, hij]
      simp only [expandSym, List.flatMap_cons, if_neg hij, List.length_append,
        List.length_cons, List.length_nil, hdc]
      rw [expandSym] at ih
      omega

/-- C7.  For a symmetric MatrixMarket input whose header declares `m` rows
and `nnz` stored entries, and whose body consists of `nnz` triples of which
exactly `m` are diagonal, `fasp_dmtxsym_read` succeeds and builds an
in-memory matrix with exactly `2*(nnz - m) + m` entries: each diagonal file
entry `(i,i)` stored once and each off-diagonal file entry `(i,j)` stored
twice, at `(i,j)` and `(j,i)` with the same value, all indices shifted from
1-based to 0-based. -/
theorem C7_dmtxsym_read_expansion (m n nnz : ℕ) (file : List Triple)
    (hlen : file.length = nnz) (hdiag : diagCount file = m) :
    fasp_dmtxsym_read m n nnz file =
      some { row := m, col := n, entries := expandSym file } ∧
    (expandSym file).length = 2 * (nnz - m) + m := by
  have hm_le : m ≤ nnz := by
    rw [← hlen, ← hdiag]; exact diagCount_le_length file
  constructor
  · unfold fasp_dmtxsym_read
    have harg : 2 * ((nnz : ℤ) - (m : ℤ)) + (m : ℤ) =
        2 * (file.length : ℤ) - (diagCount file : ℤ) := by
      rw [hlen, hdiag]; ring
    rw [harg, mtxsymFill_eq_expandSym]
    rfl
  · rw [expandSym_length, hlen, hdiag]
    omega

/-- C7, witness: a 2×2 symmetric file with header `m = 2`, `nnz = 3` and
body `(1,1)↦4, (2,1)↦-1, (2,2)↦4` (lower triangle).  The reader produces the
four entries `(0,0)↦4, (1,0)↦-1, (0,1)↦-1, (1,1)↦4`, and
`4 = 2*(3-2)+2`. -/
theorem C7_dmtxsym_read_expansion_witness :
    ([((1:ℤ), (1:ℤ), (4:ℚ)), (2, 1, -1), (2, 2, 4)] : List Triple).length = 3 ∧
    diagCount [((1:ℤ), (1:ℤ), (4:ℚ)), (2, 1, -1), (2, 2, 4)] = 2 ∧
    (fasp_dmtxsym_read 2 2 3 [((1:ℤ), (1:ℤ), (4:ℚ)), (2, 1, -1), (2, 2, 4)] =
      some { row := 2, col := 2,
             entries := expandSym [((1:ℤ), (1:ℤ), (4:ℚ)), (2, 1, -1), (2, 2, 4)] } ∧
     (expandSym [((1:ℤ), (1:ℤ), (4:ℚ)), (2, 1, -1), (2, 2, 4)]).length =
       2 * (3 - 2) + 2) :=
  ⟨by decide, by decide,
    C7_dmtxsym_read_expansion 2 2 3 _ (by decide) (by decide)⟩

end IORead

/-! ## Strength-of-connection graph (`src/core/src/coarsening_rs.c`), claim C2 -/

namespace Coarsen

/-- `SMALLREAL` as a rational (`1e-20` is exactly representable). -/
def SMALLREALq : ℚ := 1e-20

/-- The `dCSRmat` layout used by `coarsening_rs.c`: arrays as lists. -/
structure dCSRmat where
  row : ℕ
  col : ℕ
  IA : List ℕ
  JA : List ℕ
  val : List ℚ

/-- Integer CSR matrix (`iCSRmat`), the strength graph: no value array. -/
structure iCSRmat where
  row : ℕ
  col : ℕ
  nnz : ℕ
  IA : List ℕ
  JA : List ℤ

/-- The positions (indices into `JA`/`val`) of row `i`:
`begin_row = ia[i]`, `end_row = ia[i+1]-1`. -/
def rowPos (A : dCSRmat) (i : ℕ) : List ℕ :=
  List.range' (A.IA.getD i 0) (A.IA.getD (i+1) 0 - A.IA.getD i 0)

/-- Modelled from the spec: `fasp_dcsr_getdiag` (§4.3 "Diagonal extraction:
returns a dense vector of diagonal entries.  If the matrix has missing
diagonals, the corresponding entries are set to zero").  The source file
defining it is not among the provided sources. -/
def fasp_dcsr_getdiag (A : dCSRmat) (i : ℕ) : ℚ :=
  match (rowPos A i).find? (fun j => A.JA.getD j 0 = i) with
  | some j => A.val.getD j 0
  | none => 0

/-- `row_scale` of row `i` in `generate_S`: starting from `0`, take
`MIN(row_scale, aj[j])` over *all* stored entries of the row (the diagonal
included).  Hence `row_scale = min(0, min_j A[i,j])`. -/
def rowScale (A : dCSRmat) (i : ℕ) : ℚ :=
  (rowPos A i).foldl (fun acc j => min acc (A.val.getD j 0)) 0

/-- `row_sum` of row `i` in `generate_S` after the normalisation step:
`|Σ_j A[i,j]| / MAX(SMALLREAL, |A[i,i]|)`. -/
def rowSum (A : dCSRmat) (i : ℕ) : ℚ :=
  |(rowPos A i).foldl (fun acc j => acc + A.val.getD j 0) 0| /
    max SMALLREALq |fasp_dcsr_getdiag A i|

/-- One row of the marking phase of `generate_S`
(`src/core/src/coarsening_rs.c`): first the scan
`for j … if (ja[j]==i) { S->JA[j]=-1; break; }` removes the first diagonal
position; then, if `row_sum > max_row_sum && max_row_sum < 1`, all positions
of the row are marked `-1`, else every position `j` with
`A->val[j] >= epsilon_str*row_scale` is marked `-1`. -/
def markRow (A : dCSRmat) (maxRowSum epsStr : ℚ) (sja : List ℤ) (i : ℕ) : List ℤ :=
  let sja1 :=
    match (rowPos A i).find? (fun j => A.JA.getD j 0 = i) with
    | some p => sja.set p (-1)
    | none => sja
  if rowSum A i > maxRowSum ∧ maxRowSum < 1 then
    (rowPos A i).foldl (fun l j => l.set j (-1)) sja1
  else
    (rowPos A i).foldl
      (fun l j => if A.val.getD j 0 ≥ epsStr * rowScale A i then l.set j (-1) else l)
      sja1

/-- The whole marking phase: `S->JA` starts as a copy of `A->JA` and each row
is processed in turn. -/
def markAll (A : dCSRmat) (maxRowSum epsStr : ℚ) : List ℤ :=
  (List.range A.row).foldl (markRow A maxRowSum epsStr) (A.JA.map Int.ofNat)

/-- One row of the compression phase: the surviving (`> -1`) marks of the
row, in order.  (The source compacts in place with a running `index`; since
`index ≤ j` throughout, the in-place writes never overwrite a position that
is still to be read, so the result is exactly this filter.) -/
def compressRow (marked : List ℤ) (A : dCSRmat) (i : ℕ) : List ℤ :=
  (rowPos A i).filterMap
    (fun j => if marked.getD j (-1) > -1 then some (marked.getD j (-1)) else none)

/-- The compressed rows of the strength matrix, in order. -/
def generate_S_rows (A : dCSRmat) (maxRowSum epsStr : ℚ) : List (List ℤ) :=
  (List.range A.row).map (compressRow (markAll A maxRowSum epsStr) A)

/-- `generate_S` from `src/core/src/coarsening_rs.c`: marking phase followed
by compression.  When nothing at all survives (`index = 0`) the source keeps
the copied `A->IA[row]` in `S->IA[row]`, sets `S->nnz = 0` and
`S->JA = NULL` (modelled as `[]`). -/
def generate_S (A : dCSRmat) (maxRowSum epsStr : ℚ) : iCSRmat :=
  let rows := generate_S_rows A maxRowSum epsStr
  let total := (rows.map List.length).sum
  { row := A.row, col := A.col,
    nnz := total,
    IA := (List.range A.row).map (fun i => ((rows.take i).map List.length).sum) ++
      [if 0 < total then total else A.IA.getD A.row 0],
    JA := rows.flatten }

end Coarsen

namespace Coarsen

theorem getD_set_ne (l : List ℤ) (p q : ℕ) (a : ℤ) (h : p ≠ q) (d : ℤ) :
    (l.set p a).getD q d = l.getD q d := by
  simp [List.getD_eq_getElem?_getD, List.getElem?_set_ne h]

theorem getD_set_eq (l : List ℤ) (p : ℕ) (a : ℤ) (h : p < l.length) (d : ℤ) :
    (l.set p a).getD p d = a := by
  simp [List.getD_eq_getElem?_getD, List.getElem?_set_self, h]

/-- Value left at position `q` by the fold of unconditional `set`s
(the `max_row_sum` branch of `markRow`). -/
theorem getD_foldl_allSet (xs : List ℕ) (l : List ℤ) (q : ℕ)
    (hq : q < l.length) (d : ℤ) :
    ((xs.foldl (fun acc j => acc.set j (-1)) l).getD q d) =
      if q ∈ xs then -1 else l.getD q d := by
  induction xs generalizing l with
  | nil => simp
  | cons x xs ih =>
    simp only [List.foldl_cons]
    rw [ih (l.set x (-1)) (by simpa using hq)]
    by_cases hqx : q = x
    · subst hqx
      rw [if_pos (List.mem_cons_self q xs)]
      by_cases hmem : q ∈ xs
      · rw [if_pos hmem]
      · rw [if_neg hmem, getD_set_eq l q (-1) hq d]
    · rw [getD_set_ne l x q (-1) (fun hc => hqx hc.symm) d]
      have hiff : q ∈ x :: xs ↔ q ∈ xs := by
        constructor
        · intro h
          rcases List.mem_cons.mp h with h1 | h1
          · exact absurd h1 hqx
          · exact h1
        · exact List.mem_cons_of_mem x
      rw [if_congr hiff rfl rfl]

theorem length_foldl_allSet (xs : List ℕ) (l : List ℤ) :
    (xs.foldl (fun acc j => acc.set j (-1)) l).length = l.length := by
  induction xs generalizing l with
  | nil => rfl
  | cons x xs ih =>
    simp only [List.foldl_cons]
    rw [ih, List.length_set]

/-- Value left at position `q` by the fold of conditional `set`s
(the strength-marking branch of `markRow`). -/
theorem getD_foldl_strongSet (A : dCSRmat) (eps sc : ℚ) (xs : List ℕ) (l : List ℤ)
    (q : ℕ) (hq : q < l.length) (d : ℤ) :
    ((xs.foldl (fun acc j => if A.val.getD j 0 ≥ eps * sc then acc.set j (-1) else acc)
        l).getD q d) =
      if q ∈ xs ∧ A.val.getD q 0 ≥ eps * sc then -1 else l.getD q d := by
  induction xs generalizing l with
  | nil => simp
  | cons x xs ih =>
    simp only [List.foldl_cons]
    by_cases hqx : q = x
    · subst hqx
      by_cases hPx : A.val.getD q 0 ≥ eps * sc
      · have hcons : q ∈ q :: xs ∧ A.val.getD q 0 ≥ eps * sc :=
          ⟨List.mem_cons_self q xs, hPx⟩
        rw [if_pos hPx, ih (l.set q (-1)) (by simpa using hq)]
        by_cases hmem : q ∈ xs ∧ A.val.getD q 0 ≥ eps * sc
        · rw [if_pos hmem, if_pos hcons]
        · rw [if_neg hmem, getD_set_eq l q (-1) hq d, if_pos hcons]
      · rw [if_neg hPx, ih l hq,
          if_neg (fun h => hPx h.2), if_neg (fun (h : _ ∧ _) => hPx h.2)]
    · have hiff : (q ∈ x :: xs ∧ A.val.getD q 0 ≥ eps * sc) ↔
          (q ∈ xs ∧ A.val.getD q 0 ≥ eps * sc) := by
        constructor
        · intro ⟨h1, h2⟩
          rcases List.mem_cons.mp h1 with h3 | h3
          · exact absurd h3 hqx
          · exact ⟨h3, h2⟩
        · intro ⟨h1, h2⟩
          exact ⟨List.mem_cons_of_mem x h1, h2⟩
      by_cases hPx : A.val.getD x 0 ≥ eps * sc
      · rw [if_pos hPx, ih (l.set x (-1)) (by simpa using hq),
          getD_set_ne l x q (-1) (fun hc => hqx hc.symm) d, if_congr hiff.symm rfl rfl]
      · rw [if_neg hPx, ih l hq, if_congr hiff.symm rfl rfl]

theorem length_foldl_strongSet (A : dCSRmat) (eps sc : ℚ) (xs : List ℕ) (l : List ℤ) :
    ((xs.foldl (fun acc j => if A.val.getD j 0 ≥ eps * sc then acc.set j (-1) else acc)
        l).length) = l.length := by
  induction xs generalizing l with
  | nil => rfl
  | cons x xs ih =>
    simp only [List.foldl_cons]
    by_cases hPx : A.val.getD x 0 ≥ eps * sc
    · rw [if_pos hPx, ih, List.length_set]
    · rw [if_neg hPx, ih]

/-- `markRow` preserves the array length. -/
theorem markRow_length (A : dCSRmat) (mrs eps : ℚ) (l : List ℤ) (i : ℕ) :
    (markRow A mrs eps l i).length = l.length := by
  unfold markRow
  rcases hfind : (rowPos A i).find? (fun j => A.JA.getD j 0 = i) with _ | p <;>
    simp only [hfind] <;>
    by_cases hb : rowSum A i > mrs ∧ mrs < 1 <;>
    simp only [hb, if_true, if_false, and_true, and_false, List.length_set,
      length_foldl_allSet, length_foldl_strongSet A eps (rowScale A i)]

/-- `markRow` only writes inside its own row. -/
theorem markRow_getD_of_not_mem (A : dCSRmat) (mrs eps : ℚ) (l : List ℤ) (i q : ℕ)
    (hq : q ∉ rowPos A i) (d : ℤ) :
    (markRow A mrs eps l i).getD q d = l.getD q d := by
  have hoob : ∀ (m : List ℤ), m.length ≤ q → m.getD q d = d := by
    intro m hm
    rw [List.getD_eq_getElem?_getD, List.getElem?_eq_none hm]
    rfl
  unfold markRow
  have hall : ∀ (l' : List ℤ),
      ((rowPos A i).foldl (fun acc j => acc.set j (-1)) l').getD q d = l'.getD q d := by
    intro l'
    by_cases hlen : q < l'.length
    · rw [getD_foldl_allSet _ l' q hlen d]
      simp [hq]
    · rw [hoob _ (by rw [length_foldl_allSet]; omega), hoob l' (by omega)]
  have hstrong : ∀ (l' : List ℤ),
      ((rowPos A i).foldl
        (fun acc j => if A.val.getD j 0 ≥ eps * rowScale A i then acc.set j (-1) else acc)
        l').getD q d = l'.getD q d := by
    intro l'
    by_cases hlen : q < l'.length
    · rw [getD_foldl_strongSet A eps (rowScale A i) _ l' q hlen d]
      simp [hq]
    · rw [hoob _ (by rw [length_foldl_strongSet]; omega), hoob l' (by omega)]
  rcases hfind : (rowPos A i).find? (fun j => A.JA.getD j 0 = i) with _ | p
  · simp only [hfind]
    by_cases hb : rowSum A i > mrs ∧ mrs < 1
    · rw [if_pos hb, hall l]
    · rw [if_neg hb, hstrong l]
  · have hpmem : p ∈ rowPos A i := List.mem_of_find?_eq_some hfind
    have hpq : p ≠ q := fun hc => hq (hc ▸ hpmem)
    simp only [hfind]
    by_cases hb : rowSum A i > mrs ∧ mrs < 1
    · rw [if_pos hb, hall (l.set p (-1)), getD_set_ne l p q (-1) hpq d]
    · rw [if_neg hb, hstrong (l.set p (-1)), getD_set_ne l p q (-1) hpq d]

end Coarsen

namespace Coarsen

/-- Chained monotonicity of `IA`. -/
theorem IA_mono_chain (A : dCSRmat)
    (hmono : ∀ k, k < A.row → A.IA.getD k 0 ≤ A.IA.getD (k+1) 0) :
    ∀ a b, a ≤ b → b ≤ A.row → A.IA.getD a 0 ≤ A.IA.getD b 0 := by
  intro a b
  induction b with
  | zero =>
    intro hab _
    have : a = 0 := by omega
    subst this
    exact le_rfl
  | succ n ih =>
    intro hab hbrow
    rcases Nat.lt_or_ge a (n+1) with h | h
    · exact le_trans (ih (by omega) (by omega)) (hmono n (by omega))
    · have : a = n + 1 := by omega
      subst this
      exact le_rfl

/-- Distinct rows have disjoint position ranges. -/
theorem rowPos_disjoint (A : dCSRmat)
    (hmono : ∀ k, k < A.row → A.IA.getD k 0 ≤ A.IA.getD (k+1) 0)
    (i k q : ℕ) (hi : i < A.row) (hk : k < A.row) (hne : k ≠ i)
    (hq : q ∈ rowPos A i) : q ∉ rowPos A k := by
  intro hqk
  have hqi := List.mem_range'_1.mp hq
  have hqk' := List.mem_range'_1.mp hqk
  have hii : A.IA.getD i 0 ≤ A.IA.getD (i+1) 0 := hmono i hi
  have hkk : A.IA.getD k 0 ≤ A.IA.getD (k+1) 0 := hmono k hk
  rcases Nat.lt_or_ge k i with h | h
  · have : A.IA.getD (k+1) 0 ≤ A.IA.getD i 0 :=
      IA_mono_chain A hmono (k+1) i (by omega) (by omega)
    omega
  · have hki : i < k := by omega
    have : A.IA.getD (i+1) 0 ≤ A.IA.getD k 0 :=
      IA_mono_chain A hmono (i+1) k (by omega) (by omega)
    omega

theorem foldl_markRow_length (A : dCSRmat) (mrs eps : ℚ) :
    ∀ (xs : List ℕ) (l : List ℤ), (xs.foldl (markRow A mrs eps) l).length = l.length := by
  intro xs
  induction xs with
  | nil => intro l; rfl
  | cons x xs ih =>
    intro l
    simp only [List.foldl_cons]
    rw [ih, markRow_length]

theorem markAll_length (A : dCSRmat) (mrs eps : ℚ) :
    (markAll A mrs eps).length = A.JA.length := by
  unfold markAll
  rw [foldl_markRow_length, List.length_map]

theorem foldl_markRow_getD_of_avoid (A : dCSRmat) (mrs eps : ℚ) (q : ℕ) (d : ℤ) :
    ∀ (xs : List ℕ) (l : List ℤ), (∀ k ∈ xs, q ∉ rowPos A k) →
      (xs.foldl (markRow A mrs eps) l).getD q d = l.getD q d := by
  intro xs
  induction xs with
  | nil => intro l _; rfl
  | cons x xs ih =>
    intro l h
    simp only [List.foldl_cons]
    rw [ih _ (fun k hk => h k (List.mem_cons_of_mem x hk)),
      markRow_getD_of_not_mem A mrs eps l x q (h x (List.mem_cons_self x xs)) d]

/-- With a unique diagonal position `p` in row `i`, the source scan
`for j … if (ja[j]==i) break` finds exactly `p`. -/
theorem find_diag_eq (A : dCSRmat) (i p : ℕ) (hp : p ∈ rowPos A i)
    (hpd : A.JA.getD p 0 = i) (hpu : ∀ q ∈ rowPos A i, A.JA.getD q 0 = i → q = p) :
    (rowPos A i).find? (fun j => A.JA.getD j 0 = i) = some p := by
  rcases hfind : (rowPos A i).find? (fun j => A.JA.getD j 0 = i) with _ | q
  · exfalso
    have h0 := List.find?_eq_none.mp hfind p hp
    rw [decide_eq_true_iff] at h0
    exact h0 hpd
  · have h1 := List.find?_some hfind
    have h2 : q ∈ rowPos A i := List.mem_of_find?_eq_some hfind
    have h3 : A.JA.getD q 0 = i := by simpa using h1
    rw [hpu q h2 h3]

/-- The value of the marking phase for a position inside row `i`, when the
`max_row_sum` filter does not fire and row `i` has diagonal position `p`. -/
theorem markRow_getD_mem (A : dCSRmat) (mrs eps : ℚ) (l : List ℤ) (i p q : ℕ)
    (hp : p ∈ rowPos A i) (hpd : A.JA.getD p 0 = i)
    (hpu : ∀ r ∈ rowPos A i, A.JA.getD r 0 = i → r = p)
    (hfilter : ¬(rowSum A i > mrs ∧ mrs < 1))
    (hq : q ∈ rowPos A i) (hql : q < l.length) :
    (markRow A mrs eps l i).getD q (-1) =
      if A.val.getD q 0 ≥ eps * rowScale A i ∨ q = p then -1 else l.getD q (-1) := by
  unfold markRow
  rw [find_diag_eq A i p hp hpd hpu]
  simp only
  rw [if_neg hfilter,
    getD_foldl_strongSet A eps (rowScale A i) _ _ q (by simpa using hql) (-1)]
  by_cases hval : A.val.getD q 0 ≥ eps * rowScale A i
  · rw [if_pos ⟨hq, hval⟩, if_pos (Or.inl hval)]
  · rw [if_neg (fun h => hval h.2)]
    by_cases hqp : q = p
    · subst hqp
      rw [getD_set_eq l q (-1) hql (-1), if_pos (Or.inr rfl)]
    · rw [getD_set_ne l p q (-1) (fun hc => hqp hc.symm) (-1),
        if_neg (fun h => h.elim hval hqp)]

/-- The whole marking phase at a position of row `i`. -/
theorem markAll_getD_mem (A : dCSRmat) (mrs eps : ℚ) (i p q : ℕ) (hi : i < A.row)
    (hlast : A.IA.getD A.row 0 = A.JA.length)
    (hmono : ∀ k, k < A.row → A.IA.getD k 0 ≤ A.IA.getD (k+1) 0)
    (hp : p ∈ rowPos A i) (hpd : A.JA.getD p 0 = i)
    (hpu : ∀ r ∈ rowPos A i, A.JA.getD r 0 = i → r = p)
    (hfilter : ¬(rowSum A i > mrs ∧ mrs < 1))
    (hq : q ∈ rowPos A i) :
    (markAll A mrs eps).getD q (-1) =
      if A.val.getD q 0 ≥ eps * rowScale A i ∨ q = p then -1
      else (A.JA.getD q 0 : ℤ) := by
  have hql : q < A.JA.length := by
    have h1 := List.mem_range'_1.mp hq
    have h2 : A.IA.getD (i+1) 0 ≤ A.IA.getD A.row 0 :=
      IA_mono_chain A hmono (i+1) A.row (by omega) le_rfl
    have h3 : A.IA.getD i 0 ≤ A.IA.getD (i+1) 0 := hmono i hi
    omega
  have hsplit : List.range A.row =
      List.range' 0 i ++ i :: List.range' (i+1) (A.row - i - 1) := by
    rw [List.range_eq_range']
    have hs1 : List.range' 0 i ++ List.range' (0 + i) (A.row - i) =
        List.range' 0 ((A.row - i) + i) := by
      have := List.range'_append 0 i (A.row - i) 1
      simpa using this
    have hs2 : List.range' (i+1) (A.row - i - 1) = List.range' (i+1) (A.row - i - 1) := rfl
    have hrow : (A.row - i) + i = A.row := by omega
    rw [hrow] at hs1
    rw [← hs1, Nat.zero_add]
    congr 1
    have hs3 : List.range' i ((A.row - i - 1) + 1) = i :: List.range' (i+1) (A.row - i - 1) := by
      have := List.range'_succ i (A.row - i - 1) 1
      simpa using this
    have hlen : A.row - i = (A.row - i - 1) + 1 := by omega
    conv_lhs => rw [hlen]
    exact hs3
  unfold markAll
  rw [hsplit, List.foldl_append, List.foldl_cons]
  rw [foldl_markRow_getD_of_avoid A mrs eps q (-1) _ _ (fun k hk => by
    have hk' := List.mem_range'_1.mp hk
    exact rowPos_disjoint A hmono i k q hi (by omega) (by omega) hq)]
  have hlen : q < ((List.range' 0 i).foldl (markRow A mrs eps)
      (A.JA.map Int.ofNat)).length := by
    rw [foldl_markRow_length, List.length_map]
    exact hql
  rw [markRow_getD_mem A mrs eps _ i p q hp hpd hpu hfilter hq hlen]
  rw [foldl_markRow_getD_of_avoid A mrs eps q (-1) _ _ (fun k hk => by
    have hk' := List.mem_range'_1.mp hk
    exact rowPos_disjoint A hmono i k q hi (by omega) (by omega) hq)]
  have hmap : (A.JA.map Int.ofNat).getD q (-1) = Int.ofNat (A.JA.getD q 0) := by
    rw [List.getD_eq_getElem?_getD, List.getElem?_map, List.getElem?_eq_getElem hql,
      List.getD_eq_getElem?_getD, List.getElem?_eq_getElem hql]
    rfl
  rw [hmap]
  norm_num

end Coarsen

namespace Coarsen

/-- C2, amended.  In `generate_S` (modified Ruge–Stüben policy), for a CSR
row `i` whose diagonal entry is present (at the unique position `p`) and for
which the near-zero-row-sum filter `row_sum > max_row_sum && max_row_sum < 1`
does not fire, the strength row `i` of `S` consists exactly of the columns of
the positions `j` of row `i` with `A->val[j] < θ_str · row_scale` other than
the diagonal position — where `row_scale = min(0, min_j A[i,j])` is the
minimum of `0` and *all* stored entries of the row (diagonal included), not
the minimum over off-diagonals, and the strong entries are those *below*
`θ_str · row_scale`, not those at or above it. -/
theorem C2_generate_S_strength_rule (A : dCSRmat) (mrs eps : ℚ) (i p : ℕ)
    (hi : i < A.row)
    (hlast : A.IA.getD A.row 0 = A.JA.length)
    (hmono : ∀ k, k < A.row → A.IA.getD k 0 ≤ A.IA.getD (k+1) 0)
    (hp : p ∈ rowPos A i) (hpd : A.JA.getD p 0 = i)
    (hpu : ∀ r ∈ rowPos A i, A.JA.getD r 0 = i → r = p)
    (hfilter : ¬(rowSum A i > mrs ∧ mrs < 1)) :
    (generate_S_rows A mrs eps).getD i [] =
      (rowPos A i).filterMap (fun j =>
        if j ≠ p ∧ A.val.getD j 0 < eps * rowScale A i
        then some ((A.JA.getD j 0 : ℤ)) else none) := by
  have hrow : (generate_S_rows A mrs eps).getD i [] =
      compressRow (markAll A mrs eps) A i := by
    unfold generate_S_rows
    rw [List.getD_eq_getElem?_getD, List.getElem?_map, List.getElem?_range hi]
    rfl
  rw [hrow]
  unfold compressRow
  apply List.filterMap_congr
  intro j hj
  rw [markAll_getD_mem A mrs eps i p j hi hlast hmono hp hpd hpu hfilter hj]
  by_cases hcond : A.val.getD j 0 ≥ eps * rowScale A i ∨ j = p
  · have h2 : ¬(j ≠ p ∧ A.val.getD j 0 < eps * rowScale A i) := by
      intro h
      rcases hcond with h1 | h1
      · exact absurd h.2 (not_lt.mpr h1)
      · exact h.1 h1
    rw [if_pos hcond, if_neg (lt_irrefl (-1 : ℤ)), if_neg h2]
  · have hlt : A.val.getD j 0 < eps * rowScale A i :=
      not_le.mp (fun h => hcond (Or.inl h))
    have hne : j ≠ p := fun h => hcond (Or.inr h)
    have hgt : (-1 : ℤ) < ((A.JA.getD j 0 : ℤ)) := by omega
    rw [if_neg hcond, if_pos hgt, if_pos ⟨hne, hlt⟩]

/-- The concrete 2×2 matrix `[[2,-1],[-1,2]]` in CSR form. -/
def A2ex : dCSRmat :=
  { row := 2, col := 2, IA := [0, 2, 4], JA := [0, 1, 0, 1], val := [2, -1, -1, 2] }

/-- C2, witness for the amended theorem: on `A2ex` with
`max_row_sum = 9/10`, `θ_str = 1/2`, row 0 (diagonal at position 0), the
amended characterisation applies. -/
theorem C2_generate_S_strength_rule_witness :
    (0 < A2ex.row) ∧
    (generate_S_rows A2ex (9/10) (1/2)).getD 0 [] =
      (rowPos A2ex 0).filterMap (fun j =>
        if j ≠ 0 ∧ A2ex.val.getD j 0 < (1/2) * rowScale A2ex 0
        then some ((A2ex.JA.getD j 0 : ℤ)) else none) := by
  constructor
  · decide
  · apply C2_generate_S_strength_rule A2ex (9/10) (1/2) 0 0
    · decide
    · decide
    · decide
    · decide
    · decide
    · decide
    · have hsum : rowSum A2ex 0 = 1/2 := by
        norm_num [rowSum, rowPos, fasp_dcsr_getdiag, SMALLREALq, A2ex, List.range',
          List.find?]
      rw [hsum]
      norm_num

end Coarsen

namespace Coarsen

/-- C2, counterexample.  The claim says an off-diagonal `(i,j)` is kept in
`S` iff `A[i,j] ≥ θ_str · row_scale` with `row_scale = min` over the
off-diagonal entries of row `i`.  On `A2ex = [[2,-1],[-1,2]]` with
`θ_str = 1/2`: the only off-diagonal of row 0 is `-1`, so the claim's
`row_scale` is `-1` and the claim declares `(0,1)` weak
(`-1 ≥ 1/2·(-1) = -1/2` is false) — but `generate_S` *keeps* `(0,1)` as a
strong coupling (the code keeps entries with `A[i,j] < θ_str·row_scale`,
with `row_scale = min(0, 2, -1) = -1`). -/
theorem C2_strength_rule_counterexample :
    ¬ (((1 : ℤ) ∈ (generate_S_rows A2ex (9/10) (1/2)).getD 0 []) ↔
       ((-1 : ℚ) ≥ (1/2) * (-1))) := by
  have hrows : generate_S_rows A2ex (9/10) (1/2) = [[1], [0]] := by
    norm_num [generate_S_rows, markAll, markRow, compressRow, rowPos, rowScale, rowSum,
      fasp_dcsr_getdiag, SMALLREALq, A2ex, List.range', List.range_succ, List.find?]
    decide
  rw [hrows]
  intro h
  have h1 : (1 : ℤ) ∈ ([[1], [0]] : List (List ℤ)).getD 0 [] := by decide
  have h2 := h.mp h1
  norm_num at h2

end Coarsen

/-! ## Interpolation sparsity pattern (`src/core/src/coarsening_rs.c`), claim C6 -/

namespace Coarsen

/-- CF markers, from the header comment of `fasp_amg_coarsening_rs`
(`0`: fine, `1`: coarse, `2`: isolated). -/
def FGPT : ℤ := 0

/-- Coarse grid point marker. -/
def CGPT : ℤ := 1

/-- Isolated point marker. -/
def ISPT : ℤ := 2

/-- Undecided point marker.  Modelled from the spec: the marker constants
live in a header that is not among the provided sources; `UNPT` is the
"undecided" sentinel, distinct from the three documented values (the
classical Ruge–Stüben convention uses `-1`). -/
def UNPT : ℤ := -1

/-- Positions of row `i` of the strength matrix `S`. -/
def SrowPos (S : iCSRmat) (i : ℕ) : List ℕ :=
  List.range' (S.IA.getD i 0) (S.IA.getD (i+1) 0 - S.IA.getD i 0)

/-- The interpolation matrix built by `generate_sparsity_P` (CSR with a
value array that is allocated with `calloc` and never written). -/
structure dCSRmatP where
  row : ℕ
  col : ℕ
  nnz : ℕ
  IA : List ℕ
  JA : List ℤ
  val : List ℚ

/-- Pass 1 of `generate_sparsity_P`: the entry count of row `i`
(`P->IA[i+1]` before the prefix-sum loop): a fine row gets one count per
strong neighbour marked coarse, an isolated row gets `0`, any other row
(the coarse branch of the source) gets `1`. -/
def PIAcount (S : iCSRmat) (vec : List ℤ) (i : ℕ) : ℕ :=
  if vec.getD i 0 = FGPT then
    ((SrowPos S i).filter
      (fun j => vec.getD (S.JA.getD j 0).toNat 0 = CGPT)).length
  else if vec.getD i 0 = ISPT then 0
  else 1

/-- Pass 2 of `generate_sparsity_P`: the entries written for row `i`, in
order.  (The source writes them at a running `index`; concatenating the
per-row lists reproduces the array.) -/
def Prow (S : iCSRmat) (vec : List ℤ) (i : ℕ) : List ℤ :=
  if vec.getD i 0 = FGPT then
    (SrowPos S i).filterMap
      (fun j => if vec.getD (S.JA.getD j 0).toNat 0 = CGPT
                then some (S.JA.getD j 0) else none)
  else if vec.getD i 0 = ISPT then []
  else [(i : ℤ)]

/-- `generate_sparsity_P` from `src/core/src/coarsening_rs.c`: pass 1 counts
into `P->IA` (then prefix-summed), pass 2 fills `P->JA`; `P->val` is
`calloc`ed to zeros of length `nnz` and never written. -/
def generate_sparsity_P (S : iCSRmat) (vec : List ℤ) (row col : ℕ) : dCSRmatP :=
  let counts := (List.range row).map (PIAcount S vec)
  { row := row, col := col,
    nnz := counts.sum,
    IA := (List.range (row+1)).map (fun i => ((List.range i).map (PIAcount S vec)).sum),
    JA := ((List.range row).map (Prow S vec)).flatten,
    val := List.replicate counts.sum 0 }

/-- The two passes agree: the count of row `i` is the length of the entry
list of row `i`. -/
theorem PIAcount_eq_length (S : iCSRmat) (vec : List ℤ) (i : ℕ) :
    PIAcount S vec i = (Prow S vec i).length := by
  unfold PIAcount Prow
  by_cases h1 : vec.getD i 0 = FGPT
  · rw [if_pos h1, if_pos h1]
    induction SrowPos S i with
    | nil => rfl
    | cons x xs ih =>
      by_cases hx : vec.getD (S.JA.getD x 0).toNat 0 = CGPT
      · simp only [List.filter_cons, List.filterMap_cons, hx, if_pos rfl]
        simp only [decide_eq_true_eq, hx, if_true, List.length_cons]
        rw [ih]
      · simp only [List.filter_cons, List.filterMap_cons, hx, if_neg hx]
        simp only [decide_eq_true_eq, hx, if_false]
        rw [ih]
  · rw [if_neg h1, if_neg h1]
    by_cases h2 : vec.getD i 0 = ISPT
    · rw [if_pos h2, if_pos h2]
      rfl
    · rw [if_neg h2, if_neg h2]
      rfl

/-- Reading a row slice out of the flattened entry array. -/
theorem flatten_slice (ls : List (List ℤ)) :
    ∀ i, i < ls.length →
      ((ls.flatten.drop (((ls.take i).map List.length).sum)).take
        ((ls.getD i []).length)) = ls.getD i [] := by
  induction ls with
  | nil => intro i hi; simp at hi
  | cons x xs ih =>
    intro i hi
    cases i with
    | zero =>
      simp only [List.take_zero, List.map_nil, List.sum_nil, List.drop_zero,
        List.flatten_cons, List.getD_cons_zero]
      exact List.take_left x xs.flatten
    | succ n =>
      simp only [List.take_succ_cons, List.map_cons, List.sum_cons,
        List.flatten_cons, List.getD_cons_succ]
      rw [List.drop_append_eq_append_drop, List.drop_eq_nil_of_le (by omega),
        List.nil_append]
      have harith : x.length + ((xs.take n).map List.length).sum - x.length =
          ((xs.take n).map List.length).sum := by omega
      rw [harith]
      exact ih n (by simpa using hi)

end Coarsen

namespace Coarsen

/-- C6, amended.  For every strength graph `S`, marker vector, and row
`i < row`, the interpolation pattern built by `generate_sparsity_P`
satisfies: the `JA` slice of row `i` (between `IA[i]` and `IA[i+1]`) is
exactly `Prow S vec i`; a FINE row has one entry per COARSE strong
neighbour (the neighbour's column); an ISOLATED row is empty; a row that is
neither FINE nor ISOLATED — in particular a COARSE row — has exactly one
entry whose column is `i` itself, the *fine-grid* row index (renumbering to
coarse indices is not performed here); and every stored value is `0`, since
only the pattern is built (no unit values are written). -/
theorem C6_sparsity_P_rows (S : iCSRmat) (vec : List ℤ) (row col : ℕ) (i : ℕ)
    (hi : i < row) :
    (((generate_sparsity_P S vec row col).JA.drop
        ((generate_sparsity_P S vec row col).IA.getD i 0)).take
      ((generate_sparsity_P S vec row col).IA.getD (i+1) 0 -
        (generate_sparsity_P S vec row col).IA.getD i 0) = Prow S vec i) ∧
    (vec.getD i 0 = FGPT → Prow S vec i =
      (SrowPos S i).filterMap
        (fun j => if vec.getD (S.JA.getD j 0).toNat 0 = CGPT
                  then some (S.JA.getD j 0) else none)) ∧
    (vec.getD i 0 = ISPT → Prow S vec i = []) ∧
    (vec.getD i 0 ≠ FGPT → vec.getD i 0 ≠ ISPT → Prow S vec i = [(i : ℤ)]) ∧
    (∀ q ∈ (generate_sparsity_P S vec row col).val, q = 0) := by
  have hIAget : ∀ k, k < row + 1 →
      (generate_sparsity_P S vec row col).IA.getD k 0 =
        ((List.range k).map (PIAcount S vec)).sum := by
    intro k hk
    show (((List.range (row+1)).map
      (fun i => ((List.range i).map (PIAcount S vec)).sum)).getD k 0) = _
    rw [List.getD_eq_getElem?_getD, List.getElem?_map, List.getElem?_range hk]
    rfl
  refine ⟨?_, ?_, ?_, ?_, ?_⟩
  · rw [hIAget i (by omega), hIAget (i+1) (by omega), List.range_succ,
      List.map_append, List.sum_append]
    have hdiff : (((List.range i).map (PIAcount S vec)).sum +
        ([i].map (PIAcount S vec)).sum) - ((List.range i).map (PIAcount S vec)).sum =
        PIAcount S vec i := by
      simp
    rw [hdiff]
    have htake : (((List.range row).map (Prow S vec)).take i) =
        (List.range i).map (Prow S vec) := by
      rw [← List.map_take, List.take_range i row, min_eq_left (Nat.le_of_lt hi)]
    have hsum : ((List.range i).map (PIAcount S vec)).sum =
        ((((List.range row).map (Prow S vec)).take i).map List.length).sum := by
      rw [htake, List.map_map]
      congr 1
      apply List.map_congr_left
      intro a _
      exact PIAcount_eq_length S vec a
    have hget : ((List.range row).map (Prow S vec)).getD i [] = Prow S vec i := by
      rw [List.getD_eq_getElem?_getD, List.getElem?_map, List.getElem?_range hi]
      rfl
    have hflat := flatten_slice ((List.range row).map (Prow S vec)) i
      (by simpa using hi)
    rw [hget] at hflat
    show ((((List.range row).map (Prow S vec)).flatten.drop _).take _) = _
    rw [hsum, PIAcount_eq_length]
    exact hflat
  · intro h1
    unfold Prow
    rw [if_pos h1]
  · intro h2
    unfold Prow
    rw [if_neg (by rw [h2]; decide), if_pos h2]
  · intro h1 h2
    unfold Prow
    rw [if_neg h1, if_neg h2]
  · intro q hq
    have := List.eq_of_mem_replicate hq
    exact this

/-- Concrete strength graph for the C6 instance: two vertices,
`S_0 = {1}`, `S_1 = ∅`. -/
def S2ex : iCSRmat := { row := 2, col := 2, nnz := 1, IA := [0, 1, 1], JA := [1] }

/-- Concrete CF-splitting for the C6 instance: vertex 0 FINE, vertex 1
COARSE (so vertex 1 is coarse point number 0). -/
def vec2ex : List ℤ := [0, 1]

/-- C6, counterexample.  The claim says a COARSE row carries a single *unit*
entry whose column is the *coarse-grid index* of the vertex.  With
`vec = [FINE, COARSE]`, vertex 1 is the first coarse point, so its
coarse-grid index is 0 — but `generate_sparsity_P` writes `P->JA[index]=i`,
the fine-grid index `1`, and never writes `P->val` (the `calloc`ed value
stays `0`, not `1`). -/
theorem C6_coarse_row_counterexample :
    ¬ (((generate_sparsity_P S2ex vec2ex 2 1).JA.getD 1 0 = 0) ∧
       ((generate_sparsity_P S2ex vec2ex 2 1).val.getD 1 0 = 1)) := by
  intro ⟨h1, _⟩
  have : (generate_sparsity_P S2ex vec2ex 2 1).JA.getD 1 0 = 1 := by
    decide
  rw [this] at h1
  exact absurd h1 (by norm_num)

/-- C6, witness for the amended theorem, at the concrete instance `S2ex`,
`vec2ex`, row 1 (a COARSE row). -/
theorem C6_sparsity_P_rows_witness :
    (1 < 2) ∧
    (((generate_sparsity_P S2ex vec2ex 2 1).JA.drop
        ((generate_sparsity_P S2ex vec2ex 2 1).IA.getD 1 0)).take
      ((generate_sparsity_P S2ex vec2ex 2 1).IA.getD 2 0 -
        (generate_sparsity_P S2ex vec2ex 2 1).IA.getD 1 0) = Prow S2ex vec2ex 1) ∧
    (vec2ex.getD 1 0 = FGPT → Prow S2ex vec2ex 1 =
      (SrowPos S2ex 1).filterMap
        (fun j => if vec2ex.getD (S2ex.JA.getD j 0).toNat 0 = CGPT
                  then some (S2ex.JA.getD j 0) else none)) ∧
    (vec2ex.getD 1 0 = ISPT → Prow S2ex vec2ex 1 = []) ∧
    (vec2ex.getD 1 0 ≠ FGPT → vec2ex.getD 1 0 ≠ ISPT → Prow S2ex vec2ex 1 = [(1 : ℤ)]) ∧
    (∀ q ∈ (generate_sparsity_P S2ex vec2ex 2 1).val, q = 0) :=
  ⟨by decide, C6_sparsity_P_rows S2ex vec2ex 2 1 1 (by decide)⟩

end Coarsen

/-! ## STR Gauss–Seidel / SOR smoothers (`src/core/src/smoother_str.c`), claim C9 -/

namespace STR

/-- Pointwise function update (a C array store). -/
def upd (f : ℤ → ℚ) (idx : ℤ) (v : ℚ) : ℤ → ℚ :=
  fun t => if t = idx then v else f t

/-- The `dSTRmat` fields used by the ascending smoothers.  `diag` and the
band arrays are total functions on `ℤ` (C pointer indexing). -/
structure dSTRmat where
  ngrid : ℕ
  nc : ℕ
  nband : ℕ
  offsets : List ℤ
  diag : ℤ → ℚ
  offdiag : ℕ → ℤ → ℚ

/-- `blkcontr2_str` (`src/core/src/smoother_str.c`): subtract the block
product from `y`.  `y[i] -= data[start_data + i*nc + j] * x[start_vecx + j]`
(the `start_vecy == 0` branch) or with `m = start_vecy + i` otherwise. -/
def blkcontr2_str (sd sx sy : ℤ) (nc : ℕ) (data x : ℤ → ℚ) (y : ℤ → ℚ) : ℤ → ℚ :=
  if sy = 0 then
    (List.range nc).foldl (fun yacc (i : ℕ) =>
      let k := sd + (i : ℤ) * (nc : ℤ)
      (List.range nc).foldl (fun y2 (j : ℕ) =>
        upd y2 (i : ℤ) (y2 (i : ℤ) - data (k + (j : ℤ)) * x (sx + (j : ℤ)))) yacc) y
  else
    (List.range nc).foldl (fun yacc (i : ℕ) =>
      let k := sd + (i : ℤ) * (nc : ℤ)
      let m := sy + (i : ℤ)
      (List.range nc).foldl (fun y2 (j : ℕ) =>
        upd y2 m (y2 m - data (k + (j : ℤ)) * x (sx + (j : ℤ)))) yacc) y

/-- `fasp_blas_smat_mxv` (`src/core/src/blas_smat.c`): the value written to
`c[i]`, with the specialised unrolled kernels for `n ∈ {2,3,5,7}` and the
triple-loop fallback. -/
def smat_mxv_vals (a b : ℤ → ℚ) (n : ℕ) (i : ℕ) : ℚ :=
  match n with
  | 2 =>
    if i = 0 then a 0 * b 0 + a 1 * b 1
    else a 2 * b 0 + a 3 * b 1
  | 3 =>
    if i = 0 then a 0 * b 0 + a 1 * b 1 + a 2 * b 2
    else if i = 1 then a 3 * b 0 + a 4 * b 1 + a 5 * b 2
    else a 6 * b 0 + a 7 * b 1 + a 8 * b 2
  | 5 =>
    if i = 0 then a 0 * b 0 + a 1 * b 1 + a 2 * b 2 + a 3 * b 3 + a 4 * b 4
    else if i = 1 then a 5 * b 0 + a 6 * b 1 + a 7 * b 2 + a 8 * b 3 + a 9 * b 4
    else if i = 2 then a 10 * b 0 + a 11 * b 1 + a 12 * b 2 + a 13 * b 3 + a 14 * b 4
    else if i = 3 then a 15 * b 0 + a 16 * b 1 + a 17 * b 2 + a 18 * b 3 + a 19 * b 4
    else a 20 * b 0 + a 21 * b 1 + a 22 * b 2 + a 23 * b 3 + a 24 * b 4
  | 7 =>
    if i = 0 then
      a 0 * b 0 + a 1 * b 1 + a 2 * b 2 + a 3 * b 3 + a 4 * b 4 + a 5 * b 5 + a 6 * b 6
    else if i = 1 then
      a 7 * b 0 + a 8 * b 1 + a 9 * b 2 + a 10 * b 3 + a 11 * b 4 + a 12 * b 5 + a 13 * b 6
    else if i = 2 then
      a 14 * b 0 + a 15 * b 1 + a 16 * b 2 + a 17 * b 3 + a 18 * b 4 + a 19 * b 5 + a 20 * b 6
    else if i = 3 then
      a 21 * b 0 + a 22 * b 1 + a 23 * b 2 + a 24 * b 3 + a 25 * b 4 + a 26 * b 5 + a 27 * b 6
    else if i = 4 then
      a 28 * b 0 + a 29 * b 1 + a 30 * b 2 + a 31 * b 3 + a 32 * b 4 + a 33 * b 5 + a 34 * b 6
    else if i = 5 then
      a 35 * b 0 + a 36 * b 1 + a 37 * b 2 + a 38 * b 3 + a 39 * b 4 + a 40 * b 5 + a 41 * b 6
    else
      a 42 * b 0 + a 43 * b 1 + a 44 * b 2 + a 45 * b 3 + a 46 * b 4 + a 47 * b 5 + a 48 * b 6
  | n =>
    (List.range n).foldl
      (fun temp (j : ℕ) => temp + a ((i : ℤ) * (n : ℤ) + (j : ℤ)) * b (j : ℤ)) 0

/-- `saAxpby` (`src/core/src/smoother_str.c`): `y := alpha*A*x + beta*y` on a
`size`-vector, by the source's three passes (`y *= beta/alpha`, `y += A*x`,
`y *= alpha`), with the `alpha == 0` early-out (`y *= beta`). -/
def saAxpby (alpha beta : ℚ) (size : ℕ) (Am x : ℤ → ℚ) (y : ℤ → ℚ) : ℤ → ℚ :=
  if alpha = 0 then
    (List.range size).foldl (fun yacc (i : ℕ) => upd yacc (i : ℤ) (yacc (i : ℤ) * beta)) y
  else
    let tmp := beta / alpha
    let y1 := (List.range size).foldl
      (fun yacc (i : ℕ) => upd yacc (i : ℤ) (yacc (i : ℤ) * tmp)) y
    let y2 := (List.range size).foldl (fun yacc (i : ℕ) =>
      (List.range size).foldl (fun ya (j : ℕ) =>
        upd ya (i : ℤ) (ya (i : ℤ) + Am ((i : ℤ) * (size : ℤ) + (j : ℤ)) * x (j : ℤ)))
        yacc) y1
    (List.range size).foldl
      (fun yacc (i : ℕ) => upd yacc (i : ℤ) (yacc (i : ℤ) * alpha)) y2

/-- Shift a C pointer: `f + off`. -/
def shiftFn (f : ℤ → ℚ) (off : ℤ) : ℤ → ℚ := fun t => f (off + t)

/-- Write an `n`-block of values back through a pointer view at `off`
(`c = u_val + off` in the source). -/
def writeBlock (u : ℤ → ℚ) (off : ℤ) (n : ℕ) (vals : ℕ → ℚ) : ℤ → ℚ :=
  fun t => if off ≤ t ∧ t < off + (n : ℤ) then vals (t - off).toNat else u t

/-- The `vec_tmp` contents for a block: `vec_tmp[point] = b_val[ncb+point]`
for `point < nc` (the work array is `calloc`ed; entries outside `[0,nc)` are
never read by the block routines). -/
def vecTmp0 (b : ℤ → ℚ) (ncb : ℤ) (nc : ℕ) : ℤ → ℚ :=
  fun t => if 0 ≤ t ∧ t < (nc : ℤ) then b (ncb + t) else 0

/-- The band-subtraction loop shared by the `nc > 1` paths of the ascending
GS and SOR smoothers: for each band, if the offset is negative and
`column = block + width ≥ 0`, subtract `offdiag[band]` at `nc²·column`
against `u` at `nc·column`; if the offset is non-negative and
`column < ngrid`, subtract `offdiag[band]` at `nc²·block` against `u` at
`nc·column`. -/
def bandSweep (A : dSTRmat) (uacc : ℤ → ℚ) (block : ℕ) (vec : ℤ → ℚ) : ℤ → ℚ :=
  (List.range A.nband).foldl (fun v band =>
    let width := A.offsets.getD band 0
    let column := (block : ℤ) + width
    if width < 0 then
      if column ≥ 0 then
        blkcontr2_str ((A.nc : ℤ) * (A.nc : ℤ) * column) ((A.nc : ℤ) * column) 0 A.nc
          (A.offdiag band) uacc v
      else v
    else
      if column < (A.ngrid : ℤ) then
        blkcontr2_str ((A.nc : ℤ) * (A.nc : ℤ) * (block : ℤ)) ((A.nc : ℤ) * column) 0 A.nc
          (A.offdiag band) uacc v
      else v) vec

/-- The `rhs` accumulation of the `nc == 1` paths of the ascending GS and
SOR smoothers. -/
def rhsPoint (A : dSTRmat) (uacc : ℤ → ℚ) (b : ℤ → ℚ) (point : ℕ) : ℚ :=
  (List.range A.nband).foldl (fun racc band =>
    let width := A.offsets.getD band 0
    let column := (point : ℤ) + width
    if width < 0 then
      if column ≥ 0 then racc - A.offdiag band column * uacc column else racc
    else
      if column < (A.ngrid : ℤ) then racc - A.offdiag band point * uacc column else racc)
    (b point)

/-- `fasp_smoother_dstr_gs_ascend` from `src/core/src/smoother_str.c`. -/
def fasp_smoother_dstr_gs_ascend (A : dSTRmat) (b u : ℤ → ℚ) (diaginv : ℤ → ℚ) :
    ℤ → ℚ :=
  if A.nc = 1 then
    (List.range A.ngrid).foldl (fun uacc (point : ℕ) =>
      upd uacc (point : ℤ) (rhsPoint A uacc b point / A.diag point)) u
  else if 1 < A.nc then
    (List.range A.ngrid).foldl (fun uacc (block : ℕ) =>
      let ncb := (A.nc : ℤ) * (block : ℤ)
      let startDATA := (A.nc : ℤ) * (A.nc : ℤ) * (block : ℤ)
      let vec := bandSweep A uacc block (vecTmp0 b ncb A.nc)
      writeBlock uacc ncb A.nc
        (smat_mxv_vals (shiftFn diaginv startDATA) vec A.nc)) u
  else u

/-- `fasp_smoother_dstr_sor_ascend` from `src/core/src/smoother_str.c`. -/
def fasp_smoother_dstr_sor_ascend (A : dSTRmat) (b u : ℤ → ℚ) (diaginv : ℤ → ℚ)
    (weight : ℚ) : ℤ → ℚ :=
  let one_minus_weight := 1 - weight
  if A.nc = 1 then
    (List.range A.ngrid).foldl (fun uacc (point : ℕ) =>
      upd uacc (point : ℤ)
        (one_minus_weight * uacc (point : ℤ) +
          weight * (rhsPoint A uacc b point / A.diag point))) u
  else if 1 < A.nc then
    (List.range A.ngrid).foldl (fun uacc (block : ℕ) =>
      let ncb := (A.nc : ℤ) * (block : ℤ)
      let startDATA := (A.nc : ℤ) * (A.nc : ℤ) * (block : ℤ)
      let vec := bandSweep A uacc block (vecTmp0 b ncb A.nc)
      let blockResult := saAxpby weight one_minus_weight A.nc
        (shiftFn diaginv startDATA) vec (shiftFn uacc ncb)
      writeBlock uacc ncb A.nc (fun i => blockResult (i : ℤ))) u
  else u

end STR

namespace STR

theorem upd_same (f : ℤ → ℚ) (i : ℤ) (v : ℚ) : upd f i v i = v := by
  simp [upd]

theorem upd_other (f : ℤ → ℚ) (i t : ℤ) (v : ℚ) (h : t ≠ i) : upd f i v t = f t := by
  simp [upd, h]

/-- A pass `for i < n: y[i] *= c`, evaluated at `t`. -/
theorem foldl_upd_mul (c : ℚ) (n : ℕ) (y : ℤ → ℚ) (t : ℤ) :
    ((List.range n).foldl (fun yacc (i : ℕ) => upd yacc (i : ℤ) (yacc (i : ℤ) * c)) y) t =
      if 0 ≤ t ∧ t < (n : ℤ) then y t * c else y t := by
  induction n generalizing t with
  | zero =>
    simp only [List.range_zero, List.foldl_nil]
    rw [if_neg (by push_cast; omega)]
  | succ m ih =>
    rw [List.range_succ, List.foldl_append, List.foldl_cons, List.foldl_nil]
    by_cases ht : t = (m : ℤ)
    · subst ht
      rw [upd_same, ih]
      have hnot : ¬ (0 ≤ (m : ℤ) ∧ (m : ℤ) < (m : ℤ)) := by intro h; omega
      have hyes : 0 ≤ (m : ℤ) ∧ (m : ℤ) < ((m + 1 : ℕ) : ℤ) := by
        constructor
        · omega
        · push_cast; omega
      rw [if_neg hnot, if_pos hyes]
    · rw [upd_other _ _ _ _ ht, ih]
      by_cases hin : 0 ≤ t ∧ t < (m : ℤ)
      · have : 0 ≤ t ∧ t < ((m + 1 : ℕ) : ℤ) := by push_cast; omega
        rw [if_pos hin, if_pos this]
      · have : ¬ (0 ≤ t ∧ t < ((m + 1 : ℕ) : ℤ)) := by
          intro h
          apply hin
          constructor
          · exact h.1
          · have h2 := h.2
            push_cast at h2
            omega
        rw [if_neg hin, if_neg this]

/-- Updating the same cell twice keeps the last value. -/
theorem upd_upd (y : ℤ → ℚ) (i : ℤ) (a b : ℚ) : upd (upd y i a) i b = upd y i b := by
  funext t
  by_cases ht : t = i
  · subst ht; rw [upd_same, upd_same]
  · rw [upd_other _ _ _ _ ht, upd_other _ _ _ _ ht, upd_other _ _ _ _ ht]

/-- The inner accumulation loop `for j: y[i] += c j`, as a single update. -/
theorem foldl_upd_addAt (i : ℤ) (c : ℕ → ℚ) (m : ℕ) (y : ℤ → ℚ) :
    ((List.range m).foldl (fun ya (j : ℕ) => upd ya i (ya i + c j)) y) =
      upd y i ((List.range m).foldl (fun s (j : ℕ) => s + c j) (y i)) := by
  induction m generalizing y with
  | zero =>
    funext t
    by_cases ht : t = i
    · subst ht; rw [upd_same]; rfl
    · rw [upd_other _ _ _ _ ht]; rfl
  | succ k ih =>
    rw [List.range_succ, List.foldl_append, List.foldl_cons, List.foldl_nil,
      List.foldl_append, List.foldl_cons, List.foldl_nil, ih, upd_same, upd_upd]

/-- The middle pass of `saAxpby` (`y += A*x` row by row), evaluated at `t`,
for outer loop bound `m` and row length `n`. -/
theorem foldl_upd_addRow (Am x : ℤ → ℚ) (n m : ℕ) (y : ℤ → ℚ) (t : ℤ) :
    ((List.range m).foldl (fun yacc (i : ℕ) =>
      (List.range n).foldl (fun ya (j : ℕ) =>
        upd ya (i : ℤ) (ya (i : ℤ) + Am ((i : ℤ) * (n : ℤ) + (j : ℤ)) * x (j : ℤ))) yacc)
      y) t =
    if 0 ≤ t ∧ t < (m : ℤ) then
      (List.range n).foldl
        (fun s (j : ℕ) => s + Am (t * (n : ℤ) + (j : ℤ)) * x (j : ℤ)) (y t)
    else y t := by
  induction m generalizing t with
  | zero =>
    simp only [List.range_zero, List.foldl_nil]
    rw [if_neg (by push_cast; omega)]
  | succ k ih =>
    rw [List.range_succ, List.foldl_append, List.foldl_cons, List.foldl_nil,
      foldl_upd_addAt]
    by_cases ht : t = (k : ℤ)
    · subst ht
      rw [upd_same, ih]
      have hnot : ¬ (0 ≤ (k : ℤ) ∧ (k : ℤ) < (k : ℤ)) := by intro h; omega
      have hyes : 0 ≤ (k : ℤ) ∧ (k : ℤ) < ((k + 1 : ℕ) : ℤ) := by push_cast; omega
      rw [if_neg hnot, if_pos hyes]
    · rw [upd_other _ _ _ _ ht, ih]
      by_cases hin : 0 ≤ t ∧ t < (k : ℤ)
      · have : 0 ≤ t ∧ t < ((k + 1 : ℕ) : ℤ) := by push_cast; omega
        rw [if_pos hin, if_pos this]
      · have : ¬ (0 ≤ t ∧ t < ((k + 1 : ℕ) : ℤ)) := by
          intro h
          apply hin
          refine ⟨h.1, ?_⟩
          have h2 := h.2
          push_cast at h2
          omega
        rw [if_neg hin, if_neg this]

/-- `saAxpby` with `alpha = 1`, `beta = 0` computes exactly the block
matrix–vector product values of `fasp_blas_smat_mxv`. -/
theorem saAxpby_one_zero (n : ℕ) (Am x y : ℤ → ℚ) (i : ℕ) (hi : i < n) :
    saAxpby 1 0 n Am x y (i : ℤ) = smat_mxv_vals Am x n i := by
  simp only [saAxpby]
  rw [if_neg (one_ne_zero), zero_div]
  have hin : 0 ≤ (i : ℤ) ∧ (i : ℤ) < (n : ℤ) := by omega
  rw [foldl_upd_mul 1, if_pos hin, mul_one, foldl_upd_addRow, if_pos hin,
    foldl_upd_mul, if_pos hin, mul_zero]
  have hsum : ∀ (s0 : ℚ),
      (List.range n).foldl
        (fun s (j : ℕ) => s + Am ((i : ℤ) * (n : ℤ) + (j : ℤ)) * x (j : ℤ)) s0 =
      s0 + (List.range n).foldl
        (fun s (j : ℕ) => s + Am ((i : ℤ) * (n : ℤ) + (j : ℤ)) * x (j : ℤ)) 0 := by
    induction (List.range n) with
    | nil => intro s0; simp
    | cons a l ihl =>
      intro s0
      simp only [List.foldl_cons]
      rw [ihl (s0 + _), ihl (0 + _)]
      ring
  rw [hsum]
  have hmx : smat_mxv_vals Am x n i =
      (List.range n).foldl
        (fun temp (j : ℕ) => temp + Am ((i : ℤ) * (n : ℤ) + (j : ℤ)) * x (j : ℤ)) 0 := by
    match n, hi with
    | 2, hi =>
      interval_cases i <;>
        simp [smat_mxv_vals, List.range_succ]
    | 3, hi =>
      interval_cases i <;>
        simp [smat_mxv_vals, List.range_succ]
    | 5, hi =>
      interval_cases i <;>
        simp [smat_mxv_vals, List.range_succ]
    | 7, hi =>
      interval_cases i <;>
        simp [smat_mxv_vals, List.range_succ]
    | 0, hi => omega
    | 1, hi => rfl
    | 4, hi => rfl
    | 6, hi => rfl
    | (k+8), hi => rfl
  rw [hmx]
  ring

end STR

namespace STR

theorem writeBlock_congr (u : ℤ → ℚ) (off : ℤ) (n : ℕ) (v1 v2 : ℕ → ℚ)
    (h : ∀ i, i < n → v1 i = v2 i) :
    writeBlock u off n v1 = writeBlock u off n v2 := by
  funext t
  unfold writeBlock
  by_cases ht : off ≤ t ∧ t < off + (n : ℤ)
  · rw [if_pos ht, if_pos ht, h (t - off).toNat (by omega)]
  · rw [if_neg ht, if_neg ht]

/-- C9.  One sweep of the ascending SOR smoother with relaxation weight
`ω = 1` produces exactly the same updated iterate as one sweep of the
ascending Gauss–Seidel smoother, on every STR matrix, right-hand side,
initial iterate and diagonal-inverse array (in exact arithmetic): the
`nc = 1` update `(1-ω)·u + ω·(rhs/diag)` collapses to `rhs/diag`, and the
block update `saAxpby(1, 0, …)` computes exactly the
`fasp_blas_smat_mxv` values. -/
theorem C9_sor_ascend_weight_one_eq_gs (A : dSTRmat) (b u diaginv : ℤ → ℚ) :
    fasp_smoother_dstr_sor_ascend A b u diaginv 1 =
      fasp_smoother_dstr_gs_ascend A b u diaginv := by
  unfold fasp_smoother_dstr_sor_ascend fasp_smoother_dstr_gs_ascend
  simp only
  have hb : (1 : ℚ) - 1 = 0 := by norm_num
  rw [hb]
  by_cases h1 : A.nc = 1
  · rw [if_pos h1, if_pos h1]
    have hstep : (fun uacc (point : ℕ) =>
        upd uacc (point : ℤ)
          ((0 : ℚ) * uacc (point : ℤ) +
            1 * (rhsPoint A uacc b point / A.diag point))) =
        (fun uacc (point : ℕ) =>
          upd uacc (point : ℤ) (rhsPoint A uacc b point / A.diag point)) := by
      funext uacc point
      ring_nf
    rw [hstep]
  · rw [if_neg h1, if_neg h1]
    by_cases h2 : 1 < A.nc
    · rw [if_pos h2, if_pos h2]
      have hstep : (fun uacc (block : ℕ) =>
          writeBlock uacc ((A.nc : ℤ) * (block : ℤ)) A.nc
            (fun i => saAxpby 1 0 A.nc
              (shiftFn diaginv ((A.nc : ℤ) * (A.nc : ℤ) * (block : ℤ)))
              (bandSweep A uacc block (vecTmp0 b ((A.nc : ℤ) * (block : ℤ)) A.nc))
              (shiftFn uacc ((A.nc : ℤ) * (block : ℤ))) (i : ℤ))) =
          (fun uacc (block : ℕ) =>
            writeBlock uacc ((A.nc : ℤ) * (block : ℤ)) A.nc
              (smat_mxv_vals
                (shiftFn diaginv ((A.nc : ℤ) * (A.nc : ℤ) * (block : ℤ)))
                (bandSweep A uacc block (vecTmp0 b ((A.nc : ℤ) * (block : ℤ)) A.nc))
                A.nc)) := by
        funext uacc block
        apply writeBlock_congr
        intro i hi
        exact saAxpby_one_zero A.nc _ _ _ i hi
      rw [hstep]
    · rw [if_neg h2, if_neg h2]

end STR

/-! ## CF-splitting (`src/core/src/coarsening_rs.c`, `form_coarse_level`),
claim C5 -/

namespace Coarsen

/-- `#define LIST_HEAD -1` from `coarsening_rs.c`. -/
def LIST_HEAD : ℤ := -1

/-- `#define LIST_TAIL -2` from `coarsening_rs.c`. -/
def LIST_TAIL : ℤ := -2

/-- A node of the list-of-lists: measure value and the head/tail point
indices of its point list.  The `prev_elt`/`next_elt` pointers of the C
struct are represented by the order of the enclosing `List`. -/
structure ListElement where
  data : ℤ
  head : ℤ
  tail : ℤ

/-- The columns of row `k` of the strength matrix, as point indices. -/
def SrowNat (S : iCSRmat) (k : ℕ) : List ℕ :=
  (SrowPos S k).map (fun p => (S.JA.getD p 0).toNat)

/-- Modelled from the spec: `fasp_icsr_trans` (§4.3, "CSR transpose produces
a new CSR with sorted column indices within each row"); its source is not
among the provided files.  Row `j` of `Sᵀ` lists, in ascending order, the
rows `i` of `S` that contain column `j`. -/
def STrow (S : iCSRmat) (j : ℕ) : List ℕ :=
  (List.range S.row).filter (fun i => j ∈ SrowNat S i)

/-- `remove_point` from `coarsening_rs.c`: walk the list-of-lists for the
element whose `data` equals `measure` and unlink point `index` from it
(destroying the element when `index` was its only point).  Returns the
updated list-of-lists and the `lists`/`where` link arrays.  When no element
matches, the source prints "No such list!" and returns with no change. -/
def remove_point : List ListElement → ℤ → ℕ → List ℤ → List ℤ →
    List ListElement × List ℤ × List ℤ
  | [], _, _, lists, whr => ([], lists, whr)
  | elt :: rest, measure, index, lists, whr =>
    if elt.data = measure then
      if elt.head = (index : ℤ) ∧ elt.tail = (index : ℤ) then
        (rest, lists, whr)
      else if elt.head = (index : ℤ) then
        ({ elt with head := lists.getD index 0 } :: rest,
         lists,
         whr.set (lists.getD index 0).toNat LIST_HEAD)
      else if elt.tail = (index : ℤ) then
        ({ elt with tail := whr.getD index 0 } :: rest,
         lists.set (whr.getD index 0).toNat LIST_TAIL,
         whr)
      else
        (elt :: rest,
         lists.set (whr.getD index 0).toNat (lists.getD index 0),
         whr.set (lists.getD index 0).toNat (whr.getD index 0))
    else
      let r := remove_point rest measure index lists whr
      (elt :: r.1, r.2.1, r.2.2)

/-- `enter_list` from `coarsening_rs.c`: walk the list-of-lists (kept in
decreasing `data` order) and place point `index` with the given `measure`:
before the first element with smaller `data` (new element), at the tail of
the element with equal `data`, or at the very end. -/
def enter_list : List ListElement → ℤ → ℕ → List ℤ → List ℤ →
    List ListElement × List ℤ × List ℤ
  | [], measure, index, lists, whr =>
    ([⟨measure, (index : ℤ), (index : ℤ)⟩],
     lists.set index LIST_TAIL, whr.set index LIST_HEAD)
  | elt :: rest, measure, index, lists, whr =>
    if measure > elt.data then
      (⟨measure, (index : ℤ), (index : ℤ)⟩ :: elt :: rest,
       lists.set index LIST_TAIL, whr.set index LIST_HEAD)
    else if measure = elt.data then
      let old_tail := elt.tail
      ({ elt with tail := (index : ℤ) } :: rest,
       (lists.set old_tail.toNat (index : ℤ)).set index LIST_TAIL,
       whr.set index old_tail)
    else
      let r := enter_list rest measure index lists whr
      (elt :: r.1, r.2.1, r.2.2)

/-- The mutable state of phase one of `form_coarse_level`. -/
structure P1State where
  vec : List ℤ
  lam : List ℤ
  LoL : List ListElement
  lists : List ℤ
  whr : List ℤ
  num_left : ℕ
  col : ℕ

/-- Step 3 of phase one, for one point `i`: enter points with positive
measure into the list-of-lists; set points with non-positive measure FINE
and promote the measures of their strong neighbours (re-entering already
listed neighbours, i.e. those with `j < i`). -/
def step3One (S : iCSRmat) (st : P1State) (i : ℕ) : P1State :=
  if st.vec.getD i 0 ≠ ISPT then
    let measure := st.lam.getD i 0
    if measure > 0 then
      let r := enter_list st.LoL measure i st.lists st.whr
      { st with LoL := r.1, lists := r.2.1, whr := r.2.2 }
    else
      let st1 := { st with vec := st.vec.set i FGPT }
      let st2 := (SrowNat S i).foldl (fun (s : P1State) (j : ℕ) =>
        if s.vec.getD j 0 ≠ ISPT then
          if j < i then
            let s1 :=
              if s.lam.getD j 0 > 0 then
                let r := remove_point s.LoL (s.lam.getD j 0) j s.lists s.whr
                { s with LoL := r.1, lists := r.2.1, whr := r.2.2 }
              else s
            let newm := s1.lam.getD j 0 + 1
            let s2 := { s1 with lam := s1.lam.set j newm }
            let r := enter_list s2.LoL newm j s2.lists s2.whr
            { s2 with LoL := r.1, lists := r.2.1, whr := r.2.2 }
          else
            { s with lam := s.lam.set j (s.lam.getD j 0 + 1) }
        else s) st1
      { st2 with num_left := st2.num_left - 1 }
  else st

/-- The shared inner loop of the main coarsening loop: bump the measure of
every still-undecided strong neighbour `k` of a newly fine point. -/
def bumpNeighbors (S : iCSRmat) (j : ℕ) (s : P1State) : P1State :=
  (SrowNat S j).foldl (fun (t : P1State) (k : ℕ) =>
    if t.vec.getD k 0 = UNPT then
      let r := remove_point t.LoL (t.lam.getD k 0) k t.lists t.whr
      let newm := t.lam.getD k 0 + 1
      let t0 := { t with lam := t.lam.set k newm }
      let t1 := { t0 with LoL := r.1, lists := r.2.1, whr := r.2.2 }
      let r2 := enter_list t1.LoL newm k t1.lists t1.whr
      { t1 with LoL := r2.1, lists := r2.2.1, whr := r2.2.2 }
    else t) s

/-- One iteration of the main loop of phase one: pick the head point of the
top list as the new COARSE point, make its undecided transpose-neighbours
FINE (bumping their neighbours), and decrement the measures of its own
undecided strong neighbours (making those that reach zero FINE). -/
def mainBody (S : iCSRmat) (st : P1State) : P1State :=
  match st.LoL with
  | [] => st
  | elt :: _ =>
    let maxnode := elt.head.toNat
    let maxlambda := st.lam.getD maxnode 0
    let st0 := { st with vec := st.vec.set maxnode CGPT }
    let st1 := { st0 with lam := st0.lam.set maxnode 0, num_left := st0.num_left - 1, col := st0.col + 1 }
    let r := remove_point st1.LoL maxlambda maxnode st1.lists st1.whr
    let st2 := { st1 with LoL := r.1, lists := r.2.1, whr := r.2.2 }
    let st3 := (STrow S maxnode).foldl (fun (s : P1State) (j : ℕ) =>
      if s.vec.getD j 0 = UNPT then
        let s1 := { s with vec := s.vec.set j FGPT }
        let r1 := remove_point s1.LoL (s1.lam.getD j 0) j s1.lists s1.whr
        let s1b := { s1 with num_left := s1.num_left - 1 }
        let s2 := { s1b with LoL := r1.1, lists := r1.2.1, whr := r1.2.2 }
        bumpNeighbors S j s2
      else s) st2
    (SrowNat S maxnode).foldl (fun (s : P1State) (j : ℕ) =>
      if s.vec.getD j 0 = UNPT then
        let measure := s.lam.getD j 0
        let r1 := remove_point s.LoL measure j s.lists s.whr
        let s1 := { s with LoL := r1.1, lists := r1.2.1, whr := r1.2.2 }
        let measure1 := measure - 1
        let s2 := { s1 with lam := s1.lam.set j measure1 }
        if measure1 > 0 then
          let r2 := enter_list s2.LoL measure1 j s2.lists s2.whr
          { s2 with LoL := r2.1, lists := r2.2.1, whr := r2.2.2 }
        else
          let s2b := { s2 with vec := s2.vec.set j FGPT }
          let s3 := { s2b with num_left := s2b.num_left - 1 }
          bumpNeighbors S j s3
      else s) st3

/-- The `while (num_left > 0)` loop of phase one.  Each iteration makes at
least one point COARSE, so the initial `num_left` bounds the iteration
count; when the list-of-lists is empty the C code would dereference a null
pointer, and the model simply stops. -/
def phase1Loop (S : iCSRmat) : ℕ → P1State → P1State
  | 0, st => st
  | fuel+1, st =>
    if st.num_left = 0 then st
    else
      match st.LoL with
      | [] => st
      | _ => phase1Loop S fuel (mainBody S st)

/-- Phase one of `form_coarse_level`: measure initialisation (from `Sᵀ`),
isolated-point filtering, step 3, and the main loop. -/
def coarsenPhase1 (A : dCSRmat) (S : iCSRmat) (vertices : List ℤ) (row : ℕ) :
    P1State :=
  let lam0 := (List.range row).map (fun i => ((STrow S i).length : ℤ))
  let init : P1State :=
    (List.range row).foldl (fun (st : P1State) (i : ℕ) =>
      if (A.IA.getD (i+1) 0 : ℤ) - (A.IA.getD i 0 : ℤ) ≤ 1 then
        { st with vec := st.vec.set i ISPT, lam := st.lam.set i 0 }
      else
        { st with vec := st.vec.set i UNPT, num_left := st.num_left + 1 })
      ⟨vertices, lam0, [], List.replicate row 0, List.replicate row 0, 0, 0⟩
  let st3 := (List.range row).foldl (step3One S) init
  phase1Loop S st3.num_left st3

end Coarsen

namespace Coarsen

/-- The mutable state of phase two of `form_coarse_level`. -/
structure P2State where
  i : ℕ
  vec : List ℤ
  ga : List ℤ
  cin : ℤ
  cit : ℤ
  citm : ℤ
  col : ℕ
deriving DecidableEq

/-- The `set_empty` scan of phase two: point `j` shares no marked
(`graph_array[..] == i`) neighbour. -/
def setEmptyB (S : iCSRmat) (ga : List ℤ) (i j : ℕ) : Bool :=
  (SrowNat S j).all (fun index => !(ga.getD index (-1) == (i : ℤ)))

/-- One pass of the phase-two `for (i …)` body, processing index `st.i`.
The source's `if (ci_tilde_mark |= i) ci_tilde = -1;` uses the bitwise
or-assignment (`|=`, not `!=`), which is kept faithfully: the reset fires
whenever `ci_tilde_mark | i` is nonzero.  If a FINE strong neighbour `j` of
the FINE point `i` has no marked common coarse neighbour, either `j` is
promoted to COARSE and the same `i` is retried (`i--; break`), or — when
`C_i_nonempty` is already set — `i` itself is promoted (undoing the earlier
tentative promotion `ci_tilde` when it survived the reset) and the loop
advances. -/
def phase2Body (S : iCSRmat) (st : P2State) : P2State :=
  let citm1 := Int.lor st.citm (st.i : ℤ)
  let cit1 := if citm1 ≠ 0 then (-1 : ℤ) else st.cit
  if st.vec.getD st.i 0 = FGPT then
    let ga1 := (SrowNat S st.i).foldl (fun (g : List ℤ) (j : ℕ) =>
      if st.vec.getD j 0 = CGPT then g.set j (st.i : ℤ) else g) st.ga
    match (SrowNat S st.i).find? (fun j =>
        st.vec.getD j 0 == FGPT && setEmptyB S ga1 st.i j) with
    | none => { st with i := st.i + 1, ga := ga1, cit := cit1, citm := citm1 }
    | some j =>
      if st.cin ≠ 0 then
        let vec1 := st.vec.set st.i CGPT
        if cit1 > -1 then
          let stA := { st with i := st.i + 1, vec := vec1.set cit1.toNat FGPT }
          { stA with ga := ga1, cin := 0, cit := -1, citm := citm1 }
        else
          let stB := { st with i := st.i + 1, vec := vec1, col := st.col + 1 }
          { stB with ga := ga1, cin := 0, cit := cit1, citm := citm1 }
      else
        let stC := { st with vec := st.vec.set j CGPT, col := st.col + 1 }
        { stC with ga := ga1, cin := 1, cit := (j : ℤ), citm := (st.i : ℤ) }
  else
    { st with i := st.i + 1, cit := cit1, citm := citm1 }

/-- The phase-two loop over `i < row`, with explicit fuel (each pass either
advances `i` or promotes a point to COARSE, so `(row+1)²` passes always
suffice; the sufficiency is proved below). -/
def phase2 (S : iCSRmat) (row : ℕ) : ℕ → P2State → P2State
  | 0, st => st
  | fuel+1, st => if st.i < row then phase2 S row fuel (phase2Body S st) else st

/-- `form_coarse_level` from `src/core/src/coarsening_rs.c`: phase one
(coarse-point selection through the list-of-lists) followed by phase two
(interpolatory-neighbour check), returning the final marker vector and
`col`, the number of coarse points. -/
def form_coarse_level (A : dCSRmat) (S : iCSRmat) (vertices : List ℤ)
    (row : ℕ) : List ℤ × ℕ :=
  let st4 := coarsenPhase1 A S vertices row
  let fin := phase2 S row ((row+1)*(row+1))
    ⟨0, st4.vec, List.replicate row (-1), 0, -1, -1, st4.col⟩
  (fin.vec, fin.col)

end Coarsen

namespace Coarsen

/-- Bitwise or with `-1` (all bits set) is `-1`; this is what makes the
source's `ci_tilde_mark |= i` reset fire on every index while
`ci_tilde_mark` is still `-1`. -/
theorem int_lor_neg_one (n : ℕ) : Int.lor (-1) (n : ℤ) = -1 := by
  show Int.lor (Int.negSucc 0) (Int.ofNat n) = Int.negSucc 0
  simp [Int.lor, Nat.ldiff]

theorem phase2_step (S : iCSRmat) (row fuel : ℕ) (st : P2State) (h : st.i < row) :
    phase2 S row (fuel+1) st = phase2 S row fuel (phase2Body S st) := by
  rw [phase2, if_pos h]

theorem phase2_stop (S : iCSRmat) (row fuel : ℕ) (st : P2State) (h : ¬ st.i < row) :
    phase2 S row (fuel+1) st = st := by
  rw [phase2, if_neg h]

/-- The concrete 3×3 matrix for the C5 instance: rows
`[2,-1 | -1,2 | 1,2]`; every row stores two entries, so no vertex is
isolated. -/
def A3 : dCSRmat :=
  { row := 3, col := 3, IA := [0, 2, 4, 6], JA := [0, 1, 0, 1, 1, 2],
    val := [2, -1, -1, 2, 1, 2] }

/-- The concrete strength graph for the C5 instance:
`S_0 = {1}`, `S_1 = {0}`, `S_2 = ∅` (row 2 has only weak couplings). -/
def S3 : iCSRmat := { row := 3, col := 3, nnz := 2, IA := [0, 1, 2, 2], JA := [1, 0] }

/-- The full CF-splitting run on the concrete C5 instance: vertex 0 becomes
COARSE, vertices 1 and 2 become FINE. -/
theorem form_coarse_level_A3 : (form_coarse_level A3 S3 [0, 0, 0] 3).1 = [1, 0, 0] := by
  have h14 : (coarsenPhase1 A3 S3 [0, 0, 0] 3).vec = [1, 0, 0] := by decide
  have h2 : (coarsenPhase1 A3 S3 [0, 0, 0] 3).col = 1 := by decide
  show (phase2 S3 3 16 ⟨0, (coarsenPhase1 A3 S3 [0, 0, 0] 3).vec,
    List.replicate 3 (-1), 0, -1, -1, (coarsenPhase1 A3 S3 [0, 0, 0] 3).col⟩).vec = [1, 0, 0]
  rw [h14, h2, show List.replicate 3 (-1 : ℤ) = [-1, -1, -1] from rfl]
  have e1 : phase2Body S3 ⟨0, [1, 0, 0], [-1, -1, -1], 0, -1, -1, 1⟩ =
      ⟨1, [1, 0, 0], [-1, -1, -1], 0, -1, -1, 1⟩ := by
    simp only [phase2Body]
    rw [int_lor_neg_one]
    decide
  have e2 : phase2Body S3 ⟨1, [1, 0, 0], [-1, -1, -1], 0, -1, -1, 1⟩ =
      ⟨2, [1, 0, 0], [1, -1, -1], 0, -1, -1, 1⟩ := by
    simp only [phase2Body]
    rw [int_lor_neg_one]
    decide
  have e3 : phase2Body S3 ⟨2, [1, 0, 0], [1, -1, -1], 0, -1, -1, 1⟩ =
      ⟨3, [1, 0, 0], [1, -1, -1], 0, -1, -1, 1⟩ := by
    simp only [phase2Body]
    rw [int_lor_neg_one]
    decide
  rw [show (16 : ℕ) = 15 + 1 from rfl, phase2_step S3 3 15 _ (by decide), e1,
    show (15 : ℕ) = 14 + 1 from rfl, phase2_step S3 3 14 _ (by decide), e2,
    show (14 : ℕ) = 13 + 1 from rfl, phase2_step S3 3 13 _ (by decide), e3,
    show (13 : ℕ) = 12 + 1 from rfl, phase2_stop S3 3 12 _ (by decide)]

/-- C5, counterexample.  On `A3`/`S3`, the CF-splitting leaves vertex 2
FINE although it has no COARSE strong neighbour (its strength row is
empty) and it is not marked ISOLATED (its matrix row stores two entries):
the claim "every FINE vertex has a COARSE strong neighbour or is ISOLATED"
fails. -/
theorem C5_cf_splitting_counterexample :
    ¬ (∀ k, k < 3 →
        (form_coarse_level A3 S3 [0, 0, 0] 3).1.getD k 0 = FGPT →
          (∃ j ∈ SrowNat S3 k,
            (form_coarse_level A3 S3 [0, 0, 0] 3).1.getD j 0 = CGPT) ∨
          (form_coarse_level A3 S3 [0, 0, 0] 3).1.getD k 0 = ISPT) := by
  intro h
  have h2 := h 2 (by norm_num)
  rw [form_coarse_level_A3] at h2
  exact absurd h2 (by decide)

end Coarsen

namespace Coarsen

/-- The property the amended C5 claim asserts of a vertex after the
splitting: a FINE vertex either has a COARSE strong neighbour, or none of
its strong neighbours is marked COARSE or FINE. -/
def GoodV (S : iCSRmat) (vec : List ℤ) (k : ℕ) : Prop :=
  vec.getD k 0 = FGPT →
    (∃ j ∈ SrowNat S k, vec.getD j 0 = CGPT) ∨
    (∀ j ∈ SrowNat S k, vec.getD j 0 ≠ CGPT ∧ vec.getD j 0 ≠ FGPT)

/-- Promoting a FINE vertex to COARSE preserves `GoodV` everywhere. -/
theorem GoodV_promote (S : iCSRmat) (vec : List ℤ) (m : ℕ)
    (hm : vec.getD m 0 = FGPT) (k : ℕ) (hk : GoodV S vec k) :
    GoodV S (vec.set m CGPT) k := by
  intro hfg
  by_cases hlen : m < vec.length
  · by_cases hkm : k = m
    · subst hkm
      rw [getD_set_eq vec k CGPT hlen 0] at hfg
      exact absurd hfg (by decide)
    · rw [getD_set_ne vec m k CGPT (fun hc => hkm hc.symm) 0] at hfg
      rcases hk hfg with ⟨j, hj, hcg⟩ | hall
      · left
        refine ⟨j, hj, ?_⟩
        by_cases hjm : j = m
        · subst hjm
          rw [getD_set_eq vec j CGPT hlen 0]
        · rw [getD_set_ne vec m j CGPT (fun hc => hjm hc.symm) 0]
          exact hcg
      · right
        intro j hj
        have hj2 := hall j hj
        have hjm : j ≠ m := by
          intro hc
          subst hc
          exact hj2.2 hm
        rw [getD_set_ne vec m j CGPT (fun hc => hjm hc.symm) 0]
        exact hj2
  · rw [List.set_eq_of_length_le (by omega)] at hfg ⊢
    exact hk hfg

/-- Count of non-COARSE markers, the potential of the phase-two loop. -/
def NC (l : List ℤ) : ℕ := l.countP (fun v => decide (v ≠ CGPT))

theorem NC_set_to_CGPT (l : List ℤ) :
    ∀ j, j < l.length → l.getD j 0 ≠ CGPT → NC (l.set j CGPT) + 1 = NC l := by
  induction l with
  | nil => intro j hj; simp at hj
  | cons x xs ih =>
    intro j hj hne
    cases j with
    | zero =>
      simp only [List.getD_cons_zero] at hne
      simp [NC, List.countP_cons, hne]
    | succ n =>
      simp only [List.getD_cons_succ] at hne
      have := ih n (by simpa using hj) hne
      simp only [NC, List.set_cons_succ, List.countP_cons] at this ⊢
      omega

theorem NC_set_from_CGPT (l : List ℤ) (v : ℤ) (hv : v ≠ CGPT) :
    ∀ j, j < l.length → l.getD j 0 = CGPT → NC (l.set j v) = NC l + 1 := by
  induction l with
  | nil => intro j hj; simp at hj
  | cons x xs ih =>
    intro j hj heq
    cases j with
    | zero =>
      simp only [List.getD_cons_zero] at heq
      simp [NC, List.countP_cons, heq, hv]
    | succ n =>
      simp only [List.getD_cons_succ] at heq
      have := ih n (by simpa using hj) heq
      simp only [NC, List.set_cons_succ, List.countP_cons] at this ⊢
      omega

theorem NC_le_length (l : List ℤ) : NC l ≤ l.length := List.countP_le_length _

/-- The `graph_array` scan of phase two, evaluated at `x`. -/
theorem scan1_getD (vec ga : List ℤ) (i : ℕ) (cols : List ℕ) (x : ℕ)
    (hx : x < ga.length) :
    ((cols.foldl (fun (g : List ℤ) (j : ℕ) =>
        if vec.getD j 0 = CGPT then g.set j (i : ℤ) else g) ga).getD x (-1)) =
      if x ∈ cols ∧ vec.getD x 0 = CGPT then (i : ℤ) else ga.getD x (-1) := by
  induction cols generalizing ga with
  | nil => simp
  | cons c cs ih =>
    simp only [List.foldl_cons]
    by_cases hc : vec.getD c 0 = CGPT
    · rw [if_pos hc, ih (ga.set c (i : ℤ)) (by simpa using hx)]
      by_cases hxc : x = c
      · subst hxc
        have hcons : x ∈ x :: cs ∧ vec.getD x 0 = CGPT := ⟨List.mem_cons_self x cs, hc⟩
        by_cases hmem : x ∈ cs ∧ vec.getD x 0 = CGPT
        · rw [if_pos hmem, if_pos hcons]
        · rw [if_neg hmem, if_pos hcons, getD_set_eq ga x (i : ℤ) hx (-1)]
      · rw [getD_set_ne ga c x (i : ℤ) (fun hcc => hxc hcc.symm) (-1)]
        have hiff : (x ∈ c :: cs ∧ vec.getD x 0 = CGPT) ↔
            (x ∈ cs ∧ vec.getD x 0 = CGPT) := by
          constructor
          · intro ⟨h1, h2⟩
            rcases List.mem_cons.mp h1 with h3 | h3
            · exact absurd h3 hxc
            · exact ⟨h3, h2⟩
          · intro ⟨h1, h2⟩
            exact ⟨List.mem_cons_of_mem c h1, h2⟩
        rw [if_congr hiff.symm rfl rfl]
    · rw [if_neg hc, ih ga hx]
      have hiff : (x ∈ c :: cs ∧ vec.getD x 0 = CGPT) ↔
          (x ∈ cs ∧ vec.getD x 0 = CGPT) := by
        constructor
        · intro ⟨h1, h2⟩
          rcases List.mem_cons.mp h1 with h3 | h3
          · subst h3; exact absurd h2 hc
          · exact ⟨h3, h2⟩
        · intro ⟨h1, h2⟩
          exact ⟨List.mem_cons_of_mem c h1, h2⟩
      rw [if_congr hiff.symm rfl rfl]

theorem scan1_length (vec ga : List ℤ) (i : ℕ) (cols : List ℕ) :
    ((cols.foldl (fun (g : List ℤ) (j : ℕ) =>
        if vec.getD j 0 = CGPT then g.set j (i : ℤ) else g) ga).length) = ga.length := by
  induction cols generalizing ga with
  | nil => rfl
  | cons c cs ih =>
    simp only [List.foldl_cons]
    by_cases hc : vec.getD c 0 = CGPT
    · rw [if_pos hc, ih, List.length_set]
    · rw [if_neg hc, ih]

/-- If `a | n` (with `n` the image of a natural number) is zero, then
`n = 0`. -/
theorem int_lor_nat_eq_zero {a : ℤ} {n : ℕ} (h : Int.lor a (n : ℤ) = 0) : n = 0 := by
  match a with
  | Int.ofNat m =>
    have h1 : Int.lor (Int.ofNat m) (Int.ofNat n) = Int.ofNat (m ||| n) := rfl
    rw [show ((n : ℤ)) = Int.ofNat n from rfl, h1] at h
    have h2 : m ||| n = 0 := by
      have := Int.ofNat.inj h
      simpa using this
    apply Nat.zero_of_testBit_eq_false
    intro i
    have h3 := Nat.testBit_or m n i
    rw [h2] at h3
    simp only [Nat.zero_testBit] at h3
    exact (Bool.or_eq_false_iff.mp h3.symm).2
  | Int.negSucc m =>
    have h1 : Int.lor (Int.negSucc m) (Int.ofNat n) =
        Int.negSucc (Nat.ldiff m n) := rfl
    rw [show ((n : ℤ)) = Int.ofNat n from rfl, h1] at h
    exact absurd h (by simp)

end Coarsen

namespace Coarsen

/-- A fold whose body keeps the marker vector's length keeps it overall. -/
theorem foldl_vec_length_of (l : List ℕ) (f : P1State → ℕ → P1State)
    (h : ∀ t x, (f t x).vec.length = t.vec.length) (s : P1State) :
    (l.foldl f s).vec.length = s.vec.length := by
  induction l generalizing s with
  | nil => rfl
  | cons a as ih => rw [List.foldl_cons, ih, h]

/-- `bumpNeighbors` never touches the marker vector. -/
theorem bumpNeighbors_vec (S : iCSRmat) (j : ℕ) (s : P1State) :
    (bumpNeighbors S j s).vec = s.vec := by
  rw [bumpNeighbors]
  generalize SrowNat S j = l
  induction l generalizing s with
  | nil => rfl
  | cons a as ih =>
    rw [List.foldl_cons, ih]
    split <;> rfl

theorem step3One_vec_length (S : iCSRmat) (st : P1State) (i : ℕ) :
    (step3One S st i).vec.length = st.vec.length := by
  simp only [step3One]
  split
  · split
    · rfl
    · rw [foldl_vec_length_of]
      · simp
      · intro t x
        split
        · split <;> first | rfl | (split <;> rfl)
        · rfl
  · rfl

theorem mainBody_vec_length (S : iCSRmat) (st : P1State) :
    (mainBody S st).vec.length = st.vec.length := by
  rw [mainBody]
  split
  · rfl
  · rw [foldl_vec_length_of]
    · rw [foldl_vec_length_of]
      · simp
      · intro t x
        split
        · rw [bumpNeighbors_vec]
          simp
        · rfl
    · intro t x
      split
      · dsimp only
        split
        · rfl
        · rw [bumpNeighbors_vec]
          simp
      · rfl

theorem phase1Loop_vec_length (S : iCSRmat) (fuel : ℕ) (st : P1State) :
    (phase1Loop S fuel st).vec.length = st.vec.length := by
  induction fuel generalizing st with
  | zero => rfl
  | succ n ih =>
    rw [phase1Loop]
    split
    · rfl
    · split
      · rfl
      · rw [ih, mainBody_vec_length]

theorem coarsenPhase1_vec_length (A : dCSRmat) (S : iCSRmat)
    (vertices : List ℤ) (row : ℕ) :
    (coarsenPhase1 A S vertices row).vec.length = vertices.length := by
  simp only [coarsenPhase1]
  rw [phase1Loop_vec_length, foldl_vec_length_of, foldl_vec_length_of]
  · intro t x
    split <;> simp
  · intro t x
    exact step3One_vec_length S t x

end Coarsen

namespace Coarsen

theorem int_lor_left_eq_zero {a : ℤ} {n : ℕ} (h : Int.lor a (n : ℤ) = 0) : a = 0 := by
  match a with
  | Int.ofNat m =>
    have h1 : Int.lor (Int.ofNat m) (Int.ofNat n) = Int.ofNat (m ||| n) := rfl
    rw [show ((n : ℤ)) = Int.ofNat n from rfl, h1] at h
    have h2 : m ||| n = 0 := by
      have := Int.ofNat.inj h
      simpa using this
    have h3 : m = 0 := by
      apply Nat.zero_of_testBit_eq_false
      intro i
      have h4 := Nat.testBit_or m n i
      rw [h2] at h4
      simp only [Nat.zero_testBit] at h4
      exact (Bool.or_eq_false_iff.mp h4.symm).1
    simp [h3]
  | Int.negSucc m =>
    have h1 : Int.lor (Int.negSucc m) (Int.ofNat n) =
        Int.negSucc (Nat.ldiff m n) := rfl
    rw [show ((n : ℤ)) = Int.ofNat n from rfl, h1] at h
    exact absurd h (by simp)

theorem NC_set_le (l : List ℤ) (j : ℕ) (v : ℤ) : NC (l.set j v) ≤ NC l + 1 := by
  induction l generalizing j with
  | nil => simp [NC]
  | cons x xs ih =>
    cases j with
    | zero =>
      simp only [List.set_cons_zero, NC, List.countP_cons]
      have := NC_le_length xs
      rw [NC] at this
      split <;> split <;> omega
    | succ n =>
      have := ih n
      simp only [NC, List.set_cons_succ, List.countP_cons] at this ⊢
      omega

end Coarsen

namespace Coarsen

/-- The `graph_array` marking scan at the start of a phase-two pass. -/
def scan1 (S : iCSRmat) (vec ga : List ℤ) (i : ℕ) : List ℤ :=
  (SrowNat S i).foldl (fun (g : List ℤ) (j : ℕ) =>
    if vec.getD j 0 = CGPT then g.set j (i : ℤ) else g) ga

/-- The phase-two search for a FINE strong neighbour with no marked common
coarse neighbour. -/
def findJ (S : iCSRmat) (st : P2State) : Option ℕ :=
  (SrowNat S st.i).find? (fun j =>
    st.vec.getD j 0 == FGPT && setEmptyB S (scan1 S st.vec st.ga st.i) st.i j)

theorem phase2Body_eq_notF (S : iCSRmat) (st : P2State)
    (h : st.vec.getD st.i 0 ≠ FGPT) :
    phase2Body S st = ⟨st.i + 1, st.vec, st.ga, st.cin,
      (if Int.lor st.citm (st.i : ℤ) ≠ 0 then (-1 : ℤ) else st.cit),
      Int.lor st.citm (st.i : ℤ), st.col⟩ := by
  simp only [phase2Body]
  rw [if_neg h]

theorem phase2Body_eq_none (S : iCSRmat) (st : P2State)
    (h : st.vec.getD st.i 0 = FGPT)
    (hfind : findJ S st = none) :
    phase2Body S st = ⟨st.i + 1, st.vec, scan1 S st.vec st.ga st.i, st.cin,
      (if Int.lor st.citm (st.i : ℤ) ≠ 0 then (-1 : ℤ) else st.cit),
      Int.lor st.citm (st.i : ℤ), st.col⟩ := by
  simp only [phase2Body]
  rw [if_pos h]
  rw [findJ, scan1] at hfind
  rw [hfind]
  rfl

theorem phase2Body_eq_someC (S : iCSRmat) (st : P2State) (j : ℕ)
    (h : st.vec.getD st.i 0 = FGPT)
    (hfind : findJ S st = some j) (hcin : st.cin = 0) :
    phase2Body S st = ⟨st.i, st.vec.set j CGPT, scan1 S st.vec st.ga st.i,
      1, (j : ℤ), (st.i : ℤ), st.col + 1⟩ := by
  simp only [phase2Body]
  rw [if_pos h]
  rw [findJ, scan1] at hfind
  rw [hfind]
  try dsimp only
  rw [if_neg (by simp [hcin])]
  rfl

theorem phase2Body_eq_someD (S : iCSRmat) (st : P2State) (j : ℕ)
    (h : st.vec.getD st.i 0 = FGPT)
    (hfind : findJ S st = some j) (hcin : st.cin ≠ 0)
    (hcit : ¬ ((if Int.lor st.citm (st.i : ℤ) ≠ 0 then (-1 : ℤ) else st.cit) > -1)) :
    phase2Body S st = ⟨st.i + 1, st.vec.set st.i CGPT,
      scan1 S st.vec st.ga st.i, 0,
      (if Int.lor st.citm (st.i : ℤ) ≠ 0 then (-1 : ℤ) else st.cit),
      Int.lor st.citm (st.i : ℤ), st.col + 1⟩ := by
  simp only [phase2Body]
  rw [if_pos h]
  rw [findJ, scan1] at hfind
  rw [hfind]
  simp only []
  rw [if_pos hcin, if_neg hcit]
  rfl

theorem phase2Body_eq_someE (S : iCSRmat) (st : P2State) (j : ℕ)
    (h : st.vec.getD st.i 0 = FGPT)
    (hfind : findJ S st = some j) (hcin : st.cin ≠ 0)
    (hcit : (if Int.lor st.citm (st.i : ℤ) ≠ 0 then (-1 : ℤ) else st.cit) > -1) :
    phase2Body S st = ⟨st.i + 1,
      (st.vec.set st.i CGPT).set
        (if Int.lor st.citm (st.i : ℤ) ≠ 0 then (-1 : ℤ) else st.cit).toNat FGPT,
      scan1 S st.vec st.ga st.i, 0, -1,
      Int.lor st.citm (st.i : ℤ), st.col⟩ := by
  simp only [phase2Body]
  rw [if_pos h]
  rw [findJ, scan1] at hfind
  rw [hfind]
  simp only []
  rw [if_pos hcin, if_pos hcit]
  rfl

end Coarsen

namespace Coarsen

theorem scan1_getD_eq (S : iCSRmat) (vec ga : List ℤ) (i x : ℕ)
    (hx : x < ga.length) :
    (scan1 S vec ga i).getD x (-1) =
      if x ∈ SrowNat S i ∧ vec.getD x 0 = CGPT then (i : ℤ)
      else ga.getD x (-1) :=
  scan1_getD vec ga i (SrowNat S i) x hx

theorem scan1_len (S : iCSRmat) (vec ga : List ℤ) (i : ℕ) :
    (scan1 S vec ga i).length = ga.length :=
  scan1_length vec ga i (SrowNat S i)

theorem scan1_bound (S : iCSRmat) (vec ga : List ℤ) (i : ℕ)
    (hga : ∀ x : ℕ, ga.getD x (-1) ≤ (i : ℤ)) (x : ℕ) :
    (scan1 S vec ga i).getD x (-1) ≤ (i : ℤ) := by
  by_cases hx : x < ga.length
  · rw [scan1_getD_eq S vec ga i x hx]
    split
    · exact le_refl _
    · exact hga x
  · rw [List.getD_eq_default]
    · omega
    · rw [scan1_len]
      omega

theorem cit1_sound (S : iCSRmat) (citm cit : ℤ) (i : ℕ)
    (hcs : 0 ≤ cit → ∃ k : ℕ, citm = (k : ℤ) ∧ cit.toNat ∈ SrowNat S k)
    (h0 : 0 ≤ (if Int.lor citm (i : ℤ) ≠ 0 then (-1 : ℤ) else cit)) :
    ∃ k : ℕ, Int.lor citm (i : ℤ) = (k : ℤ) ∧
      (if Int.lor citm (i : ℤ) ≠ 0 then (-1 : ℤ) else cit).toNat ∈ SrowNat S k := by
  by_cases hl : Int.lor citm (i : ℤ) = 0
  · rw [if_neg (not_ne_iff.mpr hl)] at h0 ⊢
    obtain ⟨k, hk1, hk2⟩ := hcs h0
    have hcm := int_lor_left_eq_zero hl
    have hk0 : k = 0 := by
      have : (k : ℤ) = 0 := by rw [← hk1, hcm]
      exact_mod_cast this
    refine ⟨0, by rw [hl]; rfl, ?_⟩
    rw [← hk0]
    exact hk2
  · rw [if_pos hl] at h0
    exact absurd h0 (by norm_num)

/-- The loop invariant of phase two. -/
structure P2Inv (S : iCSRmat) (row : ℕ) (st : P2State) : Prop where
  hvlen : st.vec.length = row
  hgalen : st.ga.length = row
  prefixGood : ∀ k, k < st.i → k < row → GoodV S st.vec k
  gaBound : ∀ x : ℕ, st.ga.getD x (-1) ≤ (st.i : ℤ)
  gaSound : ∀ x : ℕ, st.ga.getD x (-1) = (st.i : ℤ) →
    x ∈ SrowNat S st.i ∧ st.vec.getD x 0 = CGPT
  citSound : 0 ≤ st.cit →
    ∃ k : ℕ, st.citm = (k : ℤ) ∧ st.cit.toNat ∈ SrowNat S k

/-- The phase-two termination measure: each pass of the body either advances
`i` or promotes a point to COARSE. -/
def p2measure (row : ℕ) (st : P2State) : ℕ :=
  (row - st.i) + (row + 1) * NC st.vec

end Coarsen


namespace Coarsen

/-- One pass of the phase-two body preserves the invariant and strictly
decreases the measure. -/
theorem phase2Body_inv (S : iCSRmat) (row : ℕ)
    (hirr : ∀ k, k < row → k ∉ SrowNat S k)
    (Hcols : ∀ k, k < row → ∀ j ∈ SrowNat S k, j < row)
    (st : P2State) (hlt : st.i < row) (inv : P2Inv S row st) :
    P2Inv S row (phase2Body S st) ∧
      p2measure row (phase2Body S st) < p2measure row st := by
  by_cases hF : st.vec.getD st.i 0 = FGPT
  · rcases hfind : findJ S st with _ | j
    · -- no eligible FINE neighbour: the point keeps its marker, `i` advances
      rw [phase2Body_eq_none S st hF hfind]
      have hbound := scan1_bound S st.vec st.ga st.i inv.gaBound
      refine ⟨⟨inv.hvlen, ?_, ?_, ?_, ?_, ?_⟩, ?_⟩
      · dsimp only
        rw [scan1_len]
        exact inv.hgalen
      · -- prefixGood, including the new index st.i
        try dsimp only
        intro k hk hkr
        rcases Nat.lt_succ_iff_lt_or_eq.mp hk with hk' | hk'
        · exact inv.prefixGood k hk' hkr
        · subst hk'
          intro hfg
          by_cases hex : ∃ j ∈ SrowNat S st.i, st.vec.getD j 0 = CGPT
          · exact Or.inl hex
          · right
            intro j hj
            refine ⟨fun hc => hex ⟨j, hj, hc⟩, fun hFj => ?_⟩
            rw [findJ] at hfind
            have hnp := List.find?_eq_none.mp hfind j hj
            have hse : setEmptyB S (scan1 S st.vec st.ga st.i) st.i j = false := by
              rcases Bool.eq_false_or_eq_true
                  (setEmptyB S (scan1 S st.vec st.ga st.i) st.i j) with h | h
              · exact absurd (by rw [h, hFj]; simp) hnp
              · exact h
            rw [setEmptyB] at hse
            obtain ⟨index, hidx, hga0⟩ := List.all_eq_false.mp hse
            have hga : (scan1 S st.vec st.ga st.i).getD index (-1) =
                (st.i : ℤ) := by
              simp only [Bool.not_eq_true, Bool.not_eq_false,
                Bool.not_eq_true', beq_iff_eq] at hga0
              exact hga0
            by_cases hxr : index < row
            · rw [scan1_getD_eq S st.vec st.ga st.i index
                  (by rw [inv.hgalen]; exact hxr)] at hga
              by_cases hin : index ∈ SrowNat S st.i ∧ st.vec.getD index 0 = CGPT
              · exact hex ⟨index, hin.1, hin.2⟩
              · rw [if_neg hin] at hga
                have := inv.gaSound index hga
                exact hex ⟨index, this.1, this.2⟩
            · rw [List.getD_eq_default _ _
                  (by rw [scan1_len, inv.hgalen]; omega)] at hga
              omega
      · -- gaBound
        try dsimp only
        intro x
        have := hbound x
        omega
      · -- gaSound: impossible, the bound is strict after the advance
        try dsimp only
        intro x hx
        have := hbound x
        rw [hx] at this
        omega
      · -- citSound
        try dsimp only
        exact cit1_sound S st.citm st.cit st.i inv.citSound
      · -- measure
        simp only [p2measure]
        try dsimp only
        omega
    · -- an eligible FINE neighbour j exists
      rw [findJ] at hfind
      have hjmem := List.mem_of_find?_eq_some hfind
      have hjF : st.vec.getD j 0 = FGPT := by
        have := List.find?_some hfind
        simp only [Bool.and_eq_true, beq_iff_eq] at this
        exact this.1
      have hjrow : j < row := Hcols st.i hlt j hjmem
      have hfind' : findJ S st = some j := by rw [findJ]; exact hfind
      by_cases hcin : st.cin = 0
      · -- first eligible neighbour of this i: promote j, retry the same i
        rw [phase2Body_eq_someC S st j hF hfind' hcin]
        have hbound := scan1_bound S st.vec st.ga st.i inv.gaBound
        refine ⟨⟨?_, ?_, ?_, ?_, ?_, ?_⟩, ?_⟩
        · dsimp only
          rw [List.length_set]
          exact inv.hvlen
        · dsimp only
          rw [scan1_len]
          exact inv.hgalen
        · dsimp only
          intro k hk hkr
          exact GoodV_promote S st.vec j hjF k (inv.prefixGood k hk hkr)
        · dsimp only
          exact hbound
        · dsimp only
          intro x hx
          have hkeep : ∀ y : ℕ, y ∈ SrowNat S st.i → st.vec.getD y 0 = CGPT →
              y ∈ SrowNat S st.i ∧ (st.vec.set j CGPT).getD y 0 = CGPT := by
            intro y hy hcy
            refine ⟨hy, ?_⟩
            by_cases hyj : y = j
            · subst hyj
              rw [getD_set_eq st.vec y CGPT (by rw [inv.hvlen]; exact hjrow) 0]
            · rw [getD_set_ne st.vec j y CGPT (fun hc => hyj hc.symm) 0]
              exact hcy
          by_cases hxr : x < row
          · rw [scan1_getD_eq S st.vec st.ga st.i x
                (by rw [inv.hgalen]; exact hxr)] at hx
            by_cases hin : x ∈ SrowNat S st.i ∧ st.vec.getD x 0 = CGPT
            · exact hkeep x hin.1 hin.2
            · rw [if_neg hin] at hx
              have := inv.gaSound x hx
              exact hkeep x this.1 this.2
          · rw [List.getD_eq_default _ _
                (by rw [scan1_len, inv.hgalen]; omega)] at hx
            omega
        · dsimp only
          intro _
          refine ⟨st.i, rfl, ?_⟩
          simpa using hjmem
        · -- measure: j is promoted from FINE to COARSE
          have hNC := NC_set_to_CGPT st.vec j (by rw [inv.hvlen]; exact hjrow)
            (by rw [hjF]; decide)
          have hmul : (row + 1) * NC st.vec =
              (row + 1) * NC (st.vec.set j CGPT) + (row + 1) := by
            rw [← hNC]
            ring
          simp only [p2measure]
          try dsimp only
          omega
      · have hcin' : st.cin ≠ 0 := hcin
        by_cases hcit : (if Int.lor st.citm (st.i : ℤ) ≠ 0 then (-1 : ℤ)
            else st.cit) > -1
        · -- promote i, undo the tentative promotion of ci_tilde
          rw [phase2Body_eq_someE S st j hF hfind' hcin' hcit]
          have hl : Int.lor st.citm (st.i : ℤ) = 0 := by
            by_contra hl
            rw [if_pos hl] at hcit
            omega
          have hi0 : st.i = 0 := int_lor_nat_eq_zero hl
          have hcm0 : st.citm = 0 := int_lor_left_eq_zero hl
          rw [if_neg (not_ne_iff.mpr hl)] at hcit ⊢
          have hcit0 : 0 ≤ st.cit := by omega
          obtain ⟨k, hk1, hk2⟩ := inv.citSound hcit0
          have hk0 : k = 0 := by
            have h5 : (k : ℤ) = 0 := by rw [← hk1, hcm0]
            exact_mod_cast h5
          subst hk0
          have hm0 : st.cit.toNat ≠ 0 := by
            intro hc
            rw [hc] at hk2
            exact hirr 0 (by omega) hk2
          have hbound := scan1_bound S st.vec st.ga st.i inv.gaBound
          refine ⟨⟨?_, ?_, ?_, ?_, ?_, ?_⟩, ?_⟩
          · dsimp only
            rw [List.length_set, List.length_set]
            exact inv.hvlen
          · dsimp only
            rw [scan1_len]
            exact inv.hgalen
          · dsimp only
            intro k hk hkr
            have hki : k = st.i := by omega
            subst hki
            intro hfg
            rw [getD_set_ne _ _ _ _ (fun hc => hm0 (hc.trans hi0)) 0,
              getD_set_eq st.vec st.i CGPT (by rw [inv.hvlen]; exact hlt) 0]
              at hfg
            exact absurd hfg (by decide)
          · dsimp only
            intro x
            have := hbound x
            omega
          · dsimp only
            intro x hx
            have := hbound x
            rw [hx] at this
            omega
          · dsimp only
            intro h0
            exact absurd h0 (by norm_num)
          · have hNC := NC_set_to_CGPT st.vec st.i
              (by rw [inv.hvlen]; exact hlt) (by rw [hF]; decide)
            have hNC2 := NC_set_le (st.vec.set st.i CGPT) st.cit.toNat FGPT
            have hmul : (row + 1) * NC ((st.vec.set st.i CGPT).set
                st.cit.toNat FGPT) ≤ (row + 1) * NC st.vec :=
              Nat.mul_le_mul_left _ (by omega)
            simp only [p2measure]
            try dsimp only
            omega
        · -- promote i, keep the earlier promotion
          rw [phase2Body_eq_someD S st j hF hfind' hcin' hcit]
          have hbound := scan1_bound S st.vec st.ga st.i inv.gaBound
          refine ⟨⟨?_, ?_, ?_, ?_, ?_, ?_⟩, ?_⟩
          · dsimp only
            rw [List.length_set]
            exact inv.hvlen
          · dsimp only
            rw [scan1_len]
            exact inv.hgalen
          · dsimp only
            intro k hk hkr
            rcases Nat.lt_succ_iff_lt_or_eq.mp hk with hk' | hk'
            · exact GoodV_promote S st.vec st.i hF k (inv.prefixGood k hk' hkr)
            · subst hk'
              intro hfg
              rw [getD_set_eq st.vec st.i CGPT (by rw [inv.hvlen]; exact hkr) 0]
                at hfg
              exact absurd hfg (by decide)
          · dsimp only
            intro x
            have := hbound x
            omega
          · dsimp only
            intro x hx
            have := hbound x
            rw [hx] at this
            omega
          · dsimp only
            exact cit1_sound S st.citm st.cit st.i inv.citSound
          · have hNC := NC_set_to_CGPT st.vec st.i
              (by rw [inv.hvlen]; exact hlt) (by rw [hF]; decide)
            have hmul : (row + 1) * NC st.vec =
                (row + 1) * NC (st.vec.set st.i CGPT) + (row + 1) := by
              rw [← hNC]
              ring
            simp only [p2measure]
            try dsimp only
            omega
  · -- not a FINE point: the pass only advances i
    rw [phase2Body_eq_notF S st hF]
    refine ⟨⟨inv.hvlen, inv.hgalen, ?_, ?_, ?_, ?_⟩, ?_⟩
    · dsimp only
      intro k hk hkr
      rcases Nat.lt_succ_iff_lt_or_eq.mp hk with hk' | hk'
      · exact inv.prefixGood k hk' hkr
      · subst hk'
        intro hfg
        exact absurd hfg hF
    · dsimp only
      intro x
      have := inv.gaBound x
      omega
    · dsimp only
      intro x hx
      have := inv.gaBound x
      rw [hx] at this
      omega
    · dsimp only
      exact cit1_sound S st.citm st.cit st.i inv.citSound
    · simp only [p2measure]
      try dsimp only
      omega

end Coarsen

namespace Coarsen

theorem replicate_getD_self (n x : ℕ) (a : ℤ) :
    (List.replicate n a).getD x a = a := by
  rcases lt_or_ge x n with h | h
  · rw [List.getD_eq_getElem?_getD]
    simp [List.getElem?_replicate, h]
  · rw [List.getD_eq_default]
    simp only [List.length_replicate]
    omega

theorem phase2_inv (S : iCSRmat) (row : ℕ)
    (hirr : ∀ k, k < row → k ∉ SrowNat S k)
    (Hcols : ∀ k, k < row → ∀ j ∈ SrowNat S k, j < row) :
    ∀ (fuel : ℕ) (st : P2State), P2Inv S row st → p2measure row st < fuel →
      P2Inv S row (phase2 S row fuel st) ∧
        ¬ (phase2 S row fuel st).i < row := by
  intro fuel
  induction fuel with
  | zero =>
    intro st hinv hm
    omega
  | succ n ih =>
    intro st hinv hm
    by_cases hlt : st.i < row
    · rw [phase2_step S row n st hlt]
      obtain ⟨hinv2, hm2⟩ := phase2Body_inv S row hirr Hcols st hlt hinv
      exact ih _ hinv2 (by omega)
    · rw [phase2_stop S row n st hlt]
      exact ⟨hinv, hlt⟩

theorem phase2_final (S : iCSRmat) (row : ℕ) (v : List ℤ) (col0 : ℕ)
    (hirr : ∀ k, k < row → k ∉ SrowNat S k)
    (Hcols : ∀ k, k < row → ∀ j ∈ SrowNat S k, j < row)
    (hv : v.length = row) :
    ∀ k, k < row →
      GoodV S (phase2 S row ((row+1)*(row+1))
        ⟨0, v, List.replicate row (-1), 0, -1, -1, col0⟩).vec k := by
  have hinv0 : P2Inv S row ⟨0, v, List.replicate row (-1), 0, -1, -1, col0⟩ := by
    refine ⟨hv, List.length_replicate row (-1), ?_, ?_, ?_, ?_⟩
    · intro k hk hkr
      exact absurd hk (Nat.not_lt_zero k)
    · intro x
      rw [replicate_getD_self]
      omega
    · intro x hx
      rw [replicate_getD_self] at hx
      omega
    · intro h0
      exact absurd h0 (by norm_num)
  have hm0 : p2measure row ⟨0, v, List.replicate row (-1), 0, -1, -1, col0⟩ <
      (row+1)*(row+1) := by
    have h1 : (row + 1) * NC v ≤ (row + 1) * row :=
      Nat.mul_le_mul_left _ (hv ▸ NC_le_length v)
    have h2 : (row + 1) * (row + 1) = (row + 1) * row + (row + 1) := by ring
    simp only [p2measure]
    omega
  obtain ⟨invF, hstop⟩ := phase2_inv S row hirr Hcols ((row+1)*(row+1)) _
    hinv0 hm0
  intro k hk
  exact invF.prefixGood k (by omega) hk

end Coarsen

namespace Coarsen

/-- C5 (amended).  After `form_coarse_level`, every FINE vertex `k`
either has a COARSE strong neighbour, or every one of its strong
neighbours is neither COARSE nor FINE (so the second pass found no FINE
strong neighbour needing a common coarse point); the claim's alternative
"or the vertex is ISOLATED" does not hold (see the counterexample).  The
hypotheses say that the strength graph has no self-loops and stays inside
the `row` vertices, and that the marker vector has `row` entries. -/
theorem C5_cf_splitting_fine_neighbors (A : dCSRmat) (S : iCSRmat)
    (vertices : List ℤ) (row : ℕ)
    (hvl : vertices.length = row)
    (hirr : ∀ k, k < row → k ∉ SrowNat S k)
    (Hcols : ∀ k, k < row → ∀ j ∈ SrowNat S k, j < row) :
    ∀ k, k < row → GoodV S (form_coarse_level A S vertices row).1 k := by
  intro k hk
  have hv : (coarsenPhase1 A S vertices row).vec.length = row := by
    rw [coarsenPhase1_vec_length, hvl]
  have hfin := phase2_final S row (coarsenPhase1 A S vertices row).vec
    (coarsenPhase1 A S vertices row).col hirr Hcols hv k hk
  simp only [form_coarse_level]
  exact hfin

/-- Witness for `C5_cf_splitting_fine_neighbors`: the hypotheses hold on
the concrete instance `A3`/`S3` and the conclusion follows by applying the
theorem there. -/
theorem C5_cf_splitting_fine_neighbors_witness :
    (([0, 0, 0] : List ℤ).length = 3 ∧
      (∀ k, k < 3 → k ∉ SrowNat S3 k) ∧
      (∀ k, k < 3 → ∀ j ∈ SrowNat S3 k, j < 3)) ∧
    (∀ k, k < 3 → GoodV S3 (form_coarse_level A3 S3 [0, 0, 0] 3).1 k) :=
  ⟨⟨by decide, by decide, by decide⟩,
    C5_cf_splitting_fine_neighbors A3 S3 [0, 0, 0] 3
      (by decide) (by decide) (by decide)⟩

end Coarsen

/-! ## Safe-net BiCGStab (`src/base/src/spbcgs.c`, `fasp_solver_dcsr_spbcgs`),
claims C1, C3, C4.

The solver is modelled over `ℝ` (it computes square roots).  Vectors are
length-`m` lists of reals; every array primitive rebuilds its result as a
`List.range m` map, mirroring the C loops over `0 ≤ i < m`. -/

namespace SPBCGS

open Fasp

/-- CSR matrix over `ℝ` (`dCSRmat` with `REAL` values), as used by the
`dcsr` solver variant. -/
structure dCSRmat where
  row : ℕ
  col : ℕ
  nnz : ℕ
  IA : List ℕ
  JA : List ℕ
  val : List ℝ

/-- Modelled from the `_omp` twin in `src/core/src/blas_array_omp.c` and the
spec (§4.2): copy the first `m` entries. -/
noncomputable def fasp_array_cp (m : ℕ) (x : List ℝ) : List ℝ :=
  (List.range m).map (fun i => x.getD i 0)

/-- Modelled from `fasp_blas_array_axpy_omp` (`y[i] += a*x[i]`). -/
noncomputable def fasp_blas_array_axpy (m : ℕ) (a : ℝ) (x y : List ℝ) :
    List ℝ :=
  (List.range m).map (fun i => y.getD i 0 + a * x.getD i 0)

/-- Modelled from `fasp_blas_array_axpby_omp` (`y[i] = a*x[i] + b*y[i]`). -/
noncomputable def fasp_blas_array_axpby (m : ℕ) (a : ℝ) (x : List ℝ)
    (c : ℝ) (y : List ℝ) : List ℝ :=
  (List.range m).map (fun i => a * x.getD i 0 + c * y.getD i 0)

/-- Modelled from `fasp_blas_array_dotprod_omp` and spec §4.2. -/
noncomputable def fasp_blas_array_dotprod (m : ℕ) (x y : List ℝ) : ℝ :=
  (List.range m).foldl (fun acc i => acc + x.getD i 0 * y.getD i 0) 0

/-- Modelled from spec §4.2: Euclidean norm of the first `m` entries. -/
noncomputable def fasp_blas_array_norm2 (m : ℕ) (x : List ℝ) : ℝ :=
  Real.sqrt (fasp_blas_array_dotprod m x x)

/-- Modelled from spec §4.2: max-norm of the first `m` entries. -/
noncomputable def fasp_blas_array_norminf (m : ℕ) (x : List ℝ) : ℝ :=
  (List.range m).foldl (fun acc i => max acc |x.getD i 0|) 0

/-- Positions of CSR row `i` (`ia[i] … ia[i+1]-1`). -/
def rowPosR (A : dCSRmat) (i : ℕ) : List ℕ :=
  List.range' (A.IA.getD i 0) (A.IA.getD (i+1) 0 - A.IA.getD i 0)

/-- `Σ_p val[p]·x[JA[p]]` over row `i`. -/
noncomputable def rowDot (A : dCSRmat) (i : ℕ) (x : List ℝ) : ℝ :=
  (rowPosR A i).foldl
    (fun acc p => acc + A.val.getD p 0 * x.getD (A.JA.getD p 0) 0) 0

/-- Modelled from the spec (§4.3): CSR matrix-vector product `y = A·x`.
The defining file is not among the provided sources. -/
noncomputable def fasp_blas_dcsr_mxv (A : dCSRmat) (x : List ℝ) : List ℝ :=
  (List.range A.row).map (fun i => rowDot A i x)

/-- Modelled from the spec (§4.3): `y += a·A·x`. -/
noncomputable def fasp_blas_dcsr_aAxpy (a : ℝ) (A : dCSRmat) (x y : List ℝ) :
    List ℝ :=
  (List.range A.row).map (fun i => y.getD i 0 + a * rowDot A i x)

/-- Modelled from the spec: NaN detection on a dense vector; over exact
real arithmetic no entry is ever NaN, so the check is constantly false. -/
def fasp_dvec_isnan (_v : List ℝ) : Bool := false

/-- Apply the preconditioner (`pc->fct`), or copy when `pc == NULL`. -/
noncomputable def precondApply (pc : Option (List ℝ → List ℝ)) (m : ℕ)
    (x : List ℝ) : List ℝ :=
  match pc with
  | some f => f x
  | none => fasp_array_cp m x

/-- The three stopping criteria accepted by the solver (`stop_type`). -/
inductive StopType where
  | REL_RES
  | REL_PRECRES
  | MOD_REL_RES
deriving DecidableEq

/-- Modelled from the spec (§7): solver error codes are negative values
(non-negative returns are iteration counts); the header with the numeric
values is not among the provided sources, so representative distinct
negative integers are used. -/
def ERROR_SOLVER_SOLSTAG : ℤ := -11

/-- Spec §7: residual stagnation error code. -/
def ERROR_SOLVER_STAG : ℤ := -12

/-- Spec §7: unreachable-tolerance error code. -/
def ERROR_SOLVER_TOLSMALL : ℤ := -13

/-- Spec §7: iteration-cap error code. -/
def ERROR_SOLVER_MAXIT : ℤ := -19

/-- The mutable state of `fasp_solver_dcsr_spbcgs` (local variables and
work arrays). -/
structure BState where
  u : List ℝ
  r : List ℝ
  p : List ℝ
  z : List ℝ
  t : List ℝ
  rho : List ℝ
  pp : List ℝ
  s : List ℝ
  sp : List ℝ
  u_best : List ℝ
  temp1 : ℝ
  tempr : ℝ
  absres : ℝ
  absres0 : ℝ
  absres_best : ℝ
  relres : ℝ
  normr0 : ℝ
  normu : ℝ
  normd : ℝ
  reldiff : ℝ
  iter : ℤ
  iter_best : ℤ
  stag : ℕ
  more_step : ℕ
  restart_step : ℕ

/-- How the solver left the main loop (which `break`/`goto` fired). -/
inductive ExitKind where
  | conv2
  | conv3
  | natural
  | initialConv
  | badStop
  | smallsp
  | alphaZero
  | betaZero
  | nanRestore
  | solstag
  | stagError
  | tolsmall
deriving DecidableEq

/-- Outcome of one pass of the main loop body. -/
inductive IterOut where
  | cont (st : BState)
  | toRestore (tag : ExitKind) (st : BState)
  | toFinished (tag : ExitKind) (st : BState)

/-- `r = b − A·u`, exactly as the source computes it
(`fasp_array_cp(m,bval,r); fasp_blas_dcsr_aAxpy(-1.0,A,uval,r)`). -/
noncomputable def residual (A : dCSRmat) (m : ℕ) (b u : List ℝ) : List ℝ :=
  fasp_blas_dcsr_aAxpy (-1) A u (fasp_array_cp m b)

/-- The `// compute residuals` switch (lines 246–263 and 315–333):
returns the new `absres`, `relres` and `z` (overwritten under
`STOP_REL_PRECRES`). -/
noncomputable def stopResZ (stop : StopType) (pc : Option (List ℝ → List ℝ))
    (m : ℕ) (normr0 normu : ℝ) (r z : List ℝ) : ℝ × ℝ × List ℝ :=
  match stop with
  | .REL_RES =>
    let a := fasp_blas_array_norm2 m r
    (a, a / normr0, z)
  | .REL_PRECRES =>
    let z1 := precondApply pc m r
    let a := Real.sqrt |fasp_blas_array_dotprod m r z1|
    (a, a / normr0, z1)
  | .MOD_REL_RES =>
    let a := fasp_blas_array_norm2 m r
    (a, a / normu, z)

/-- The residual switch of Check III (lines 370–388).  It differs from
`stopResZ` in exactly one place: under `STOP_REL_PRECRES` the relative
residual is `tempr/normr0`, with `tempr` still holding `⟨t,t⟩` from the
preceding part of the iteration (`relres = tempr/normr0`, line 382),
not recomputed from the fresh residual. -/
noncomputable def stopResZ3 (stop : StopType) (pc : Option (List ℝ → List ℝ))
    (m : ℕ) (normr0 normu tempr : ℝ) (r z : List ℝ) : ℝ × ℝ × List ℝ :=
  match stop with
  | .REL_RES =>
    let a := fasp_blas_array_norm2 m r
    (a, a / normr0, z)
  | .REL_PRECRES =>
    let z1 := precondApply pc m r
    let a := Real.sqrt |fasp_blas_array_dotprod m r z1|
    (a, tempr / normr0, z1)
  | .MOD_REL_RES =>
    let a := fasp_blas_array_norm2 m r
    (a, a / normu, z)

end SPBCGS

namespace SPBCGS

open Fasp

/-- Shared re-initialisation of `r`, `p`, `pp`, `rho`, `temp1` in the
restart branches (lines 300–313 and 355–368). -/
noncomputable def reinit (A : dCSRmat) (pc : Option (List ℝ → List ℝ))
    (m : ℕ) (b u : List ℝ) : List ℝ × List ℝ × List ℝ × List ℝ × ℝ :=
  let r := residual A m b u
  let p := fasp_array_cp m r
  let pp := precondApply pc m p
  let rho := fasp_array_cp m r
  (r, p, pp, rho, fasp_blas_array_dotprod m r rho)

/-- Check II (lines 292–349): on stagnation (`stag ≤ MaxStag` and
`reldiff < maxdiff`), recompute the true residual and either `break`
(convergence), fail with `ERROR_SOLVER_STAG`, or restart. -/
noncomputable def checkII (A : dCSRmat) (pc : Option (List ℝ → List ℝ))
    (stop : StopType) (m : ℕ) (tol maxdiff : ℝ) (b : List ℝ)
    (st : BState) : IterOut :=
  if st.stag ≤ MAX_STAG ∧ st.reldiff < maxdiff then
    let ri := reinit A pc m b st.u
    let arz := stopResZ stop pc m st.normr0 st.normu ri.1 st.z
    let st1 := { st with r := ri.1, p := ri.2.1, pp := ri.2.2.1 }
    let st2 := { st1 with rho := ri.2.2.2.1, temp1 := ri.2.2.2.2 }
    let st3 := { st2 with absres := arz.1, relres := arz.2.1, z := arz.2.2 }
    if arz.2.1 < tol then .toRestore .conv2 st3
    else if MAX_STAG ≤ st.stag then
      .toFinished .stagError { st3 with iter := ERROR_SOLVER_STAG }
    else .cont { st3 with stag := st3.stag + 1, restart_step := st3.restart_step + 1 }
  else .cont st

/-- Check III, "prevent false convergence" (lines 351–406): when
`relres < tol`, recompute the true residual; under `STOP_REL_PRECRES` the
new `relres` is the stale `tempr/normr0` (`stopResZ3`); then `break`
on convergence, fail with `ERROR_SOLVER_TOLSMALL` when the restart budget
is spent, or restart. -/
noncomputable def checkIII (A : dCSRmat) (pc : Option (List ℝ → List ℝ))
    (stop : StopType) (m : ℕ) (tol : ℝ) (b : List ℝ)
    (st : BState) : IterOut :=
  if st.relres < tol then
    let ri := reinit A pc m b st.u
    let arz := stopResZ3 stop pc m st.normr0 st.normu st.tempr ri.1 st.z
    let st1 := { st with r := ri.1, p := ri.2.1, pp := ri.2.2.1 }
    let st2 := { st1 with rho := ri.2.2.2.1, temp1 := ri.2.2.2.2 }
    let st3 := { st2 with absres := arz.1, relres := arz.2.1, z := arz.2.2 }
    if arz.2.1 < tol then .toRestore .conv3 st3
    else if MAX_RESTART ≤ st.more_step then
      .toFinished .tolsmall { st3 with iter := ERROR_SOLVER_TOLSMALL }
    else .cont { st3 with more_step := st3.more_step + 1, restart_step := st3.restart_step + 1 }
  else .cont st

/-- Lines 167–239 of the loop body: the BiCGStab vector updates through
the `beta` guard (`alpha` divzero goes to `FINISHED`, `beta` divzero goes
to `RESTORE_BESTSOL`). -/
noncomputable def iterStep1 (A : dCSRmat) (pc : Option (List ℝ → List ℝ))
    (m : ℕ) (st : BState) : IterOut :=
  let pp := precondApply pc m st.p
  let z := fasp_blas_dcsr_mxv A pp
  let temp2 := fasp_blas_array_dotprod m z st.rho
  if |temp2| > SMALLREAL then
    let alpha := st.temp1 / temp2
    let s := fasp_blas_array_axpy m (-alpha) z (fasp_array_cp m st.r)
    let sp := precondApply pc m s
    let t := fasp_blas_dcsr_mxv A sp
    let tempr := fasp_blas_array_dotprod m t t
    let omega := if |tempr| > SMALLREAL then fasp_blas_array_dotprod m s t / tempr else 0
    let sp2 := fasp_blas_array_axpby m alpha pp omega sp
    let u2 := fasp_blas_array_axpy m 1 sp2 st.u
    let s2 := fasp_blas_array_axpy m (-omega) t s
    let r2 := fasp_array_cp m s2
    let temp1b := fasp_blas_array_dotprod m r2 st.rho
    if |st.temp1| > SMALLREAL then
      let beta := (temp1b * alpha) / (st.temp1 * omega)
      let p2 := fasp_blas_array_axpy m (-omega) z st.p
      let p3 := fasp_blas_array_axpby m 1 r2 beta p2
      let normd := fasp_blas_array_norm2 m sp2
      let normu := fasp_blas_array_norm2 m u2
      let stA := { st with u := u2, r := r2, p := p3, z := z, t := t }
      let stB := { stA with pp := pp, s := s2, sp := sp2, temp1 := temp1b, tempr := tempr }
      .cont { stB with normd := normd, normu := normu, reldiff := normd / normu }
    else
      let stA := { st with u := u2, r := r2, z := z, t := t, pp := pp }
      .toRestore .betaZero { stA with s := s2, sp := sp2, temp1 := temp1b, tempr := tempr }
  else
    .toFinished .alphaZero { st with pp := pp, z := z }

/-- Check II followed by Check III and the end-of-pass `absres0 = absres`
(lines 292–408 after the safe-net bookkeeping). -/
noncomputable def checksII_III (A : dCSRmat) (pc : Option (List ℝ → List ℝ))
    (stop : StopType) (m : ℕ) (tol maxdiff : ℝ) (b : List ℝ)
    (st : BState) : IterOut :=
  match checkII A pc stop m tol maxdiff b st with
  | .cont stF =>
    match checkIII A pc stop m tol b stF with
    | .cont stG => .cont { stG with absres0 := stG.absres }
    | out => out
  | out => out

/-- Lines 241–408 of the loop body: the small-`normd` exit, the residual
switch, the safe-net save, Check I, and the restart checks. -/
noncomputable def iterStep2 (A : dCSRmat) (pc : Option (List ℝ → List ℝ))
    (stop : StopType) (m : ℕ) (tol maxdiff TOL_s sol_inf_tol : ℝ)
    (b : List ℝ) (st : BState) : IterOut :=
  if st.normd < TOL_s then .toFinished .smallsp st
  else
    let arz := stopResZ stop pc m st.normr0 st.normu st.r st.z
    let stD := { st with absres := arz.1, relres := arz.2.1, z := arz.2.2 }
    if fasp_dvec_isnan st.u then .toRestore .nanRestore { stD with absres := BIGREAL }
    else
      let stE :=
        if stD.absres < stD.absres_best - maxdiff then
          { stD with absres_best := stD.absres, iter_best := stD.iter, u_best := fasp_array_cp m st.u }
        else stD
      if fasp_blas_array_norminf m st.u ≤ sol_inf_tol then
        .toFinished .solstag { stE with iter := ERROR_SOLVER_SOLSTAG }
      else
        checksII_III A pc stop m tol maxdiff b stE

/-- One pass of the main BiCGStab loop body (lines 167–408), entered with
`iter` already incremented by the `while (iter++ < MaxIt)` test. -/
noncomputable def iterBody (A : dCSRmat) (pc : Option (List ℝ → List ℝ))
    (stop : StopType) (m : ℕ) (tol maxdiff TOL_s sol_inf_tol : ℝ)
    (b : List ℝ) (st : BState) : IterOut :=
  match iterStep1 A pc m st with
  | .cont st1 => iterStep2 A pc stop m tol maxdiff TOL_s sol_inf_tol b st1
  | out => out

/-- The `while (iter++ < MaxIt)` loop, with fuel. -/
noncomputable def spbcgs_loop (A : dCSRmat) (pc : Option (List ℝ → List ℝ))
    (stop : StopType) (m : ℕ) (tol maxdiff TOL_s sol_inf_tol : ℝ)
    (b : List ℝ) (MaxIt : ℤ) : ℕ → BState → ExitKind × BState
  | 0, st => (.natural, st)
  | fuel+1, st =>
    if st.iter < MaxIt then
      match iterBody A pc stop m tol maxdiff TOL_s sol_inf_tol b
          { st with iter := st.iter + 1 } with
      | .cont st2 =>
        spbcgs_loop A pc stop m tol maxdiff TOL_s sol_inf_tol b MaxIt fuel st2
      | .toRestore tag st2 => (tag, st2)
      | .toFinished tag st2 => (tag, st2)
    else (.natural, { st with iter := st.iter + 1 })

/-- Does this exit path pass through the `RESTORE_BESTSOL` label?  The
`break`s and the β-divzero `goto` do; the `goto FINISHED`s do not. -/
def viaRestore : ExitKind → Bool
  | .conv2 => true
  | .conv3 => true
  | .natural => true
  | .betaZero => true
  | .nanRestore => true
  | _ => false

/-- The best-iterate residual norm of the `RESTORE_BESTSOL` block
(lines 419–434): the stopping-criterion norm of `r`, together with the
updated `z`. -/
noncomputable def bestResZ (stop : StopType) (pc : Option (List ℝ → List ℝ))
    (m : ℕ) (r1 z : List ℝ) : ℝ × List ℝ :=
  match stop with
  | .REL_RES => (fasp_blas_array_norm2 m r1, z)
  | .REL_PRECRES =>
    let z1 := precondApply pc m r1
    (Real.sqrt |fasp_blas_array_dotprod m z1 r1|, z1)
  | .MOD_REL_RES => (fasp_blas_array_norm2 m r1, z)

/-- The `RESTORE_BESTSOL` block (lines 412–440): when the final iterate is
not the best one, recompute the best iterate's residual in the stopping
norm and restore `u_best` if the final residual exceeds it by more than
`maxdiff`. -/
noncomputable def RESTORE_BESTSOL (A : dCSRmat)
    (pc : Option (List ℝ → List ℝ)) (stop : StopType) (m : ℕ)
    (maxdiff : ℝ) (b : List ℝ) (st : BState) : BState :=
  if st.iter ≠ st.iter_best then
    let r1 := residual A m b st.u_best
    let abz := bestResZ stop pc m r1 st.z
    let st1 := { st with r := r1, absres_best := abz.1, z := abz.2 }
    if st.absres > abz.1 + maxdiff then { st1 with u := st.u_best } else st1
  else st

/-- Result of a solver run: the exit path, the final state (with the
returned solution in `.st.u`) and the returned `INT` status. -/
structure SPOut where
  tag : ExitKind
  st : BState
  ret : ℤ

/-- The state after the initial residual and relative residual
(lines 127–149). -/
noncomputable def spbcgs_init (A : dCSRmat) (m : ℕ) (b u : List ℝ)
    (stop : StopType) : BState :=
  let r0 := residual A m b u
  let absres0 := fasp_blas_array_norm2 m r0
  let zero : List ℝ := List.replicate m 0
  let st0 : BState :=
    ⟨u, r0, zero, zero, zero, zero, zero, zero, zero, zero,
     0, 0, BIGREAL, absres0, BIGREAL, BIGREAL, BIGREAL, BIGREAL, 0, 0,
     0, 0, 1, 1, 1⟩
  match stop with
  | .REL_RES =>
    let n0 := max SMALLREAL absres0
    { st0 with normr0 := n0, relres := absres0 / n0 }
  | .REL_PRECRES =>
    let n0 := max SMALLREAL absres0
    { st0 with normr0 := n0, relres := absres0 / n0 }
  | .MOD_REL_RES =>
    let nu := max SMALLREAL (fasp_blas_array_norm2 m u)
    { st0 with normu := nu, relres := absres0 / nu }

/-- The state entering the main loop (`rho = r* = r`, `temp1 = ⟨r,ρ⟩`,
`p = r`; lines 157–162). -/
noncomputable def spbcgs_start (A : dCSRmat) (m : ℕ) (b u : List ℝ)
    (stop : StopType) : BState :=
  let st1 := spbcgs_init A m b u stop
  let rho := fasp_array_cp m st1.r
  { st1 with rho := rho, temp1 := fasp_blas_array_dotprod m st1.r rho, p := fasp_array_cp m st1.r }

/-- `fasp_solver_dcsr_spbcgs` from `src/base/src/spbcgs.c` (lines 91–456):
initial residual and relative residual, the main safe-net BiCGStab loop,
the `RESTORE_BESTSOL` block on the paths that reach it, and the returned
status (`iter`, or `ERROR_SOLVER_MAXIT` when `iter > MaxIt`). -/
noncomputable def fasp_solver_dcsr_spbcgs (A : dCSRmat) (b u : List ℝ)
    (pc : Option (List ℝ → List ℝ)) (tol : ℝ) (MaxIt : ℤ)
    (stop : StopType) : SPOut :=
  let m := b.length
  let maxdiff := tol * STAG_RATIO
  let st1 := spbcgs_init A m b u stop
  if st1.relres < tol then
    ⟨.initialConv, st1, if (0 : ℤ) > MaxIt then ERROR_SOLVER_MAXIT else 0⟩
  else
    let res := spbcgs_loop A pc stop m tol maxdiff (tol * 1e-2) SMALLREAL b
      MaxIt (MaxIt.toNat + 1) (spbcgs_start A m b u stop)
    let stF :=
      if viaRestore res.1 then RESTORE_BESTSOL A pc stop m maxdiff b res.2
      else res.2
    ⟨res.1, stF, if stF.iter > MaxIt then ERROR_SOLVER_MAXIT else stF.iter⟩

/-- The residual norm used by the chosen stopping criterion: the Euclidean
norm of `r` for `STOP_REL_RES`/`STOP_MOD_REL_RES`, and `√|⟨r, B r⟩|` for
`STOP_REL_PRECRES`. -/
noncomputable def stopNorm (stop : StopType) (pc : Option (List ℝ → List ℝ))
    (m : ℕ) (r : List ℝ) : ℝ :=
  match stop with
  | .REL_RES => fasp_blas_array_norm2 m r
  | .REL_PRECRES => Real.sqrt |fasp_blas_array_dotprod m r (precondApply pc m r)|
  | .MOD_REL_RES => fasp_blas_array_norm2 m r

end SPBCGS

namespace SPBCGS

theorem getD_map_range (m : ℕ) (f : ℕ → ℝ) (i : ℕ) (d : ℝ) :
    (((List.range m).map f).getD i d) = if i < m then f i else d := by
  by_cases h : i < m
  · rw [if_pos h, List.getD_eq_getElem?_getD]
    simp [List.getElem?_map, List.getElem?_range h]
  · rw [if_neg h, List.getD_eq_default]
    simp only [List.length_map, List.length_range]
    omega

theorem length_map_range (m : ℕ) (f : ℕ → ℝ) :
    ((List.range m).map f).length = m := by
  simp

theorem cp_length (m : ℕ) (x : List ℝ) : (fasp_array_cp m x).length = m :=
  length_map_range m _

theorem axpy_length (m : ℕ) (a : ℝ) (x y : List ℝ) :
    (fasp_blas_array_axpy m a x y).length = m := length_map_range m _

theorem axpby_length (m : ℕ) (a : ℝ) (x : List ℝ) (c : ℝ) (y : List ℝ) :
    (fasp_blas_array_axpby m a x c y).length = m := length_map_range m _

theorem mxv_length (A : dCSRmat) (x : List ℝ) :
    (fasp_blas_dcsr_mxv A x).length = A.row := length_map_range A.row _

theorem aAxpy_length (a : ℝ) (A : dCSRmat) (x y : List ℝ) :
    (fasp_blas_dcsr_aAxpy a A x y).length = A.row := length_map_range A.row _

theorem residual_length (A : dCSRmat) (m : ℕ) (b u : List ℝ) :
    (residual A m b u).length = A.row := aAxpy_length _ _ _ _

theorem getD_zero_of_len {x : List ℝ} {m j : ℕ} (hx : x.length = m)
    (hj : ¬ j < m) : x.getD j 0 = 0 := by
  rw [List.getD_eq_default]
  omega

/-- `cp` is pointwise the identity on length-`m` lists (at every index). -/
theorem cp_getD_all (m : ℕ) (x : List ℝ) (hx : x.length = m) (j : ℕ) :
    (fasp_array_cp m x).getD j 0 = x.getD j 0 := by
  rw [fasp_array_cp, getD_map_range]
  by_cases h : j < m
  · rw [if_pos h]
  · rw [if_neg h, getD_zero_of_len hx h]

theorem axpy_getD_all (m : ℕ) (a : ℝ) (x y : List ℝ)
    (hx : x.length = m) (hy : y.length = m) (j : ℕ) :
    (fasp_blas_array_axpy m a x y).getD j 0 = y.getD j 0 + a * x.getD j 0 := by
  rw [fasp_blas_array_axpy, getD_map_range]
  by_cases h : j < m
  · rw [if_pos h]
  · rw [if_neg h, getD_zero_of_len hx h, getD_zero_of_len hy h]
    ring

theorem axpby_getD_all (m : ℕ) (a : ℝ) (x : List ℝ) (c : ℝ) (y : List ℝ)
    (hx : x.length = m) (hy : y.length = m) (j : ℕ) :
    (fasp_blas_array_axpby m a x c y).getD j 0 =
      a * x.getD j 0 + c * y.getD j 0 := by
  rw [fasp_blas_array_axpby, getD_map_range]
  by_cases h : j < m
  · rw [if_pos h]
  · rw [if_neg h, getD_zero_of_len hx h, getD_zero_of_len hy h]
    ring

theorem list_eq_of_getD (x y : List ℝ) (m : ℕ) (hx : x.length = m)
    (hy : y.length = m) (h : ∀ i, i < m → x.getD i 0 = y.getD i 0) :
    x = y := by
  apply List.ext_getElem (by omega)
  intro i h1 h2
  have := h i (by omega)
  rw [List.getD_eq_getElem?_getD, List.getD_eq_getElem?_getD] at this
  rw [List.getElem?_eq_getElem h1, List.getElem?_eq_getElem h2] at this
  simpa using this

theorem foldl_addf_shift (g : ℕ → ℝ) (l : List ℕ) (acc : ℝ) :
    l.foldl (fun a p => a + g p) acc = acc + l.foldl (fun a p => a + g p) 0 := by
  induction l generalizing acc with
  | nil => simp
  | cons q qs ih =>
    rw [List.foldl_cons, List.foldl_cons, ih, ih (0 + g q)]
    ring

theorem foldl_addf_comb (g1 g2 g3 g4 : ℕ → ℝ) (a c : ℝ)
    (h : ∀ p, g4 p = g1 p + a * g2 p + c * g3 p) (l : List ℕ) :
    l.foldl (fun x p => x + g4 p) 0 =
      l.foldl (fun x p => x + g1 p) 0 + a * l.foldl (fun x p => x + g2 p) 0 +
      c * l.foldl (fun x p => x + g3 p) 0 := by
  induction l with
  | nil => simp
  | cons q qs ih =>
    rw [List.foldl_cons, List.foldl_cons, List.foldl_cons, List.foldl_cons,
      foldl_addf_shift _ qs (0 + g4 q), foldl_addf_shift _ qs (0 + g1 q),
      foldl_addf_shift _ qs (0 + g2 q), foldl_addf_shift _ qs (0 + g3 q), ih, h q]
    ring

/-- Linearity of a CSR row product over a pointwise linear combination. -/
theorem rowDot_comb (A : dCSRmat) (i : ℕ) (u x y w : List ℝ) (a c : ℝ)
    (h : ∀ j, w.getD j 0 = u.getD j 0 + a * x.getD j 0 + c * y.getD j 0) :
    rowDot A i w = rowDot A i u + a * rowDot A i x + c * rowDot A i y := by
  rw [rowDot, rowDot, rowDot, rowDot]
  apply foldl_addf_comb
  intro p
  rw [h (A.JA.getD p 0)]
  ring

theorem dotprod_comm (m : ℕ) (x y : List ℝ) :
    fasp_blas_array_dotprod m x y = fasp_blas_array_dotprod m y x := by
  rw [fasp_blas_array_dotprod, fasp_blas_array_dotprod]
  generalize List.range m = l
  induction l using List.reverseRecOn with
  | nil => rfl
  | append_singleton qs q ih =>
    rw [List.foldl_append, List.foldl_append, ih, List.foldl_cons, List.foldl_cons]
    simp [mul_comm]

end SPBCGS

namespace SPBCGS

open Fasp

/-- The BiCGStab update keeps `r = b − A·u` in exact arithmetic:
`r ← (r − α·A·pp) − ω·A·sp` tracks `u ← u + (α·pp + ω·sp)`. -/
theorem residual_iter_update (A : dCSRmat) (m : ℕ) (b u r pp sp0 : List ℝ)
    (alpha omega : ℝ) (hA : A.row = m) (hu : u.length = m)
    (hpp : pp.length = m) (hsp : sp0.length = m)
    (hr : r = residual A m b u) :
    fasp_array_cp m (fasp_blas_array_axpy m (-omega) (fasp_blas_dcsr_mxv A sp0)
      (fasp_blas_array_axpy m (-alpha) (fasp_blas_dcsr_mxv A pp)
        (fasp_array_cp m r))) =
    residual A m b (fasp_blas_array_axpy m 1
      (fasp_blas_array_axpby m alpha pp omega sp0) u) := by
  have hrl : r.length = m := by rw [hr, residual_length, hA]
  apply list_eq_of_getD _ _ m (cp_length m _)
    (by rw [residual_length, hA])
  intro i hi
  have hcomb : ∀ j, (fasp_blas_array_axpy m 1
      (fasp_blas_array_axpby m alpha pp omega sp0) u).getD j 0 =
      u.getD j 0 + alpha * pp.getD j 0 + omega * sp0.getD j 0 := by
    intro j
    rw [axpy_getD_all m 1 _ u (axpby_length _ _ _ _ _) hu j,
      axpby_getD_all m alpha pp omega sp0 hpp hsp j]
    ring
  have hrd := rowDot_comb A i u pp sp0 _ alpha omega hcomb
  rw [cp_getD_all m _ (axpy_length _ _ _ _) i]
  rw [axpy_getD_all m (-omega) _ _ (mxv_length A sp0 |>.trans hA)
    (axpy_length _ _ _ _) i]
  rw [axpy_getD_all m (-alpha) _ _ (mxv_length A pp |>.trans hA)
    (cp_length m r) i]
  rw [cp_getD_all m r hrl i]
  rw [residual, fasp_blas_dcsr_aAxpy, getD_map_range, if_pos (hA ▸ hi)]
  rw [hrd]
  have hri : r.getD i 0 = (fasp_array_cp m b).getD i 0 + (-1) * rowDot A i u := by
    rw [hr, residual, fasp_blas_dcsr_aAxpy, getD_map_range, if_pos (hA ▸ hi)]
  rw [fasp_blas_dcsr_mxv, getD_map_range, if_pos (hA ▸ hi)]
  rw [fasp_blas_dcsr_mxv, getD_map_range, if_pos (hA ▸ hi)]
  rw [hri]
  ring

end SPBCGS

namespace SPBCGS

theorem stopResZ_fst (stop : StopType) (pc : Option (List ℝ → List ℝ))
    (m : ℕ) (n0 nu : ℝ) (r z : List ℝ) :
    (stopResZ stop pc m n0 nu r z).1 = stopNorm stop pc m r := by
  cases stop <;> rfl

theorem stopResZ3_fst (stop : StopType) (pc : Option (List ℝ → List ℝ))
    (m : ℕ) (n0 nu tempr : ℝ) (r z : List ℝ) :
    (stopResZ3 stop pc m n0 nu tempr r z).1 = stopNorm stop pc m r := by
  cases stop <;> rfl

theorem checkII_restore (A : dCSRmat) (pc : Option (List ℝ → List ℝ))
    (stop : StopType) (m : ℕ) (tol maxdiff : ℝ) (b : List ℝ)
    (st : BState) (tag : ExitKind) (st' : BState)
    (heq : checkII A pc stop m tol maxdiff b st = .toRestore tag st') :
    tag = .conv2 ∧ st'.u = st.u ∧
    st'.absres = stopNorm stop pc m (residual A m b st.u) ∧
    st'.iter = st.iter ∧ st'.iter_best = st.iter_best ∧
    st'.absres_best = st.absres_best := by
  simp only [checkII] at heq
  split at heq
  · split at heq
    · cases heq
      refine ⟨rfl, rfl, ?_, rfl, rfl, rfl⟩
      exact stopResZ_fst stop pc m st.normr0 st.normu
        (residual A m b st.u) st.z
    · split at heq <;> cases heq
  · cases heq

theorem checkII_cont (A : dCSRmat) (pc : Option (List ℝ → List ℝ))
    (stop : StopType) (m : ℕ) (tol maxdiff : ℝ) (b : List ℝ)
    (st : BState) (st' : BState)
    (heq : checkII A pc stop m tol maxdiff b st = .cont st') :
    st'.u = st.u ∧ st'.iter = st.iter ∧ st'.iter_best = st.iter_best ∧
    st'.absres_best = st.absres_best ∧
    (st' = st ∨ st'.r = residual A m b st.u) := by
  simp only [checkII] at heq
  split at heq
  · split at heq
    · cases heq
    · split at heq
      · cases heq
      · cases heq
        exact ⟨rfl, rfl, rfl, rfl, Or.inr rfl⟩
  · cases heq
    exact ⟨rfl, rfl, rfl, rfl, Or.inl rfl⟩

theorem checkIII_restore (A : dCSRmat) (pc : Option (List ℝ → List ℝ))
    (stop : StopType) (m : ℕ) (tol : ℝ) (b : List ℝ)
    (st : BState) (tag : ExitKind) (st' : BState)
    (heq : checkIII A pc stop m tol b st = .toRestore tag st') :
    tag = .conv3 ∧ st'.u = st.u ∧
    st'.absres = stopNorm stop pc m (residual A m b st.u) ∧
    st'.iter = st.iter ∧ st'.iter_best = st.iter_best ∧
    st'.absres_best = st.absres_best := by
  simp only [checkIII] at heq
  split at heq
  · split at heq
    · cases heq
      refine ⟨rfl, rfl, ?_, rfl, rfl, rfl⟩
      exact stopResZ3_fst stop pc m st.normr0 st.normu st.tempr
        (residual A m b st.u) st.z
    · split at heq <;> cases heq
  · cases heq

theorem checkIII_cont (A : dCSRmat) (pc : Option (List ℝ → List ℝ))
    (stop : StopType) (m : ℕ) (tol : ℝ) (b : List ℝ)
    (st : BState) (st' : BState)
    (heq : checkIII A pc stop m tol b st = .cont st') :
    st'.u = st.u ∧ st'.iter = st.iter ∧ st'.iter_best = st.iter_best ∧
    st'.absres_best = st.absres_best ∧
    (st' = st ∨ st'.r = residual A m b st.u) := by
  simp only [checkIII] at heq
  split at heq
  · split at heq
    · cases heq
    · split at heq
      · cases heq
      · cases heq
        exact ⟨rfl, rfl, rfl, rfl, Or.inr rfl⟩
  · cases heq
    exact ⟨rfl, rfl, rfl, rfl, Or.inl rfl⟩

end SPBCGS

namespace SPBCGS

open Fasp

end SPBCGS

namespace SPBCGS

open Fasp

/-- The vector-update stage keeps the residual invariant and the
bookkeeping fields. -/
theorem iterStep1_cont_props (A : dCSRmat) (pc : Option (List ℝ → List ℝ))
    (m : ℕ) (b : List ℝ) (st st1 : BState)
    (hA : A.row = m)
    (hpc : ∀ x, (precondApply pc m x).length = m)
    (hu : st.u.length = m)
    (hr : st.r = residual A m b st.u)
    (heq : iterStep1 A pc m st = .cont st1) :
    st1.u.length = m ∧ st1.r = residual A m b st1.u ∧
    st1.iter = st.iter ∧ st1.iter_best = st.iter_best ∧
    st1.absres_best = st.absres_best := by
  simp only [iterStep1] at heq
  split at heq
  · split at heq
    · cases heq
      refine ⟨axpy_length _ _ _ _, ?_, rfl, rfl, rfl⟩
      exact residual_iter_update A m b st.u st.r _ _ _ _ hA hu
        (hpc _) (hpc _) hr
    · cases heq
  · cases heq

theorem iterStep1_finished_tag (A : dCSRmat) (pc : Option (List ℝ → List ℝ))
    (m : ℕ) (st : BState) (tag : ExitKind) (st1 : BState)
    (heq : iterStep1 A pc m st = .toFinished tag st1) : tag = .alphaZero := by
  simp only [iterStep1] at heq
  split at heq
  · split at heq <;> cases heq
  · cases heq
    rfl

theorem iterStep1_restore_tag (A : dCSRmat) (pc : Option (List ℝ → List ℝ))
    (m : ℕ) (st : BState) (tag : ExitKind) (st1 : BState)
    (heq : iterStep1 A pc m st = .toRestore tag st1) : tag = .betaZero := by
  simp only [iterStep1] at heq
  split at heq
  · split at heq <;> cases heq
    rfl
  · cases heq

end SPBCGS

namespace SPBCGS

open Fasp

end SPBCGS

namespace SPBCGS

open Fasp

end SPBCGS

namespace SPBCGS

open Fasp

theorem checks_restore_props (A : dCSRmat) (pc : Option (List ℝ → List ℝ))
    (stop : StopType) (m : ℕ) (tol maxdiff : ℝ) (b : List ℝ)
    (st : BState) (tag : ExitKind) (st' : BState)
    (heq : checksII_III A pc stop m tol maxdiff b st = .toRestore tag st') :
    (tag = .conv2 ∨ tag = .conv3) ∧ st'.u = st.u ∧
    st'.absres = stopNorm stop pc m (residual A m b st.u) ∧
    st'.iter = st.iter ∧ st'.iter_best = st.iter_best ∧
    st'.absres_best = st.absres_best := by
  rw [checksII_III] at heq
  rcases hII : checkII A pc stop m tol maxdiff b st with stF | ⟨tag2, st2⟩ | ⟨tag2, st2⟩
  · simp only [hII] at heq
    rcases hIII : checkIII A pc stop m tol b stF with stG | ⟨tag3, st3⟩ | ⟨tag3, st3⟩
    · simp only [hIII] at heq
      cases heq
    · simp only [hIII] at heq
      cases heq
      obtain ⟨hFu, hFi, hFib, hFab, _⟩ := checkII_cont _ _ _ _ _ _ _ _ _ hII
      obtain ⟨htag3, h3u, h3a, h3i, h3ib, h3ab⟩ :=
        checkIII_restore _ _ _ _ _ _ _ _ _ hIII
      refine ⟨Or.inr htag3, ?_, ?_, ?_, ?_, ?_⟩
      · rw [h3u, hFu]
      · rw [h3a, hFu]
      · rw [h3i, hFi]
      · rw [h3ib, hFib]
      · rw [h3ab, hFab]
    · simp only [hIII] at heq
      cases heq
  · simp only [hII] at heq
    cases heq
    obtain ⟨htag2, h2u, h2a, h2i, h2ib, h2ab⟩ :=
      checkII_restore _ _ _ _ _ _ _ _ _ _ hII
    exact ⟨Or.inl htag2, h2u, h2a, h2i, h2ib, h2ab⟩
  · simp only [hII] at heq
    cases heq

theorem checks_cont_props (A : dCSRmat) (pc : Option (List ℝ → List ℝ))
    (stop : StopType) (m : ℕ) (tol maxdiff : ℝ) (b : List ℝ)
    (st : BState) (st2 : BState)
    (heq : checksII_III A pc stop m tol maxdiff b st = .cont st2) :
    st2.u = st.u ∧ st2.iter = st.iter ∧ st2.iter_best = st.iter_best ∧
    (st2.r = st.r ∨ st2.r = residual A m b st.u) := by
  rw [checksII_III] at heq
  rcases hII : checkII A pc stop m tol maxdiff b st with stF | ⟨tag2, st2p⟩ | ⟨tag2, st2p⟩
  · simp only [hII] at heq
    rcases hIII : checkIII A pc stop m tol b stF with stG | ⟨tag3, st3⟩ | ⟨tag3, st3⟩
    · simp only [hIII] at heq
      cases heq
      obtain ⟨hFu, hFi, hFib, hFab, hFr⟩ := checkII_cont _ _ _ _ _ _ _ _ _ hII
      obtain ⟨hGu, hGi, hGib, hGab, hGr⟩ := checkIII_cont _ _ _ _ _ _ _ _ hIII
      refine ⟨?_, ?_, ?_, ?_⟩
      · show stG.u = st.u
        rw [hGu, hFu]
      · show stG.iter = st.iter
        rw [hGi, hFi]
      · show stG.iter_best = st.iter_best
        rw [hGib, hFib]
      · show stG.r = st.r ∨ stG.r = residual A m b st.u
        rcases hGr with h | h
        · rcases hFr with h2 | h2
          · rw [h, h2]
            simp
          · right
            rw [h, h2]
        · right
          rw [h, hFu]
    · simp only [hIII] at heq
      cases heq
    · simp only [hIII] at heq
      cases heq
  · simp only [hII] at heq
    cases heq
  · simp only [hII] at heq
    cases heq

end SPBCGS

namespace SPBCGS

open Fasp

/-- A `break` out of `iterStep2` to `RESTORE_BESTSOL` carries
`absres = stopNorm(b − A·u)` for the recorded iterate; when the pass also
saved the best solution, `absres` and `absres_best` coincide. -/
theorem iterStep2_restore_props (A : dCSRmat) (pc : Option (List ℝ → List ℝ))
    (stop : StopType) (m : ℕ) (tol maxdiff TOL_s sol_inf_tol : ℝ)
    (b : List ℝ) (st : BState) (tag : ExitKind) (st' : BState)
    (hr : st.r = residual A m b st.u)
    (hbest : st.iter_best < st.iter)
    (heq : iterStep2 A pc stop m tol maxdiff TOL_s sol_inf_tol b st =
      .toRestore tag st') :
    (tag = .conv2 ∨ tag = .conv3) →
      st'.absres = stopNorm stop pc m (residual A m b st'.u) ∧
      (st'.iter = st'.iter_best → st'.absres = st'.absres_best) := by
  intro htag
  simp only [iterStep2] at heq
  split at heq
  · cases heq
  · split at heq
    · rename_i hnan
      simp [fasp_dvec_isnan] at hnan
    · split at heq
      · cases heq
      · by_cases hsave : (stopResZ stop pc m st.normr0 st.normu st.r st.z).1 <
            st.absres_best - maxdiff
        · rw [if_pos hsave] at heq
          obtain ⟨htag', hu', ha', hi', hib', hab'⟩ :=
            checks_restore_props _ _ _ _ _ _ _ _ _ _ heq
          constructor
          · rw [ha', hu']
          · intro _
            rw [ha', hab']
            show stopNorm stop pc m (residual A m b st.u) =
              (stopResZ stop pc m st.normr0 st.normu st.r st.z).1
            rw [stopResZ_fst, hr]
        · rw [if_neg hsave] at heq
          obtain ⟨htag', hu', ha', hi', hib', hab'⟩ :=
            checks_restore_props _ _ _ _ _ _ _ _ _ _ heq
          constructor
          · rw [ha', hu']
          · intro hii
            rw [hi', hib'] at hii
            exact absurd hii (by dsimp only at hii ⊢; omega)

/-- Continuing out of `iterStep2` keeps the residual invariant, `iter`,
and moves `iter_best` at most up to `iter`. -/
theorem iterStep2_cont_props (A : dCSRmat) (pc : Option (List ℝ → List ℝ))
    (stop : StopType) (m : ℕ) (tol maxdiff TOL_s sol_inf_tol : ℝ)
    (b : List ℝ) (st : BState) (st2 : BState)
    (hr : st.r = residual A m b st.u)
    (hbest : st.iter_best < st.iter)
    (heq : iterStep2 A pc stop m tol maxdiff TOL_s sol_inf_tol b st =
      .cont st2) :
    st2.u = st.u ∧ st2.r = residual A m b st2.u ∧ st2.iter = st.iter ∧
    st2.iter_best ≤ st2.iter := by
  simp only [iterStep2] at heq
  split at heq
  · cases heq
  · split at heq
    · rename_i hnan
      simp [fasp_dvec_isnan] at hnan
    · split at heq
      · cases heq
      · by_cases hsave : (stopResZ stop pc m st.normr0 st.normu st.r st.z).1 <
            st.absres_best - maxdiff
        · rw [if_pos hsave] at heq
          obtain ⟨hu', hi', hib', hrr⟩ := checks_cont_props _ _ _ _ _ _ _ _ _ heq
          refine ⟨hu', ?_, hi', ?_⟩
          · rcases hrr with h | h
            · rw [h, hu']
              show st.r = residual A m b st.u
              exact hr
            · rw [h, hu']
          · rw [hi', hib']
        · rw [if_neg hsave] at heq
          obtain ⟨hu', hi', hib', hrr⟩ := checks_cont_props _ _ _ _ _ _ _ _ _ heq
          refine ⟨hu', ?_, hi', ?_⟩
          · rcases hrr with h | h
            · rw [h, hu']
              show st.r = residual A m b st.u
              exact hr
            · rw [h, hu']
          · rw [hi', hib']
            show st.iter_best ≤ st.iter
            omega

end SPBCGS

namespace SPBCGS

open Fasp

theorem checkII_finished_tag (A : dCSRmat) (pc : Option (List ℝ → List ℝ))
    (stop : StopType) (m : ℕ) (tol maxdiff : ℝ) (b : List ℝ)
    (st : BState) (tag : ExitKind) (st' : BState)
    (heq : checkII A pc stop m tol maxdiff b st = .toFinished tag st') :
    tag = .stagError := by
  simp only [checkII] at heq
  split at heq
  · split at heq
    · cases heq
    · split at heq
      · cases heq
        rfl
      · cases heq
  · cases heq

theorem checkIII_finished_tag (A : dCSRmat) (pc : Option (List ℝ → List ℝ))
    (stop : StopType) (m : ℕ) (tol : ℝ) (b : List ℝ)
    (st : BState) (tag : ExitKind) (st' : BState)
    (heq : checkIII A pc stop m tol b st = .toFinished tag st') :
    tag = .tolsmall := by
  simp only [checkIII] at heq
  split at heq
  · split at heq
    · cases heq
    · split at heq
      · cases heq
        rfl
      · cases heq
  · cases heq

theorem checks_finished_tag (A : dCSRmat) (pc : Option (List ℝ → List ℝ))
    (stop : StopType) (m : ℕ) (tol maxdiff : ℝ) (b : List ℝ)
    (st : BState) (tag : ExitKind) (st' : BState)
    (heq : checksII_III A pc stop m tol maxdiff b st = .toFinished tag st') :
    tag = .stagError ∨ tag = .tolsmall := by
  rw [checksII_III] at heq
  rcases hII : checkII A pc stop m tol maxdiff b st with stF | ⟨tag2, st2⟩ | ⟨tag2, st2⟩
  · simp only [hII] at heq
    rcases hIII : checkIII A pc stop m tol b stF with stG | ⟨tag3, st3⟩ | ⟨tag3, st3⟩
    · simp only [hIII] at heq
      cases heq
    · simp only [hIII] at heq
      cases heq
    · simp only [hIII] at heq
      cases heq
      exact Or.inr (checkIII_finished_tag _ _ _ _ _ _ _ _ _ hIII)
  · simp only [hII] at heq
    cases heq
  · simp only [hII] at heq
    cases heq
    exact Or.inl (checkII_finished_tag _ _ _ _ _ _ _ _ _ _ hII)

theorem iterStep2_finished_tag (A : dCSRmat) (pc : Option (List ℝ → List ℝ))
    (stop : StopType) (m : ℕ) (tol maxdiff TOL_s sol_inf_tol : ℝ)
    (b : List ℝ) (st : BState) (tag : ExitKind) (st' : BState)
    (heq : iterStep2 A pc stop m tol maxdiff TOL_s sol_inf_tol b st =
      .toFinished tag st') :
    tag = .smallsp ∨ tag = .solstag ∨ tag = .stagError ∨ tag = .tolsmall := by
  simp only [iterStep2] at heq
  split at heq
  · cases heq
    exact Or.inl rfl
  · split at heq
    · cases heq
    · split at heq
      · cases heq
        exact Or.inr (Or.inl rfl)
      · rcases checks_finished_tag _ _ _ _ _ _ _ _ _ _ heq with h | h
        · exact Or.inr (Or.inr (Or.inl h))
        · exact Or.inr (Or.inr (Or.inr h))

/-- Break-to-restore properties of one whole loop pass. -/
theorem iterBody_restore_props (A : dCSRmat) (pc : Option (List ℝ → List ℝ))
    (stop : StopType) (m : ℕ) (tol maxdiff TOL_s sol_inf_tol : ℝ)
    (b : List ℝ) (st : BState) (tag : ExitKind) (st' : BState)
    (hA : A.row = m)
    (hpc : ∀ x, (precondApply pc m x).length = m)
    (hu : st.u.length = m)
    (hr : st.r = residual A m b st.u)
    (hbest : st.iter_best < st.iter)
    (heq : iterBody A pc stop m tol maxdiff TOL_s sol_inf_tol b st =
      .toRestore tag st') :
    (tag = .conv2 ∨ tag = .conv3) →
      st'.absres = stopNorm stop pc m (residual A m b st'.u) ∧
      (st'.iter = st'.iter_best → st'.absres = st'.absres_best) := by
  intro htag
  simp only [iterBody] at heq
  rcases h1 : iterStep1 A pc m st with st1 | ⟨tag1, st1⟩ | ⟨tag1, st1⟩
  · simp only [h1] at heq
    obtain ⟨hl1, hr1, hi1, hib1, _⟩ :=
      iterStep1_cont_props A pc m b st st1 hA hpc hu hr h1
    exact iterStep2_restore_props A pc stop m tol maxdiff TOL_s sol_inf_tol b
      st1 tag st' hr1 (by omega) heq htag
  · simp only [h1] at heq
    cases heq
    have := iterStep1_restore_tag A pc m st tag st' h1
    rcases htag with h | h <;> (rw [this] at h; exact absurd h (by decide))
  · simp only [h1] at heq
    cases heq

/-- Invariant preservation over one whole loop pass. -/
theorem iterBody_cont_props (A : dCSRmat) (pc : Option (List ℝ → List ℝ))
    (stop : StopType) (m : ℕ) (tol maxdiff TOL_s sol_inf_tol : ℝ)
    (b : List ℝ) (st : BState) (st2 : BState)
    (hA : A.row = m)
    (hpc : ∀ x, (precondApply pc m x).length = m)
    (hu : st.u.length = m)
    (hr : st.r = residual A m b st.u)
    (hbest : st.iter_best < st.iter)
    (heq : iterBody A pc stop m tol maxdiff TOL_s sol_inf_tol b st =
      .cont st2) :
    st2.u.length = m ∧ st2.r = residual A m b st2.u ∧ st2.iter = st.iter ∧
    st2.iter_best ≤ st2.iter := by
  simp only [iterBody] at heq
  rcases h1 : iterStep1 A pc m st with st1 | ⟨tag1, st1⟩ | ⟨tag1, st1⟩
  · simp only [h1] at heq
    obtain ⟨hl1, hr1, hi1, hib1, _⟩ :=
      iterStep1_cont_props A pc m b st st1 hA hpc hu hr h1
    obtain ⟨hu2, hr2, hi2, hib2⟩ :=
      iterStep2_cont_props A pc stop m tol maxdiff TOL_s sol_inf_tol b
        st1 st2 hr1 (by omega) heq
    refine ⟨?_, hr2, ?_, hib2⟩
    · rw [hu2]
      exact hl1
    · rw [hi2, hi1]
  · simp only [h1] at heq
    cases heq
  · simp only [h1] at heq
    cases heq

theorem iterBody_finished_not_conv (A : dCSRmat)
    (pc : Option (List ℝ → List ℝ)) (stop : StopType) (m : ℕ)
    (tol maxdiff TOL_s sol_inf_tol : ℝ) (b : List ℝ)
    (st : BState) (tag : ExitKind) (st' : BState)
    (heq : iterBody A pc stop m tol maxdiff TOL_s sol_inf_tol b st =
      .toFinished tag st') :
    tag ≠ .conv2 ∧ tag ≠ .conv3 := by
  simp only [iterBody] at heq
  rcases h1 : iterStep1 A pc m st with st1 | ⟨tag1, st1⟩ | ⟨tag1, st1⟩
  · simp only [h1] at heq
    rcases iterStep2_finished_tag _ _ _ _ _ _ _ _ _ _ _ _ heq with h | h | h | h <;>
      (rw [h]; exact ⟨by decide, by decide⟩)
  · simp only [h1] at heq
    cases heq
  · simp only [h1] at heq
    cases heq
    rw [iterStep1_finished_tag A pc m st tag st' h1]
    exact ⟨by decide, by decide⟩

end SPBCGS

namespace SPBCGS

open Fasp

theorem bestResZ_fst (stop : StopType) (pc : Option (List ℝ → List ℝ))
    (m : ℕ) (r1 z : List ℝ) :
    (bestResZ stop pc m r1 z).1 = stopNorm stop pc m r1 := by
  cases stop
  · rfl
  · show Real.sqrt |fasp_blas_array_dotprod m (precondApply pc m r1) r1| = _
    rw [dotprod_comm]
    rfl
  · rfl

/-- The loop preserves the residual invariant, and when it stops with one
of the two convergence `break`s, the exit state's `absres` is the
stopping-norm residual of its iterate and agrees with `absres_best` when
the final pass was the best-saving one. -/
theorem spbcgs_loop_restore_props (A : dCSRmat)
    (pc : Option (List ℝ → List ℝ)) (stop : StopType) (m : ℕ)
    (tol maxdiff TOL_s sol_inf_tol : ℝ) (b : List ℝ) (MaxIt : ℤ)
    (hA : A.row = m)
    (hpc : ∀ x, (precondApply pc m x).length = m) :
    ∀ (fuel : ℕ) (st : BState) (tag : ExitKind) (st' : BState),
      st.u.length = m → st.r = residual A m b st.u →
      st.iter_best ≤ st.iter →
      spbcgs_loop A pc stop m tol maxdiff TOL_s sol_inf_tol b MaxIt fuel st =
        (tag, st') →
      (tag = .conv2 ∨ tag = .conv3) →
      st'.absres = stopNorm stop pc m (residual A m b st'.u) ∧
      (st'.iter = st'.iter_best → st'.absres = st'.absres_best) := by
  intro fuel
  induction fuel with
  | zero =>
    intro st tag st' _ _ _ heq htag
    rw [spbcgs_loop] at heq
    cases heq
    rcases htag with h | h <;> exact absurd h (by decide)
  | succ n ih =>
    intro st tag st' hu hr hbest heq htag
    rw [spbcgs_loop] at heq
    split at heq
    · rcases hb : iterBody A pc stop m tol maxdiff TOL_s sol_inf_tol b
          { st with iter := st.iter + 1 } with st2 | ⟨tagb, st2⟩ | ⟨tagb, st2⟩
      · rw [hb] at heq
        obtain ⟨hu2, hr2, hi2, hib2⟩ := iterBody_cont_props A pc stop m tol
          maxdiff TOL_s sol_inf_tol b { st with iter := st.iter + 1 } st2
          hA hpc hu hr (by show st.iter_best < st.iter + 1; omega) hb
        exact ih st2 tag st' hu2 hr2 hib2 heq htag
      · rw [hb] at heq
        cases heq
        exact iterBody_restore_props A pc stop m tol maxdiff TOL_s
          sol_inf_tol b { st with iter := st.iter + 1 } tag st' hA hpc hu hr
          (by show st.iter_best < st.iter + 1; omega) hb htag
      · rw [hb] at heq
        cases heq
        obtain ⟨h1, h2⟩ := iterBody_finished_not_conv A pc stop m tol maxdiff
          TOL_s sol_inf_tol b { st with iter := st.iter + 1 } tag st' hb
        rcases htag with h | h
        · exact absurd h h1
        · exact absurd h h2
    · cases heq
      rcases htag with h | h <;> exact absurd h (by decide)

end SPBCGS

namespace SPBCGS

open Fasp

theorem spbcgs_init_u (A : dCSRmat) (m : ℕ) (b u : List ℝ) (stop : StopType) :
    (spbcgs_init A m b u stop).u = u := by
  cases stop <;> rfl

theorem spbcgs_start_u (A : dCSRmat) (m : ℕ) (b u : List ℝ)
    (stop : StopType) : (spbcgs_start A m b u stop).u = u := by
  cases stop <;> rfl

theorem spbcgs_start_r (A : dCSRmat) (m : ℕ) (b u : List ℝ)
    (stop : StopType) : (spbcgs_start A m b u stop).r = residual A m b u := by
  cases stop <;> rfl

theorem spbcgs_start_iter (A : dCSRmat) (m : ℕ) (b u : List ℝ)
    (stop : StopType) : (spbcgs_start A m b u stop).iter = 0 := by
  cases stop <;> rfl

theorem spbcgs_start_iter_best (A : dCSRmat) (m : ℕ) (b u : List ℝ)
    (stop : StopType) : (spbcgs_start A m b u stop).iter_best = 0 := by
  cases stop <;> rfl

/-- C1 (amended).  Whenever the safe-net BiCGStab solver leaves its main
loop through one of the two convergence `break`s (Check II or Check III),
the returned solution satisfies the safety-net bound in the chosen
stopping-criterion norm: `stopNorm(b − A·u) ≤ absres_best + tol * STAG_RATIO`,
where `absres_best` is the solver's final best-residual field (recomputed
at the best iterate by `RESTORE_BESTSOL` when the final iterate is not the
best one, in which case the best iterate is restored if the bound would
fail).  The claim's Euclidean-norm version is refuted by
`C1_safety_net_counterexample`. -/
theorem C1_spbcgs_safety_net (A : dCSRmat) (b u : List ℝ)
    (pc : Option (List ℝ → List ℝ)) (tol : ℝ) (MaxIt : ℤ) (stop : StopType)
    (hA : A.row = b.length)
    (hpc : ∀ x, (precondApply pc b.length x).length = b.length)
    (hu : u.length = b.length)
    (htol : 0 ≤ tol)
    (htag : (fasp_solver_dcsr_spbcgs A b u pc tol MaxIt stop).tag = .conv2 ∨
      (fasp_solver_dcsr_spbcgs A b u pc tol MaxIt stop).tag = .conv3) :
    stopNorm stop pc b.length (residual A b.length b
        (fasp_solver_dcsr_spbcgs A b u pc tol MaxIt stop).st.u) ≤
      (fasp_solver_dcsr_spbcgs A b u pc tol MaxIt stop).st.absres_best +
        tol * STAG_RATIO := by
  have hmd : 0 ≤ tol * STAG_RATIO := by
    apply mul_nonneg htol
    rw [ STAG_RATIO]
    norm_num
  simp only [fasp_solver_dcsr_spbcgs] at htag ⊢
  by_cases h0 : (spbcgs_init A b.length b u stop).relres < tol
  · rw [if_pos h0] at htag
    rcases htag with h | h <;> exact ExitKind.noConfusion h
  · rw [if_neg h0] at htag ⊢
    dsimp only at htag ⊢
    obtain ⟨hP1, hP2⟩ := spbcgs_loop_restore_props A pc stop b.length tol
      (tol * STAG_RATIO) (tol * 1e-2) SMALLREAL b MaxIt hA hpc
      (MaxIt.toNat + 1) (spbcgs_start A b.length b u stop)
      (spbcgs_loop A pc stop b.length tol (tol * STAG_RATIO) (tol * 1e-2)
        SMALLREAL b MaxIt (MaxIt.toNat + 1)
        (spbcgs_start A b.length b u stop)).1
      (spbcgs_loop A pc stop b.length tol (tol * STAG_RATIO) (tol * 1e-2)
        SMALLREAL b MaxIt (MaxIt.toNat + 1)
        (spbcgs_start A b.length b u stop)).2
      (by rw [spbcgs_start_u]; exact hu)
      (by rw [spbcgs_start_r, spbcgs_start_u])
      (by rw [spbcgs_start_iter, spbcgs_start_iter_best])
      (Prod.mk.eta).symm htag
    set stq := (spbcgs_loop A pc stop b.length tol (tol * STAG_RATIO)
      (tol * 1e-2) SMALLREAL b MaxIt (MaxIt.toNat + 1)
      (spbcgs_start A b.length b u stop)).2 with hstq
    have hvia : viaRestore (spbcgs_loop A pc stop b.length tol
        (tol * STAG_RATIO) (tol * 1e-2) SMALLREAL b MaxIt (MaxIt.toNat + 1)
        (spbcgs_start A b.length b u stop)).1 = true := by
      rcases htag with h | h <;> rw [h] <;> rfl
    rw [if_pos hvia]
    rw [RESTORE_BESTSOL]
    by_cases hne : stq.iter ≠ stq.iter_best
    · rw [if_pos hne]
      by_cases hgt : stq.absres > (bestResZ stop pc b.length
          (residual A b.length b stq.u_best) stq.z).1 + tol * STAG_RATIO
      · rw [if_pos hgt]
        show stopNorm stop pc b.length (residual A b.length b stq.u_best) ≤
          (bestResZ stop pc b.length
            (residual A b.length b stq.u_best) stq.z).1 + tol * STAG_RATIO
        rw [bestResZ_fst]
        linarith
      · rw [if_neg hgt]
        push_neg at hgt
        show stopNorm stop pc b.length (residual A b.length b stq.u) ≤
          (bestResZ stop pc b.length
            (residual A b.length b stq.u_best) stq.z).1 + tol * STAG_RATIO
        rw [← hP1]
        exact hgt
    · rw [if_neg hne]
      push_neg at hne
      show stopNorm stop pc b.length (residual A b.length b stq.u) ≤
        stq.absres_best + tol * STAG_RATIO
      rw [← hP1, hP2 hne]
      linarith
end SPBCGS

namespace SPBCGS

open Fasp

/-- The 1×1 matrix with no stored entries (the zero matrix) for the C4
instance. -/
def A0 : dCSRmat := ⟨1, 1, 0, [0, 0], [], []⟩

theorem A0_residual : residual A0 1 [(1 : ℝ)] [0] = [1] := by
  norm_num [residual, fasp_blas_dcsr_aAxpy, fasp_array_cp, rowDot, rowPosR,
    A0, List.range_succ]

theorem A0_init : spbcgs_init A0 1 [(1 : ℝ)] [0] .REL_RES =
    ⟨[0], [1], [0], [0], [0], [0], [0], [0], [0], [0],
     0, 0, BIGREAL, 1, BIGREAL, 1, 1, BIGREAL, 0, 0, 0, 0, 1, 1, 1⟩ := by
  simp only [spbcgs_init, A0_residual]
  norm_num [fasp_blas_array_norm2, fasp_blas_array_dotprod, SMALLREAL,
    List.range_succ, Real.sqrt_one]

end SPBCGS

namespace SPBCGS

open Fasp

theorem A0_start : spbcgs_start A0 1 [(1 : ℝ)] [0] .REL_RES =
    ⟨[0], [1], [1], [0], [0], [1], [0], [0], [0], [0],
     1, 0, BIGREAL, 1, BIGREAL, 1, 1, BIGREAL, 0, 0, 0, 0, 1, 1, 1⟩ := by
  simp only [spbcgs_start, A0_init]
  norm_num [fasp_array_cp, fasp_blas_array_dotprod, List.range_succ]

theorem A0_step1 : iterStep1 A0 none 1
    ⟨[0], [1], [1], [0], [0], [1], [0], [0], [0], [0],
     1, 0, BIGREAL, 1, BIGREAL, 1, 1, BIGREAL, 0, 0, 1, 0, 1, 1, 1⟩ =
    .toFinished .alphaZero
      ⟨[0], [1], [1], [0], [0], [1], [1], [0], [0], [0],
       1, 0, BIGREAL, 1, BIGREAL, 1, 1, BIGREAL, 0, 0, 1, 0, 1, 1, 1⟩ := by
  simp only [iterStep1]
  rw [if_neg]
  · rfl
  · norm_num [fasp_blas_array_dotprod, fasp_blas_dcsr_mxv, rowDot, rowPosR,
      A0, precondApply, fasp_array_cp, List.range_succ, SMALLREAL]

theorem A0_run : fasp_solver_dcsr_spbcgs A0 [(1 : ℝ)] [0] none (1/2) 5
    .REL_RES =
    ⟨.alphaZero,
     ⟨[0], [1], [1], [0], [0], [1], [1], [0], [0], [0],
      1, 0, BIGREAL, 1, BIGREAL, 1, 1, BIGREAL, 0, 0, 1, 0, 1, 1, 1⟩, 1⟩ := by
  simp only [fasp_solver_dcsr_spbcgs]
  rw [show ([(1:ℝ)]).length = 1 from rfl]
  rw [if_neg (by rw [A0_init]; norm_num)]
  rw [show ((5 : ℤ).toNat + 1) = 6 from rfl]
  rw [A0_start]
  rw [show (6 : ℕ) = 5 + 1 from rfl, spbcgs_loop]
  rw [if_pos (by norm_num)]
  rw [show { (⟨[0], [1], [1], [0], [0], [1], [0], [0], [0], [0],
      1, 0, BIGREAL, 1, BIGREAL, 1, 1, BIGREAL, 0, 0, 0, 0, 1, 1, 1⟩ : BState)
      with iter := (0 : ℤ) + 1 } =
    (⟨[0], [1], [1], [0], [0], [1], [0], [0], [0], [0],
      1, 0, BIGREAL, 1, BIGREAL, 1, 1, BIGREAL, 0, 0, 1, 0, 1, 1, 1⟩ : BState) from rfl]
  rw [iterBody, A0_step1]
  rfl

end SPBCGS

namespace SPBCGS

open Fasp

/-- The 2×2 diagonal matrix `diag(1,8)` in CSR form, for the C1 instance. -/
def A2 : dCSRmat := ⟨2, 2, 2, [0, 1, 2], [0, 1], [1, 8]⟩

/-- The diagonal preconditioner `diag(1, 1/4)` for the C1 instance. -/
noncomputable def pc2 : List ℝ → List ℝ :=
  fun v => [v.getD 0 0, v.getD 1 0 / 4]

theorem sqrt2_big : (1e-20 : ℝ) ≤ Real.sqrt 2 := by
  have h1 : (1 : ℝ) ≤ Real.sqrt 2 := by
    rw [show (1:ℝ) = Real.sqrt 1 from (Real.sqrt_one).symm]
    exact Real.sqrt_le_sqrt (by norm_num)
  linarith

theorem A2_residual0 : residual A2 2 [(1001 : ℝ), 1] [1000, 0] = [1, 1] := by
  norm_num [residual, fasp_blas_dcsr_aAxpy, fasp_array_cp, rowDot, rowPosR,
    A2, List.range_succ, List.range']

theorem A2_init : spbcgs_init A2 2 [(1001 : ℝ), 1] [1000, 0] .REL_PRECRES =
    ⟨[1000, 0], [1, 1], [0, 0], [0, 0], [0, 0], [0, 0], [0, 0], [0, 0],
     [0, 0], [0, 0], 0, 0, BIGREAL, Real.sqrt 2, BIGREAL, 1, Real.sqrt 2,
     BIGREAL, 0, 0, 0, 0, 1, 1, 1⟩ := by
  simp only [spbcgs_init, A2_residual0]
  have habs : fasp_blas_array_norm2 2 [(1 : ℝ), 1] = Real.sqrt 2 := by
    norm_num [fasp_blas_array_norm2, fasp_blas_array_dotprod, List.range_succ]
  rw [habs]
  have hmax : max SMALLREAL (Real.sqrt 2) = Real.sqrt 2 := by
    rw [SMALLREAL]
    exact max_eq_right sqrt2_big
  rw [hmax]
  have hdiv : Real.sqrt 2 / Real.sqrt 2 = 1 := by
    apply div_self
    intro hc
    have := sqrt2_big
    rw [hc] at this
    norm_num at this
  rw [hdiv]
  rfl

theorem A2_start : spbcgs_start A2 2 [(1001 : ℝ), 1] [1000, 0] .REL_PRECRES =
    ⟨[1000, 0], [1, 1], [1, 1], [0, 0], [0, 0], [1, 1], [0, 0], [0, 0],
     [0, 0], [0, 0], 2, 0, BIGREAL, Real.sqrt 2, BIGREAL, 1, Real.sqrt 2,
     BIGREAL, 0, 0, 0, 0, 1, 1, 1⟩ := by
  simp only [spbcgs_start, A2_init]
  norm_num [fasp_array_cp, fasp_blas_array_dotprod, List.range_succ]

end SPBCGS

namespace SPBCGS

open Fasp

theorem A2_step1 : iterStep1 A2 (some pc2) 2
    ⟨[1000, 0], [1, 1], [1, 1], [0, 0], [0, 0], [1, 1], [0, 0], [0, 0],
     [0, 0], [0, 0], 2, 0, BIGREAL, Real.sqrt 2, BIGREAL, 1, Real.sqrt 2,
     BIGREAL, 0, 0, 1, 0, 1, 1, 1⟩ =
    .cont
    ⟨[15013/15, 7/60], [2/15, 1/15], [8/45, 2/45], [1, 2], [1/3, -(2/3)],
     [1, 1], [1, 1/4], [2/15, 1/15], [13/15, 7/60], [0, 0],
     1/5, 5/9, BIGREAL, Real.sqrt 2, BIGREAL, 1, Real.sqrt 2,
     Real.sqrt (3606242753/3600), Real.sqrt (2753/3600),
     Real.sqrt (2753/3600) / Real.sqrt (3606242753/3600),
     1, 0, 1, 1, 1⟩ := by
  have habs59 : |(5 : ℝ) / 9| = 5 / 9 := abs_of_pos (by norm_num)
  simp only [iterStep1, precondApply]
  norm_num [fasp_blas_array_dotprod, fasp_blas_dcsr_mxv, fasp_blas_array_axpy,
    fasp_blas_array_axpby, fasp_array_cp, fasp_blas_array_norm2, rowDot,
    rowPosR, A2, pc2, SMALLREAL, BIGREAL, List.range_succ, List.range',
    habs59]

end SPBCGS

namespace SPBCGS

open Fasp

theorem A2_arz (z0 : List ℝ) :
    stopResZ .REL_PRECRES (some pc2) 2 (Real.sqrt 2)
      (Real.sqrt (3606242753/3600)) [2/15, 1/15] z0 =
    (Real.sqrt (17/900), Real.sqrt (17/900) / Real.sqrt 2,
      [2/15, 1/60]) := by
  simp only [stopResZ, precondApply]
  have habs : |(17 : ℝ) / 900| = 17 / 900 := abs_of_pos (by norm_num)
  norm_num [fasp_blas_array_dotprod, pc2, List.range_succ]
  rw [habs, Real.sqrt_div (by norm_num : (0:ℝ) ≤ 17)]
  exact ⟨rfl, rfl⟩

theorem A2_reinit : reinit A2 (some pc2) 2 [(1001 : ℝ), 1]
    [15013/15, 7/60] =
    ([2/15, 1/15], [2/15, 1/15], [2/15, 1/60], [2/15, 1/15], 1/45) := by
  simp only [reinit, precondApply]
  norm_num [residual, fasp_blas_dcsr_aAxpy, fasp_array_cp,
    fasp_blas_array_dotprod, rowDot, rowPosR, A2, pc2, List.range_succ,
    List.range']

theorem A2_reldiff :
    Real.sqrt (2753/3600) / Real.sqrt (3606242753/3600) <
      (1:ℝ)/2 * STAG_RATIO := by
  rw [ STAG_RATIO, ← Real.sqrt_div (by norm_num)]
  rw [show (1:ℝ)/2 * 1e-2 = 1/200 from by norm_num]
  rw [Real.sqrt_lt' (by norm_num)]
  norm_num

theorem A2_relres_small :
    Real.sqrt (17/900) / Real.sqrt 2 < (1:ℝ)/2 := by
  rw [← Real.sqrt_div (by norm_num)]
  rw [Real.sqrt_lt' (by norm_num)]
  norm_num

theorem sqrt17_small : Real.sqrt (17/900) ≤ 1 := by
  rw [show (1:ℝ) = Real.sqrt 1 from (Real.sqrt_one).symm]
  exact Real.sqrt_le_sqrt (by norm_num)

theorem A2_checkII : checkII A2 (some pc2) .REL_PRECRES 2 (1/2)
    ((1:ℝ)/2 * STAG_RATIO) [1001, 1]
    ⟨[15013/15, 7/60], [2/15, 1/15], [8/45, 2/45], [2/15, 1/60],
     [1/3, -(2/3)], [1, 1], [1, 1/4], [2/15, 1/15], [13/15, 7/60],
     [15013/15, 7/60], 1/5, 5/9, Real.sqrt (17/900), Real.sqrt 2,
     Real.sqrt (17/900), Real.sqrt (17/900) / Real.sqrt 2, Real.sqrt 2,
     Real.sqrt (3606242753/3600), Real.sqrt (2753/3600),
     Real.sqrt (2753/3600) / Real.sqrt (3606242753/3600),
     1, 1, 1, 1, 1⟩ =
    .toRestore .conv2
    ⟨[15013/15, 7/60], [2/15, 1/15], [2/15, 1/15], [2/15, 1/60],
     [1/3, -(2/3)], [2/15, 1/15], [2/15, 1/60], [2/15, 1/15], [13/15, 7/60],
     [15013/15, 7/60], 1/45, 5/9, Real.sqrt (17/900), Real.sqrt 2,
     Real.sqrt (17/900), Real.sqrt (17/900) / Real.sqrt 2, Real.sqrt 2,
     Real.sqrt (3606242753/3600), Real.sqrt (2753/3600),
     Real.sqrt (2753/3600) / Real.sqrt (3606242753/3600),
     1, 1, 1, 1, 1⟩ := by
  simp only [checkII]
  rw [if_pos (And.intro (by norm_num [Fasp.MAX_STAG]) A2_reldiff)]
  rw [A2_reinit, A2_arz]
  rw [if_pos A2_relres_small]

end SPBCGS

namespace SPBCGS

open Fasp

theorem A2_step2 : iterStep2 A2 (some pc2) .REL_PRECRES 2 (1/2)
    ((1:ℝ)/2 * STAG_RATIO) ((1:ℝ)/2 * 1e-2) SMALLREAL [1001, 1]
    ⟨[15013/15, 7/60], [2/15, 1/15], [8/45, 2/45], [1, 2], [1/3, -(2/3)],
     [1, 1], [1, 1/4], [2/15, 1/15], [13/15, 7/60], [0, 0],
     1/5, 5/9, BIGREAL, Real.sqrt 2, BIGREAL, 1, Real.sqrt 2,
     Real.sqrt (3606242753/3600), Real.sqrt (2753/3600),
     Real.sqrt (2753/3600) / Real.sqrt (3606242753/3600),
     1, 0, 1, 1, 1⟩ =
    .toRestore .conv2
    ⟨[15013/15, 7/60], [2/15, 1/15], [2/15, 1/15], [2/15, 1/60],
     [1/3, -(2/3)], [2/15, 1/15], [2/15, 1/60], [2/15, 1/15], [13/15, 7/60],
     [15013/15, 7/60], 1/45, 5/9, Real.sqrt (17/900), Real.sqrt 2,
     Real.sqrt (17/900), Real.sqrt (17/900) / Real.sqrt 2, Real.sqrt 2,
     Real.sqrt (3606242753/3600), Real.sqrt (2753/3600),
     Real.sqrt (2753/3600) / Real.sqrt (3606242753/3600),
     1, 1, 1, 1, 1⟩ := by
  have hnormd : ¬ (Real.sqrt (2753/3600) < (1:ℝ)/2 * 1e-2) := by
    push_neg
    rw [show (1:ℝ)/2 * 1e-2 = 1/200 from by norm_num]
    rw [show (1:ℝ)/200 = Real.sqrt ((1/200)^2) from by
      rw [Real.sqrt_sq (by norm_num)]]
    exact Real.sqrt_le_sqrt (by norm_num)
  have hsave : Real.sqrt (17/900) < BIGREAL - (1:ℝ)/2 * STAG_RATIO := by
    have h2 := sqrt17_small
    rw [BIGREAL, STAG_RATIO]
    have h3 : (1:ℝ) < 1e36 - 1/2 * 1e-2 := by norm_num
    linarith
  have hninf : ¬ (fasp_blas_array_norminf 2 [(15013:ℝ)/15, 7/60] ≤
      SMALLREAL) := by
    have ha1 : |(15013:ℝ)/15| = 15013/15 := abs_of_pos (by norm_num)
    have ha2 : |(7:ℝ)/60| = 7/60 := abs_of_pos (by norm_num)
    simp only [fasp_blas_array_norminf, List.range_succ, List.range_zero,
      SMALLREAL]
    norm_num [ha1, ha2]
  have hcp : fasp_array_cp 2 [(15013:ℝ)/15, 7/60] = [15013/15, 7/60] := by
    norm_num [fasp_array_cp, List.range_succ]
  simp only [iterStep2]
  rw [if_neg hnormd]
  rw [A2_arz]
  rw [if_neg (by simp [fasp_dvec_isnan])]
  rw [if_pos hsave]
  rw [hcp]
  rw [if_neg hninf]
  simp only [checksII_III]
  rw [A2_checkII]

end SPBCGS

namespace SPBCGS

open Fasp

theorem A2_run : fasp_solver_dcsr_spbcgs A2 [(1001 : ℝ), 1] [1000, 0]
    (some pc2) (1/2) 5 .REL_PRECRES =
    ⟨.conv2,
     ⟨[15013/15, 7/60], [2/15, 1/15], [2/15, 1/15], [2/15, 1/60],
      [1/3, -(2/3)], [2/15, 1/15], [2/15, 1/60], [2/15, 1/15], [13/15, 7/60],
      [15013/15, 7/60], 1/45, 5/9, Real.sqrt (17/900), Real.sqrt 2,
      Real.sqrt (17/900), Real.sqrt (17/900) / Real.sqrt 2, Real.sqrt 2,
      Real.sqrt (3606242753/3600), Real.sqrt (2753/3600),
      Real.sqrt (2753/3600) / Real.sqrt (3606242753/3600),
      1, 1, 1, 1, 1⟩, 1⟩ := by
  simp only [fasp_solver_dcsr_spbcgs]
  rw [show ([(1001:ℝ), 1]).length = 2 from rfl]
  rw [if_neg (by rw [A2_init]; norm_num)]
  rw [show ((1:ℝ)/2 * STAG_RATIO) = ((1:ℝ)/2 * STAG_RATIO) from rfl]
  rw [show ((5 : ℤ).toNat + 1) = 6 from rfl]
  rw [A2_start]
  rw [show (6 : ℕ) = 5 + 1 from rfl, spbcgs_loop]
  rw [if_pos (show (0 : ℤ) < 5 by norm_num)]
  rw [show { (⟨[1000, 0], [1, 1], [1, 1], [0, 0], [0, 0], [1, 1], [0, 0],
      [0, 0], [0, 0], [0, 0], 2, 0, BIGREAL, Real.sqrt 2, BIGREAL, 1,
      Real.sqrt 2, BIGREAL, 0, 0, 0, 0, 1, 1, 1⟩ : BState)
      with iter := (0 : ℤ) + 1 } =
    (⟨[1000, 0], [1, 1], [1, 1], [0, 0], [0, 0], [1, 1], [0, 0], [0, 0],
      [0, 0], [0, 0], 2, 0, BIGREAL, Real.sqrt 2, BIGREAL, 1, Real.sqrt 2,
      BIGREAL, 0, 0, 1, 0, 1, 1, 1⟩ : BState) from rfl]
  simp only [iterBody, A2_step1, A2_step2]
  rw [show viaRestore ExitKind.conv2 = true from rfl]
  rw [if_pos rfl]
  rw [RESTORE_BESTSOL]
  rw [if_neg (by norm_num)]
  rw [if_neg (show ¬ ((1 : ℤ) > 5) by norm_num)]

end SPBCGS

namespace SPBCGS

open Fasp

/-- The state carried by a loop-body outcome. -/
def IterOut.state : IterOut → BState
  | .cont s => s
  | .toRestore _ s => s
  | .toFinished _ s => s

/-- C3.  In the Check III ("prevent false convergence") branch under
`STOP_REL_PRECRES`, the relative residual produced after the fresh
residual computation is `tempr/normr0`, with `tempr` still holding the
`⟨t,t⟩` inner product stored earlier in the pass and not recomputed from
the new residual, while `absres` is recomputed as `√|⟨r', B r'⟩|` from the
fresh residual `r' = b − A·u`; under `STOP_REL_RES` the relative residual
is recomputed from the fresh residual. -/
theorem C3_checkIII_stale_tempr (A : dCSRmat) (pc : Option (List ℝ → List ℝ)) (m : ℕ)
    (tol : ℝ) (b : List ℝ) (st : BState)
    (hrel : st.relres < tol) :
    (checkIII A pc .REL_PRECRES m tol b st).state.relres =
      st.tempr / st.normr0 ∧
    (checkIII A pc .REL_PRECRES m tol b st).state.absres =
      Real.sqrt |fasp_blas_array_dotprod m (residual A m b st.u)
        (precondApply pc m (residual A m b st.u))| ∧
    (checkIII A pc .REL_RES m tol b st).state.relres =
      fasp_blas_array_norm2 m (residual A m b st.u) / st.normr0 := by
  refine ⟨?_, ?_, ?_⟩
  · simp only [checkIII]
    rw [if_pos hrel]
    split
    · rfl
    · split
      · rfl
      · rfl
  · simp only [checkIII]
    rw [if_pos hrel]
    split
    · rfl
    · split
      · rfl
      · rfl
  · simp only [checkIII]
    rw [if_pos hrel]
    split
    · rfl
    · split
      · rfl
      · rfl

/-- C1, counterexample.  On the 2×2 system `diag(1,8)·u = (1001,1)` with
initial guess `(1000,0)`, Jacobi-style preconditioner `diag(1,1/4)`,
`tol = 1/2` and `STOP_REL_PRECRES`, the solver returns successfully
(`ret = 1 ≥ 0`) through the Check II convergence `break`, yet the
Euclidean residual norm of the returned solution exceeds
`absres_best + tol * STAG_RATIO` (the saved best residual is measured in the
preconditioned norm `√⟨r,Br⟩`, not the Euclidean norm). -/
theorem C1_safety_net_counterexample :
    ¬ (0 ≤ (fasp_solver_dcsr_spbcgs A2 [(1001:ℝ), 1] [1000, 0] (some pc2)
        (1/2) 5 .REL_PRECRES).ret →
      fasp_blas_array_norm2 2 (residual A2 2 [(1001:ℝ), 1]
        (fasp_solver_dcsr_spbcgs A2 [(1001:ℝ), 1] [1000, 0] (some pc2)
          (1/2) 5 .REL_PRECRES).st.u) ≤
      (fasp_solver_dcsr_spbcgs A2 [(1001:ℝ), 1] [1000, 0] (some pc2)
        (1/2) 5 .REL_PRECRES).st.absres_best + (1/2) * STAG_RATIO) := by
  intro h
  have h2 := h (by rw [A2_run]; norm_num)
  rw [A2_run] at h2
  have hres : residual A2 2 [(1001:ℝ), 1] [15013/15, 7/60] =
      [2/15, 1/15] := by
    norm_num [residual, fasp_blas_dcsr_aAxpy, fasp_array_cp, rowDot, rowPosR,
      A2, List.range_succ, List.range']
  have hnorm : fasp_blas_array_norm2 2 [(2:ℝ)/15, 1/15] =
      Real.sqrt (1/45) := by
    norm_num [fasp_blas_array_norm2, fasp_blas_array_dotprod, List.range_succ]
  dsimp only at h2
  rw [hres, hnorm, STAG_RATIO] at h2
  have h3 : Real.sqrt (1/45) > 149/1000 := by
    rw [show (149:ℝ)/1000 = Real.sqrt ((149/1000)^2) from by
      rw [Real.sqrt_sq (by norm_num)]]
    apply Real.sqrt_lt_sqrt (by norm_num)
    norm_num
  have h4 : Real.sqrt (17/900) < 1375/10000 := by
    rw [Real.sqrt_lt' (by norm_num)]
    norm_num
  have h5 : (1:ℝ)/2 * 1e-2 = 1/200 := by norm_num
  rw [h5] at h2
  linarith

end SPBCGS

namespace SPBCGS

open Fasp

/-- C4.  When the α-denominator `⟨A·pp, r*⟩` vanishes (the 1×1 zero
matrix gives `⟨z,ρ⟩ = 0` in the first pass), the solver jumps to
`FINISHED` and returns the current iteration count `1` — a non-negative
"success" value — rather than the DIVZERO error code: `ITS_DIVZERO` only
prints a message and no error code is assigned to `iter` on this path
(unlike the `ERROR_SOLVER_STAG`/`ERROR_SOLVER_TOLSMALL`/
`ERROR_SOLVER_SOLSTAG` paths, which do assign an error code before
`goto FINISHED`); the ω-denominator guard in `iterStep1`, by contrast,
sets `ω = 0` and continues, as the claim says. -/
theorem C4_alpha_divzero_returns_iter :
    (fasp_solver_dcsr_spbcgs A0 [(1:ℝ)] [0] none (1/2) 5 .REL_RES).tag =
      .alphaZero ∧
    (fasp_solver_dcsr_spbcgs A0 [(1:ℝ)] [0] none (1/2) 5 .REL_RES).ret = 1 := by
  rw [A0_run]
  exact ⟨rfl, rfl⟩

/-- Witness for `C1_spbcgs_safety_net` at the concrete 2×2 run: every
hypothesis holds and the stopping-norm bound follows by applying the
theorem. -/
theorem C1_spbcgs_safety_net_witness :
    (A2.row = 2 ∧
     (∀ x : List ℝ, (precondApply (some pc2) 2 x).length = 2) ∧
     ([(1000:ℝ), 0] : List ℝ).length = 2 ∧
     (0:ℝ) ≤ 1/2 ∧
     ((fasp_solver_dcsr_spbcgs A2 [(1001:ℝ), 1] [1000, 0] (some pc2) (1/2) 5
        .REL_PRECRES).tag = .conv2 ∨
      (fasp_solver_dcsr_spbcgs A2 [(1001:ℝ), 1] [1000, 0] (some pc2) (1/2) 5
        .REL_PRECRES).tag = .conv3)) ∧
    stopNorm .REL_PRECRES (some pc2) 2 (residual A2 2 [(1001:ℝ), 1]
        (fasp_solver_dcsr_spbcgs A2 [(1001:ℝ), 1] [1000, 0] (some pc2) (1/2) 5
          .REL_PRECRES).st.u) ≤
      (fasp_solver_dcsr_spbcgs A2 [(1001:ℝ), 1] [1000, 0] (some pc2) (1/2) 5
        .REL_PRECRES).st.absres_best + (1/2) * STAG_RATIO :=
  ⟨⟨rfl, fun _ => rfl, rfl, by norm_num, Or.inl (by rw [A2_run])⟩,
   C1_spbcgs_safety_net A2 [(1001:ℝ), 1] [1000, 0] (some pc2) (1/2) 5
     .REL_PRECRES rfl (fun _ => rfl) rfl (by norm_num)
     (Or.inl (by rw [A2_run]))⟩

/-- Witness for `C3_checkIII_stale_tempr` at a concrete state with
`relres = 0 < tol` and `tempr = 5`. -/
theorem C3_checkIII_stale_tempr_witness :
    ((0:ℝ) < 1/2) ∧
    ((checkIII A0 none .REL_PRECRES 1 (1/2) [1]
        ⟨[1], [1], [0], [0], [0], [0], [0], [0], [0], [0],
         0, 5, 0, 0, 0, 0, 1, 1, 0, 0, 1, 1, 1, 1, 1⟩).state.relres = 5 / 1 ∧
     (checkIII A0 none .REL_PRECRES 1 (1/2) [1]
        ⟨[1], [1], [0], [0], [0], [0], [0], [0], [0], [0],
         0, 5, 0, 0, 0, 0, 1, 1, 0, 0, 1, 1, 1, 1, 1⟩).state.absres =
       Real.sqrt |fasp_blas_array_dotprod 1 (residual A0 1 [1] [1])
         (precondApply none 1 (residual A0 1 [1] [1]))| ∧
     (checkIII A0 none .REL_RES 1 (1/2) [1]
        ⟨[1], [1], [0], [0], [0], [0], [0], [0], [0], [0],
         0, 5, 0, 0, 0, 0, 1, 1, 0, 0, 1, 1, 1, 1, 1⟩).state.relres =
       fasp_blas_array_norm2 1 (residual A0 1 [1] [1]) / 1) :=
  ⟨by norm_num,
   C3_checkIII_stale_tempr A0 none 1 (1/2) [1]
     ⟨[1], [1], [0], [0], [0], [0], [0], [0], [0], [0],
      0, 5, 0, 0, 0, 0, 1, 1, 0, 0, 1, 1, 1, 1, 1⟩
     (show (0:ℝ) < 1/2 by norm_num)⟩

end SPBCGS

